import Mathlib

/-!
# Dead-code elimination and common-subexpression elimination over an SSA IR

A shallow embedding of `p2.cpp`: the eligibility classifier `cse_check_opcode`,
the dead-instruction test `isDead`, the pass `RunDeadCodeElimination`, the three
worklist flushes `process_load_worklist`, `process_store_worklist`,
`process_store_load_worklist` and the pass `CommonSubexpressionElimination`.

Modelling conventions.

* An instruction is a record; its `id` is its address (`Instruction *`), which is
  both its identity as an operand and the key that orders a
  `std::set<Instruction *>`.
* The use list of an instruction is derived from the operand lists of the module
  (`numUses`), `replaceAllUsesWith` rewrites operand lists, `eraseFromParent`
  removes the record from its block.
* The dominance oracle (`gDT.dominates`), the dominator-tree node order and the
  instruction simplifier are collaborators outside the source; they are
  parameters (`dominates`, `Function.domTree`, `simplify`).
* The six statistics are the fields of `Stats`.
* Every erase is recorded in a ghost log (`State.log`) that no decision of the
  code reads.
-/

namespace P2

/-- The opcodes of an instruction (the `Instruction::` enumerators). -/
inductive Opcode where
  | Ret | Br | Switch | IndirectBr | Invoke | Resume | Unreachable
  | CleanupRet | CatchRet | CatchSwitch | CallBr
  | FNeg
  | Add | FAdd | Sub | FSub | Mul | FMul | UDiv | SDiv | FDiv | URem | SRem | FRem
  | Shl | LShr | AShr | And | Or | Xor
  | Alloca | Load | Store | GetElementPtr | Fence | AtomicCmpXchg | AtomicRMW
  | Trunc | ZExt | SExt | FPToUI | FPToSI | UIToFP | SIToFP | FPTrunc | FPExt
  | PtrToInt | IntToPtr | BitCast | AddrSpaceCast
  | CleanupPad | CatchPad
  | ICmp | FCmp | PHI | Call | Select | UserOp1 | UserOp2 | VAArg
  | ExtractElement | InsertElement | ShuffleVector | ExtractValue | InsertValue
  | LandingPad | Freeze
  deriving DecidableEq, Repr

/-- The type identifiers returned by `getTypeID()`. -/
inductive TypeID where
  | HalfTyID | BFloatTyID | FloatTyID | DoubleTyID | X86_FP80TyID | FP128TyID
  | PPC_FP128TyID | VoidTyID | LabelTyID | MetadataTyID | X86_MMXTyID | TokenTyID
  | IntegerTyID | FunctionTyID | PointerTyID | StructTyID | ArrayTyID
  | FixedVectorTyID | ScalableVectorTyID
  deriving DecidableEq, Repr

/-- A type: its identifier and what tells two types of one identifier apart
(the bit width of an integer type, the pointee of a pointer type, ...). -/
structure Ty where
  typeID : TypeID
  detail : Nat
  deriving DecidableEq, Repr

/-- A value that an operand refers to: the result of the instruction at address
`id`, or a value that is not an instruction (argument, constant, global), which
carries its own type. Equality of `Val` is identity of the value object. -/
inductive Val where
  | inst (id : Nat)
  | ext (id : Nat) (ty : Ty)
  deriving DecidableEq, Repr

/-- An instruction. -/
structure Inst where
  id : Nat
  opcode : Opcode
  ty : Ty
  operands : List Val
  isVolatile : Bool
  mayHaveSideEffects : Bool
  isTerminator : Bool
  isExceptionalTerminator : Bool
  isIndirectTerminator : Bool
  isSafeToRemove : Bool
  deriving DecidableEq, Repr

/-- A basic block: its instructions in program order. -/
abbrev Block := List Inst

/-- A function: its blocks in layout order, and the nodes of its dominator tree
in the order `GraphTraits<DominatorTree *>::nodes_begin .. nodes_end` yields
them, each with the indices of its children (`node->children()`). Blocks are
named by their index in `blocks`. -/
structure Function where
  blocks : List Block
  domTree : List (Nat × List Nat)
  deriving DecidableEq, Repr

/-- A module: its functions. -/
abbrev Module := List Function

/-- The six statistics counters. -/
structure Stats where
  CSEDead : Nat
  CSEElim : Nat
  CSESimplify : Nat
  CSELdElim : Nat
  CSEStore2Load : Nat
  CSEStElim : Nat
  deriving DecidableEq, Repr

/-- Which statement of the source erased an instruction. -/
inductive Site where
  | dead | simplified | blockScan | domTreeScan | loadFlush | storeFlush | storeLoadFlush
  deriving DecidableEq, Repr

/-- Ghost record of one erase: the erased instruction as it was when erased,
the instruction compared against (`i` of the source; none in dead-code
elimination), the value its uses were redirected to (none when no
`replaceAllUsesWith` precedes the erase), and the number of operands of the
module that still referred to the erased instruction right after the erase. -/
structure Event where
  site : Site
  erased : Inst
  survivor : Option Inst
  replacement : Option Val
  usesLeft : Nat
  deriving DecidableEq, Repr

/-! ## The IR primitives -/

/-- All instructions of a function, block after block. -/
def Function.insts (f : Function) : List Inst := f.blocks.flatten

/-- All instructions of a module. -/
def allInsts (m : Module) : List Inst := (m.map Function.insts).flatten

/-- Dereference an instruction address. -/
def getInst (m : Module) (id : Nat) : Option Inst :=
  (allInsts m).find? (fun x => x.id == id)

/-- Number of operands in the module that refer to the instruction `id`
(the length of its use list). -/
def numUses (m : Module) (id : Nat) : Nat :=
  ((allInsts m).map (fun x => x.operands.count (Val.inst id))).sum

/-- Apply `g` to every instruction of the module. -/
def mapInsts (g : Inst → Inst) (m : Module) : Module :=
  m.map (fun f => { f with blocks := f.blocks.map (fun b => b.map g) })

/-- Keep the instructions of the module that satisfy `p`. -/
def filterInsts (p : Inst → Bool) (m : Module) : Module :=
  m.map (fun f => { f with blocks := f.blocks.map (fun b => b.filter p) })

/-- Redirect one operand. -/
def substVal (id : Nat) (v : Val) (o : Val) : Val :=
  if o = Val.inst id then v else o

/-- The effect of `replaceAllUsesWith` on one instruction. -/
def Inst.subst (id : Nat) (v : Val) (x : Inst) : Inst :=
  { x with operands := x.operands.map (substVal id v) }

/-- `j->replaceAllUsesWith(v)`: every operand that refers to `id` refers to `v`. -/
def replaceAllUsesWith (m : Module) (id : Nat) (v : Val) : Module :=
  mapInsts (Inst.subst id v) m

/-- `j->eraseFromParent()`. -/
def eraseFromParent (m : Module) (id : Nat) : Module :=
  filterInsts (fun x => !(x.id == id)) m

/-- `getType()` of a value. -/
def valTy (m : Module) : Val → Option Ty
  | Val.inst id => (getInst m id).map Inst.ty
  | Val.ext _ ty => some ty

/-- `getOperand(w)`. -/
def Inst.getOperand (x : Inst) (w : Nat) : Option Val := x.operands.get? w

/-- The guard `isTerminator() || isExceptionalTerminator() ||
isIndirectTerminator() || mayHaveSideEffects() || !isSafeToRemove()`. -/
def Inst.notRemovable (x : Inst) : Bool :=
  x.isTerminator || x.isExceptionalTerminator || x.isIndirectTerminator ||
    x.mayHaveSideEffects || !x.isSafeToRemove

/-! ## `cse_check_opcode` and `isDead` -/

/-- The `switch` of `cse_check_opcode`. -/
def cseOpcode : Opcode → Bool
  | .Add | .FNeg | .FAdd | .Sub | .FSub | .Mul | .FMul | .UDiv | .SDiv | .FDiv
  | .URem | .SRem | .FRem | .Shl | .LShr | .AShr | .And | .Or | .Xor => true
  | _ => false

/-- `cse_check_opcode`. -/
def cse_check_opcode (x : Inst) : Bool :=
  let mRetVal := cseOpcode x.opcode
  let mRetVal := if x.isVolatile then false else mRetVal
  let mRetVal := if x.notRemovable then false else mRetVal
  mRetVal

/-- The opcodes of the first group of `case` labels of `isDead`. -/
def deadOpcode : Opcode → Bool
  | .Add | .FNeg | .FAdd | .Sub | .FSub | .Mul | .FMul | .UDiv | .SDiv | .FDiv
  | .URem | .SRem | .FRem | .Shl | .LShr | .AShr | .And | .Or | .Xor
  | .GetElementPtr | .Trunc | .ZExt | .SExt | .FPToUI | .FPToSI | .UIToFP | .SIToFP
  | .FPTrunc | .FPExt | .PtrToInt | .IntToPtr | .BitCast | .AddrSpaceCast
  | .ICmp | .FCmp | .PHI | .Select | .ExtractElement | .InsertElement
  | .ShuffleVector | .ExtractValue | .InsertValue => true
  | _ => false

/-- `isDead`: the instruction has no use and its opcode is one of the listed
ones, or it is a load that is not volatile. -/
def isDead (m : Module) (x : Inst) : Bool :=
  if numUses m x.id = 0 then
    if deadOpcode x.opcode then true
    else if x.opcode = Opcode.Load then
      if x.isVolatile then false else true
    else false
  else false

/-! ## Pass state -/

/-- The mutable state the passes work on: the module, the statistics, the three
global worklists (a `std::set<Instruction *>` is the list of its members in
ascending address order) and the ghost log of erases, oldest first. -/
structure State where
  m : Module
  stats : Stats
  load_worklist : List Nat
  store_worklist : List Nat
  store_load_worklist : List Nat
  log : List Event
  deriving DecidableEq, Repr

/-- `std::set::insert`. -/
def setInsert (a : Nat) : List Nat → List Nat
  | [] => [a]
  | b :: l => if a < b then a :: b :: l else if a = b then b :: l else b :: setInsert a l

/-- `std::set::erase` of one member. -/
def setErase (a : Nat) (l : List Nat) : List Nat := l.filter (fun b => !(b == a))

/-- The members of a set from `p` to the end (what an iterator that starts at
`p` still has to visit). -/
def fromMember (p : Nat) (l : List Nat) : List Nat := l.dropWhile (fun b => !(b == p))

/-- The block `bi` of the function `fi`. -/
def getBlock (m : Module) (fi bi : Nat) : Block :=
  match m.get? fi with
  | none => []
  | some f => (f.blocks.get? bi).getD []

/-- The addresses of the instructions of a block, in program order. -/
def blockIds (m : Module) (fi bi : Nat) : List Nat := (getBlock m fi bi).map Inst.id

/-- The state after `j->replaceAllUsesWith(v)` (when `v` is given) followed by
`j->eraseFromParent()`, with the erase logged. -/
def State.erase (s : State) (site : Site) (j : Inst) (i : Option Inst)
    (v : Option Val) : State :=
  let m1 := match v with
    | some v => replaceAllUsesWith s.m j.id v
    | none => s.m
  let m2 := eraseFromParent m1 j.id
  { s with m := m2, log := s.log ++ [Event.mk site j i v (numUses m2 j.id)] }

/-! ## `RunDeadCodeElimination` -/

/-- One iteration of the instruction loop of `RunDeadCodeElimination` with the
iterator at the instruction `iid`. `simplify` stands for `SimplifyInstruction`.
Only the instruction under the iterator is ever erased, and the iterator then
moves to its successor, so the loop visits the instructions the block had when
the loop started, each once. -/
def dceStep (simplify : Module → Inst → Option Val) (s : State) (iid : Nat) : State :=
  match getInst s.m iid with
  | none => s
  | some i =>
    if isDead s.m i then
      let s1 := { s with stats := { s.stats with CSEDead := s.stats.CSEDead + 1 } }
      s1.erase Site.dead i none none
    else
      match simplify s.m i with
      | some temp =>
        let s1 := { s with stats := { s.stats with CSESimplify := s.stats.CSESimplify + 1 } }
        s1.erase Site.simplified i none (some temp)
      | none => s

/-- The instruction loop over the block `bi` of the function `fi`. -/
def dceBlock (simplify : Module → Inst → Option Val) (fi : Nat) (s : State) (bi : Nat) : State :=
  (blockIds s.m fi bi).foldl (dceStep simplify) s

/-- The block loop over the function `fi`. -/
def dceFunction (simplify : Module → Inst → Option Val) (s : State) (fi : Nat) : State :=
  match s.m.get? fi with
  | none => s
  | some f => (List.range f.blocks.length).foldl (dceBlock simplify fi) s

/-- `RunDeadCodeElimination`. -/
def RunDeadCodeElimination (simplify : Module → Inst → Option Val) (s : State) : State :=
  (List.range s.m.length).foldl (dceFunction simplify) s

/-! ## The worklist flushes

A loop over a `std::set` visits its members in ascending address order. In each
of the three flushes the inner loop erases only the member under its own
iterator `q` and then stands on the successor, so it visits the members that
followed `p` when it started, each once (`List.foldl` over that list). The
outer iterator `p` is never erased by its own inner loop (`i != j`), members
ahead of it may be: it visits the members of the initial set that are still in
the set when it reaches them. A member that does not dereference to an
instruction of the module would be a dangling pointer; the model skips it. -/

/-- The test of `process_load_worklist` on the pair `(i, j)`. -/
def loadCond (i j : Inst) : Bool :=
  (i.id != j.id) && (i.getOperand 0 == j.getOperand 0) && (!j.isVolatile) &&
    (i.ty.typeID == j.ty.typeID)

/-- Body of the inner loop of `process_load_worklist`. -/
def loadInner (dominates : Nat → Nat → Bool) (iid : Nat) (s : State) (jid : Nat) : State :=
  match getInst s.m iid, getInst s.m jid with
  | some i, some j =>
    if loadCond i j then
      if dominates iid jid then
        if !j.notRemovable then
          let s1 := s.erase Site.loadFlush j (some i) (some (Val.inst iid))
          { s1 with load_worklist := setErase jid s1.load_worklist,
                    stats := { s1.stats with CSELdElim := s1.stats.CSELdElim + 1 } }
        else s
      else s
    else s
  | _, _ => s

/-- Body of the outer loop of `process_load_worklist`. -/
def loadOuter (dominates : Nat → Nat → Bool) (s : State) (p : Nat) : State :=
  if p ∈ s.load_worklist then
    (fromMember p s.load_worklist).foldl (loadInner dominates p) s
  else s

/-- `process_load_worklist`. -/
def process_load_worklist (dominates : Nat → Nat → Bool) (s : State) : State :=
  let s1 := s.load_worklist.foldl (loadOuter dominates) s
  { s1 with load_worklist := [] }

/-- The test of `process_store_worklist` on the pair `(i, j)`. -/
def storeCond (i j : Inst) : Bool :=
  (i.id != j.id) && (i.getOperand 1 == j.getOperand 1) && (!j.isVolatile) &&
    (i.ty.typeID == j.ty.typeID)

/-- Body of the inner loop of `process_store_worklist`. After the erase through
`std::next(q).base()` the reverse iterator `q`, left untouched, designates the
member that preceded the erased one. -/
def storeInner (dominates : Nat → Nat → Bool) (iid : Nat) (s : State) (jid : Nat) : State :=
  match getInst s.m iid, getInst s.m jid with
  | some i, some j =>
    if storeCond i j then
      if dominates iid jid then
        if !j.notRemovable then
          let s1 := s.erase Site.storeFlush j (some i) (some (Val.inst iid))
          { s1 with store_worklist := setErase jid s1.store_worklist,
                    stats := { s1.stats with CSEStElim := s1.stats.CSEStElim + 1 } }
        else s
      else s
    else s
  | _, _ => s

/-- Body of the outer loop of `process_store_worklist` (reverse iterators:
from `p` toward the smallest address). -/
def storeOuter (dominates : Nat → Nat → Bool) (s : State) (p : Nat) : State :=
  if p ∈ s.store_worklist then
    (fromMember p s.store_worklist.reverse).foldl (storeInner dominates p) s
  else s

/-- `process_store_worklist`. -/
def process_store_worklist (dominates : Nat → Nat → Bool) (s : State) : State :=
  let s1 := s.store_worklist.reverse.foldl (storeOuter dominates) s
  { s1 with store_worklist := [] }

/-- The first test of the inner loop of `process_store_load_worklist`: `j` is
another store to the address of `i`. -/
def killCond (i j : Inst) : Bool :=
  (i.id != j.id) && (j.opcode == Opcode.Store) && (j.getOperand 1 == i.getOperand 1)

/-- The second test: `j` is a non-volatile load from the address of `i` whose
type identifier is that of the type of operand 1 of `i`. -/
def forwardCond (m : Module) (i j : Inst) : Bool :=
  (i.id != j.id) && (j.opcode == Opcode.Load) && (j.getOperand 0 == i.getOperand 1) &&
    (!j.isVolatile) &&
    (some j.ty.typeID == ((i.getOperand 1).bind (valTy m)).map Ty.typeID)

/-- The inner loop of `process_store_load_worklist` over the members still to
visit; it stops at the first kill. -/
def storeLoadInner (dominates : Nat → Nat → Bool) (iid : Nat) : List Nat → State → State
  | [], s => s
  | jid :: rest, s =>
    match getInst s.m iid, getInst s.m jid with
    | some i, some j =>
      if killCond i j then s
      else if forwardCond s.m i j then
        if dominates iid jid then
          if !j.notRemovable then
            let s1 := s.erase Site.storeLoadFlush j (some i) (i.getOperand 0)
            storeLoadInner dominates iid rest
              { s1 with store_load_worklist := setErase jid s1.store_load_worklist,
                        stats := { s1.stats with CSEStore2Load := s1.stats.CSEStore2Load + 1 } }
          else storeLoadInner dominates iid rest s
        else storeLoadInner dominates iid rest s
      else storeLoadInner dominates iid rest s
    | _, _ => storeLoadInner dominates iid rest s

/-- Body of the outer loop of `process_store_load_worklist`. -/
def storeLoadOuter (dominates : Nat → Nat → Bool) (s : State) (p : Nat) : State :=
  if p ∈ s.store_load_worklist then
    match getInst s.m p with
    | some i =>
      if i.opcode = Opcode.Store then
        storeLoadInner dominates p (fromMember p s.store_load_worklist) s
      else s
    | none => s
  else s

/-- `process_store_load_worklist`. -/
def process_store_load_worklist (dominates : Nat → Nat → Bool) (s : State) : State :=
  let s1 := s.store_load_worklist.foldl (storeLoadOuter dominates) s
  { s1 with store_load_worklist := [] }

/-! ## `CommonSubexpressionElimination` -/

/-- The loop `for (w = 0; w < i->getNumOperands(); w++)` that computes
`areOperandsSame`. -/
def areOperandsSame (i j : Inst) : Bool :=
  (List.range i.operands.length).all (fun w => i.getOperand w == j.getOperand w)

/-- The four-part test that precedes the operand loop. -/
def sameShape (i j : Inst) : Bool :=
  (i.id != j.id) && (i.opcode == j.opcode) && (i.ty.typeID == j.ty.typeID) &&
    (i.operands.length == j.operands.length)

/-- Body of the `j` loop of both scans (the intra-block one and the one over a
dominator-tree child), with the iterator `j` at `jid`. -/
def scanStep (dominates : Nat → Nat → Bool) (site : Site) (iid : Nat) (s : State)
    (jid : Nat) : State :=
  match getInst s.m iid, getInst s.m jid with
  | some i, some j =>
    if sameShape i j then
      if areOperandsSame i j then
        if dominates iid jid then
          let s1 := s.erase site j (some i) (some (Val.inst iid))
          { s1 with stats := { s1.stats with CSEElim := s1.stats.CSEElim + 1 } }
        else s
      else s
    else s
  | _, _ => s

/-- The instructions of a block from `iid` to the end (`for (auto j = i; ...)`). -/
def idsFrom (iid : Nat) (b : Block) : List Nat :=
  (b.map Inst.id).dropWhile (fun k => !(k == iid))

/-- Body of the instruction loop of the per-block phase, with the iterator `i`
at `iid`. An instruction that the `j` loop of an earlier iteration erased is no
longer in the block, so the iterator never stands on it. -/
def blockStep (dominates : Nat → Nat → Bool) (fi bi : Nat) (s : State) (iid : Nat) : State :=
  match getInst s.m iid with
  | none => s
  | some i =>
    if i.opcode = Opcode.Load then
      process_store_worklist dominates { s with load_worklist := setInsert iid s.load_worklist }
    else if i.opcode = Opcode.Store then
      process_load_worklist dominates { s with store_worklist := setInsert iid s.store_worklist }
    else if cse_check_opcode i then
      (idsFrom iid (getBlock s.m fi bi)).foldl (scanStep dominates Site.blockScan iid) s
    else s

/-- The per-block phase on the block `bi` of the function `fi`. -/
def cseBlock (dominates : Nat → Nat → Bool) (fi : Nat) (s : State) (bi : Nat) : State :=
  if (getBlock s.m fi bi).isEmpty then s
  else
    let s1 := (blockIds s.m fi bi).foldl (blockStep dominates fi bi) s
    process_store_worklist dominates (process_load_worklist dominates s1)

/-- The per-block phase on the function `fi`. -/
def cseFunction (dominates : Nat → Nat → Bool) (s : State) (fi : Nat) : State :=
  match s.m.get? fi with
  | none => s
  | some f => (List.range f.blocks.length).foldl (cseBlock dominates fi) s

/-- The `j` loop over the child block `ci`. -/
def childScan (dominates : Nat → Nat → Bool) (fi iid : Nat) (s : State) (ci : Nat) : State :=
  (blockIds s.m fi ci).foldl (scanStep dominates Site.domTreeScan iid) s

/-- Body of the instruction loop of the dominator-tree walk, with the iterator
`i` at `iid` and the children `children` of the current node. -/
def nodeStep (dominates : Nat → Nat → Bool) (fi : Nat) (children : List Nat) (s : State)
    (iid : Nat) : State :=
  match getInst s.m iid with
  | none => s
  | some i =>
    if i.opcode = Opcode.Load ∨ i.opcode = Opcode.Store then
      { s with store_load_worklist := setInsert iid s.store_load_worklist }
    else if cse_check_opcode i then
      children.foldl (childScan dominates fi iid) s
    else s

/-- The dominator-tree walk at one node. -/
def cseNode (dominates : Nat → Nat → Bool) (fi : Nat) (s : State) (node : Nat × List Nat) :
    State :=
  if (getBlock s.m fi node.1).isEmpty then s
  else
    let s1 := (blockIds s.m fi node.1).foldl (nodeStep dominates fi node.2) s
    process_store_load_worklist dominates s1

/-- The dominator-tree walk of the function `fi`. -/
def cseDomFunction (dominates : Nat → Nat → Bool) (s : State) (fi : Nat) : State :=
  match s.m.get? fi with
  | none => s
  | some f => if f.blocks.isEmpty then s else f.domTree.foldl (cseNode dominates fi) s

/-- The first loop nest of `CommonSubexpressionElimination`: the per-block
phase over all functions. -/
def csePerBlock (dominates : Nat → Nat → Bool) (s : State) : State :=
  (List.range s.m.length).foldl (cseFunction dominates) s

/-- The statement `CSEElim++;` on line 391: the comment opened by `/*` on that
line is closed by the `*/` inside `/*/`, so the increment that follows is code,
executed once per call. -/
def strayIncrement (s : State) : State :=
  { s with stats := { s.stats with CSEElim := s.stats.CSEElim + 1 } }

/-- The second loop nest of `CommonSubexpressionElimination`: the
dominator-tree walk over all functions. -/
def cseDomWalk (dominates : Nat → Nat → Bool) (s : State) : State :=
  (List.range s.m.length).foldl (cseDomFunction dominates) s

/-- `CommonSubexpressionElimination`. -/
def CommonSubexpressionElimination (dominates : Nat → Nat → Bool) (s : State) : State :=
  cseDomWalk dominates (strayIncrement (csePerBlock dominates s))

/-- The pipeline of `main`: `RunDeadCodeElimination` then
`CommonSubexpressionElimination`. -/
def pipeline (simplify : Module → Inst → Option Val) (dominates : Nat → Nat → Bool)
    (s : State) : State :=
  CommonSubexpressionElimination dominates (RunDeadCodeElimination simplify s)

/-- A fresh run: the module as loaded, all counters zero, worklists empty. -/
def State.init (m : Module) : State :=
  ⟨m, ⟨0, 0, 0, 0, 0, 0⟩, [], [], [], []⟩

/-! ## Traces: what a run of the passes is made of -/

/-- The counter that the erase at a site increments. -/
def Stats.bump (st : Stats) : Site → Stats
  | Site.dead => { st with CSEDead := st.CSEDead + 1 }
  | Site.simplified => { st with CSESimplify := st.CSESimplify + 1 }
  | Site.blockScan => { st with CSEElim := st.CSEElim + 1 }
  | Site.domTreeScan => { st with CSEElim := st.CSEElim + 1 }
  | Site.loadFlush => { st with CSELdElim := st.CSELdElim + 1 }
  | Site.storeFlush => { st with CSEStElim := st.CSEStElim + 1 }
  | Site.storeLoadFlush => { st with CSEStore2Load := st.CSEStore2Load + 1 }

/-- What the code has tested when the scans merge `j` into `i`. -/
def MergeOK (dominates : Nat → Nat → Bool) (m : Module) (i j : Inst) (v : Option Val) : Prop :=
  getInst m i.id = some i ∧ cse_check_opcode i = true ∧ sameShape i j = true ∧
    areOperandsSame i j = true ∧ dominates i.id j.id = true ∧ v = some (Val.inst i.id)

/-- The pass that is running, with the collaborator it consults. -/
inductive Pass where
  | dce (simplify : Module → Inst → Option Val)
  | cse (dominates : Nat → Nat → Bool)

/-- What the code has tested when it erases `j` at `site` in the module `m`
(`i` is the instruction `j` was compared with, `v` the value that replaces `j`). -/
def Guard (pass : Pass) (m : Module) (site : Site) (j : Inst) (i : Option Inst)
    (v : Option Val) : Prop :=
  getInst m j.id = some j ∧
  match pass, site, i with
  | Pass.dce _, Site.dead, none => v = none ∧ isDead m j = true
  | Pass.dce simplify, Site.simplified, none =>
      isDead m j = false ∧ simplify m j = v ∧ v ≠ none
  | Pass.cse dominates, Site.blockScan, some i => MergeOK dominates m i j v
  | Pass.cse dominates, Site.domTreeScan, some i => MergeOK dominates m i j v
  | Pass.cse dominates, Site.loadFlush, some i => getInst m i.id = some i ∧
      loadCond i j = true ∧ dominates i.id j.id = true ∧ j.notRemovable = false ∧
      v = some (Val.inst i.id)
  | Pass.cse dominates, Site.storeFlush, some i => getInst m i.id = some i ∧
      storeCond i j = true ∧ dominates i.id j.id = true ∧ j.notRemovable = false ∧
      v = some (Val.inst i.id)
  | Pass.cse dominates, Site.storeLoadFlush, some i => getInst m i.id = some i ∧
      i.opcode = Opcode.Store ∧ killCond i j = false ∧ forwardCond m i j = true ∧
      dominates i.id j.id = true ∧ j.notRemovable = false ∧ v = i.getOperand 0
  | _, _, _ => False

/-- The states reachable from a state by guarded erases (each with the
increment of its counter) and by updates of the worklists. -/
inductive Trace (pass : Pass) : State → State → Prop where
  | refl (s : State) : Trace pass s s
  | erase {s s1 s2 : State} (site : Site) (j : Inst) (i : Option Inst) (v : Option Val) :
      Trace pass s s1 → Guard pass s1.m site j i v →
      s2.m = (s1.erase site j i v).m → s2.log = (s1.erase site j i v).log →
      s2.stats = s1.stats.bump site → Trace pass s s2
  | frame {s s1 s2 : State} : Trace pass s s1 → s2.m = s1.m → s2.log = s1.log →
      s2.stats = s1.stats → Trace pass s s2

/-- An instruction without its operand list: what no pass ever changes. -/
def Inst.frame (x : Inst) : Inst := { x with operands := [] }

/-- What `replaceAllUsesWith(v)` on `jid` (or no call, when `v` is none) does to
one instruction. -/
def redirect (jid : Nat) (v : Option Val) (x : Inst) : Inst :=
  match v with
  | some v => x.subst jid v
  | none => x

/-- The module `m` comes from `m0` by removing instructions and rewriting
operand lists. -/
def Descends (m0 m : Module) : Prop :=
  ∃ (ids : List Nat) (g : Inst → Inst), (∀ x, (g x).frame = x.frame) ∧
    m = filterInsts (fun x => decide (x.id ∉ ids)) (mapInsts g m0)

/-- The terminator opcodes (those for which `isTerminator()` answers true). -/
def Opcode.isTerm : Opcode → Bool
  | .Ret | .Br | .Switch | .IndirectBr | .Invoke | .Resume | .Unreachable
  | .CleanupRet | .CatchRet | .CatchSwitch | .CallBr => true
  | _ => false

/-- What the `replaceAllUsesWith` of a logged erase does to one operand. -/
def Event.apply (e : Event) (o : Val) : Val :=
  match e.replacement with
  | some v => substVal e.erased.id v o
  | none => o

/-- What the erases of a log, in order, do to one operand. -/
def replayVal (new : List Event) (o : Val) : Val :=
  new.foldl (fun o e => e.apply o) o

/-- The net effect of a trace from `s` to `s2`: the events `new` were logged,
the counters were bumped once per event, the module lost the instructions the
events erased and the others had their operands rewritten by `g`, and every
event passed its guard in the module of its time. -/
structure Summary (pass : Pass) (s s2 : State) (new : List Event) (g : Inst → Inst) :
    Prop where
  log : s2.log = s.log ++ new
  keep : ∀ x, (g x).frame = x.frame
  ops : ∀ x, (g x).operands = x.operands.map (replayVal new)
  m : s2.m = filterInsts (fun x => decide (x.id ∉ new.map (fun e => e.erased.id)))
    (mapInsts g s.m)
  stats : s2.stats = new.foldl (fun st e => st.bump e.site) s.stats
  guard : ∀ e ∈ new, ∃ m, Descends s.m m ∧
    Guard pass m e.site e.erased e.survivor e.replacement

/-! ## Properties of the erases of a run -/

/-- Every erase logged between `s` and `s2` was of an instruction `j` compared
with an instruction `i` for which the oracle answered that `i` dominates `j`;
the uses of `j` went to `i`, or, in store-to-load forwarding, to the value
stored by the store `i`. -/
def DominatedErases (dominates : Nat → Nat → Bool) (s s2 : State) : Prop :=
  ∃ new, s2.log = s.log ++ new ∧
    ∀ e ∈ new, ∃ i, e.survivor = some i ∧ dominates i.id e.erased.id = true ∧
      (e.replacement = some (Val.inst i.id) ∨
        (e.site = Site.storeLoadFlush ∧ i.opcode = Opcode.Store ∧
          e.replacement = i.getOperand 0))

/-- Every load and every store erased between `s` and `s2` had its volatile
flag clear. -/
def NoVolatileErased (s s2 : State) : Prop :=
  ∃ new, s2.log = s.log ++ new ∧
    ∀ e ∈ new, (e.erased.opcode = Opcode.Load ∨ e.erased.opcode = Opcode.Store) →
      e.erased.isVolatile = false

/-- No operand of the module refers to the instruction `k`. -/
def Unused (m : Module) (k : Nat) : Prop :=
  ∀ x ∈ allInsts m, Val.inst k ∉ x.operands

/-- No instruction of the module has the address `k`. -/
def Absent (m : Module) (k : Nat) : Prop :=
  ∀ x ∈ allInsts m, x.id ≠ k

/-- Every store whose stored value is the result of an instruction is
dominated by that instruction (a definition dominates its use). -/
def StoreOperandsDominate (dominates : Nat → Nat → Bool) (m : Module) : Prop :=
  ∀ x ∈ allInsts m, x.opcode = Opcode.Store →
    ∀ k, x.getOperand 0 = some (Val.inst k) → dominates k x.id = true

/-- Graph integrity of the erases logged after the first `base` ones: right
after each erase no operand referred to the erased instruction, and in the
module as it is now the erased instruction is neither present nor referred to. -/
def Intact (base : Nat) (s : State) : Prop :=
  base ≤ s.log.length ∧
    ∀ e ∈ s.log.drop base, e.usesLeft = 0 ∧ Unused s.m e.erased.id ∧ Absent s.m e.erased.id

/-- Graph integrity between `s` and `s2`: every erase logged in between left
no use of the erased instruction behind, and no operand of the module of `s2`
refers to an instruction erased in between. -/
def Integrity (s s2 : State) : Prop :=
  ∃ new, s2.log = s.log ++ new ∧
    ∀ e ∈ new, e.usesLeft = 0 ∧ numUses s2.m e.erased.id = 0

/-! ## Instructions and types for examples -/

/-- The type `i32`. -/
def i32 : Ty := ⟨TypeID.IntegerTyID, 32⟩

/-- A pointer type. -/
def ptrTy : Ty := ⟨TypeID.PointerTyID, 0⟩

/-- The type `void`. -/
def voidTy : Ty := ⟨TypeID.VoidTyID, 0⟩

/-- An instruction with no flag set: not volatile, no side effect, not a
terminator, safe to remove. -/
def Inst.plain (id : Nat) (opcode : Opcode) (ty : Ty) (operands : List Val) : Inst :=
  ⟨id, opcode, ty, operands, false, false, false, false, false, true⟩

/-- A load from `p`; a volatile load reports side effects. -/
def Inst.load (id : Nat) (ty : Ty) (p : Val) (vol : Bool) : Inst :=
  ⟨id, Opcode.Load, ty, [p], vol, vol, false, false, false, true⟩

/-- A store of `v` to `p`; a store writes memory, so it reports side effects. -/
def Inst.store (id : Nat) (v p : Val) (vol : Bool) : Inst :=
  ⟨id, Opcode.Store, voidTy, [v, p], vol, true, false, false, false, true⟩

/-- A `ret v`. -/
def Inst.ret (id : Nat) (v : Val) : Inst :=
  ⟨id, Opcode.Ret, voidTy, [v], false, false, true, false, false, true⟩

/-- A `call` with the given arguments (it may have side effects). -/
def Inst.call (id : Nat) (args : List Val) : Inst :=
  ⟨id, Opcode.Call, voidTy, args, false, true, false, false, false, true⟩

/-- The simplifier that never finds a simpler value. -/
def noSimplify : Module → Inst → Option Val := fun _ _ => none

/-- The block of the scenario of C2: `t1 = add a, b; t2 = add a, b;
store t2, p; l1 = load p; l2 = load p`, one function, one block; `a`, `b`, `p`
are values that are not instructions; addresses ascend in program order. -/
def c2Module : Module :=
  [⟨[[Inst.plain 1 Opcode.Add i32 [Val.ext 10 i32, Val.ext 11 i32],
      Inst.plain 2 Opcode.Add i32 [Val.ext 10 i32, Val.ext 11 i32],
      Inst.store 3 (Val.inst 2) (Val.ext 12 ptrTy) false,
      Inst.load 4 i32 (Val.ext 12 ptrTy) false,
      Inst.load 5 i32 (Val.ext 12 ptrTy) false]], [(0, [])]⟩]

/-- The block of `c2Module` followed by a call that uses `t1`, `l1` and `l2`,
so that none of them is dead. -/
def c2ModuleUsed : Module :=
  [⟨[[Inst.plain 1 Opcode.Add i32 [Val.ext 10 i32, Val.ext 11 i32],
      Inst.plain 2 Opcode.Add i32 [Val.ext 10 i32, Val.ext 11 i32],
      Inst.store 3 (Val.inst 2) (Val.ext 12 ptrTy) false,
      Inst.load 4 i32 (Val.ext 12 ptrTy) false,
      Inst.load 5 i32 (Val.ext 12 ptrTy) false,
      Inst.call 6 [Val.inst 1, Val.inst 4, Val.inst 5]]], [(0, [])]⟩]

/-- Dominance that follows address order (program order when addresses ascend
with it). -/
def domByAddress : Nat → Nat → Bool := fun a b => decide (a < b)

/-! ## Runs of the whole program and the modules of the scenarios -/

/-- One run of the program on a module: fresh counters, empty worklists. -/
def run (simplify : Module → Inst → Option Val) (dominates : Nat → Nat → Bool)
    (m : Module) : State :=
  pipeline simplify dominates (State.init m)

/-- The module that one run leaves. -/
def runModule (simplify : Module → Inst → Option Val) (dominates : Nat → Nat → Bool)
    (m : Module) : Module :=
  (run simplify dominates m).m

/-- The module of C8: `a = add x, y; b = add a, z; ret w`, where `b` has no
use and `a` is used by `b` only. -/
def c8Module : Module :=
  [⟨[[Inst.plain 1 Opcode.Add i32 [Val.ext 10 i32, Val.ext 11 i32],
      Inst.plain 2 Opcode.Add i32 [Val.inst 1, Val.ext 12 i32],
      Inst.ret 3 (Val.ext 13 i32)]], [(0, [])]⟩]

/-- The scenario of C1 alone: `P` holds `t = mul x, y` and a branch, its only
dominator-tree child `C` holds `s = mul x, y` and a `ret s`. -/
def c1Pair : Module :=
  [⟨[[Inst.plain 3 Opcode.Mul i32 [Val.ext 10 i32, Val.ext 11 i32],
        ⟨4, Opcode.Br, voidTy, [], false, false, true, false, false, true⟩],
      [Inst.plain 5 Opcode.Mul i32 [Val.ext 10 i32, Val.ext 11 i32],
        Inst.ret 6 (Val.inst 5)]],
    [(0, [1]), (1, [])]⟩]

/-! ## Reached states of `CommonSubexpressionElimination` -/

/-- The module `m` holds instructions of `m0` only, their operands rewritten
by one substitution that leaves the values that are not instructions alone. -/
def Rewritten (m0 m : Module) : Prop :=
  ∃ σ : Val → Val, (∀ id ty, σ (Val.ext id ty) = Val.ext id ty) ∧
    ∀ x ∈ allInsts m, ∃ x0 ∈ allInsts m0, x.frame = x0.frame ∧
      x.operands = x0.operands.map σ

/-- The effect of a stretch of `CommonSubexpressionElimination` from `s` to
`s2` on the module and the log (the counters left aside): the events `new`
were logged, each with its guard, the instructions they erased are gone and the
operands of the others were rewritten as the events say. -/
structure Effect (dominates : Nat → Nat → Bool) (s s2 : State) (new : List Event)
    (g : Inst → Inst) : Prop where
  log : s2.log = s.log ++ new
  keep : ∀ x, (g x).frame = x.frame
  ops : ∀ x, (g x).operands = x.operands.map (replayVal new)
  m : s2.m = filterInsts (fun x => decide (x.id ∉ new.map (fun e => e.erased.id)))
    (mapInsts g s.m)
  guard : ∀ e ∈ new, ∃ m, Rewritten s.m m ∧
    Guard (Pass.cse dominates) m e.site e.erased e.survivor e.replacement

/-- The opcodes of the memory accesses the worklists hold. -/
def memOp (o : Opcode) : Bool := o == Opcode.Load || o == Opcode.Store

/-- Every address of `l` that is the address of an instruction of `m` is the
address of a load or a store. -/
def MemIds (m : Module) (l : List Nat) : Prop :=
  ∀ id ∈ l, ∀ x, getInst m id = some x → memOp x.opcode = true

/-- The worklists hold loads and stores only, and so do the erases the
flushes logged after the first `base` events. -/
def FL (base : Nat) (s : State) : Prop :=
  base ≤ s.log.length ∧
    (MemIds s.m s.load_worklist ∧ MemIds s.m s.store_worklist ∧
      MemIds s.m s.store_load_worklist) ∧
    ∀ e ∈ s.log.drop base, (e.site = Site.loadFlush ∨ e.site = Site.storeFlush ∨
      e.site = Site.storeLoadFlush) → memOp e.erased.opcode = true

/-- The scenario of C1 in the state `s0`: in the function `fi` the block `bp`
is a dominator-tree node with the block `bc` among its children; `bp` holds `t`
and `bc` holds `s`; `t` passes the classifier; `s` has the opcode, the type
identifier and the operands of `t`; the oracle reports that `t` dominates `s`;
instruction addresses are unique. -/
structure CrossBlock (dominates : Nat → Nat → Bool) (s0 : State) (fi bp bc : Nat)
    (children : List Nat) (t s : Inst) : Prop where
  ids : ((allInsts s0.m).map Inst.id).Nodup
  node : ∃ f, s0.m.get? fi = some f ∧ (bp, children) ∈ f.domTree
  child : bc ∈ children
  t_mem : t ∈ getBlock s0.m fi bp
  s_mem : s ∈ getBlock s0.m fi bc
  ne : t.id ≠ s.id
  check : cse_check_opcode t = true
  opcode : s.opcode = t.opcode
  typeID : s.ty.typeID = t.ty.typeID
  operands : s.operands = t.operands
  dom : dominates t.id s.id = true

/-- A state of `CommonSubexpressionElimination` reached from `s0`: the effect
on module and log is known and the worklists hold memory accesses. -/
def Reached (dominates : Nat → Nat → Bool) (s0 st : State) : Prop :=
  (∃ (new : List Event) (g : Inst → Inst), Effect dominates s0 st new g) ∧
    FL s0.log.length st

/-- The instruction at address `sid` was erased after the log of `s0`. -/
def Merged (s0 st : State) (sid : Nat) : Prop :=
  ∃ e ∈ st.log.drop s0.log.length, e.erased.id = sid

/-- One of the instructions at the addresses `sid` and `tid` was erased after
the log of `s0`. -/
def Settled (s0 st : State) (sid tid : Nat) : Prop :=
  Merged s0 st sid ∨ Merged s0 st tid

/-- A block with a repeated `add a, b`, then `sub a, b` and `sub b, a`, and a
call that uses all four. -/
def c3Module : Module :=
  [⟨[[Inst.plain 1 Opcode.Add i32 [Val.ext 10 i32, Val.ext 11 i32],
      Inst.plain 2 Opcode.Add i32 [Val.ext 10 i32, Val.ext 11 i32],
      Inst.plain 3 Opcode.Sub i32 [Val.ext 10 i32, Val.ext 11 i32],
      Inst.plain 4 Opcode.Sub i32 [Val.ext 11 i32, Val.ext 10 i32],
      Inst.call 5 [Val.inst 1, Val.inst 2, Val.inst 3, Val.inst 4]]], [(0, [])]⟩]

/-- Dominance inside one block whose instructions are, in program order, at
the addresses `order`: `a` dominates `b` when `a` comes strictly before `b`. -/
def domInBlock (order : List Nat) (a b : Nat) : Bool :=
  decide (a ∈ order ∧ b ∈ order ∧ order.indexOf a < order.indexOf b)

/-- An `icmp` without uses and without flags. -/
def c17Icmp : Inst :=
  Inst.plain 1 Opcode.ICmp ⟨TypeID.IntegerTyID, 1⟩ [Val.ext 10 i32, Val.ext 11 i32]

/-- An `fcmp` of two floats, without uses and without flags. -/
def c17Fcmp : Inst :=
  Inst.plain 1 Opcode.FCmp ⟨TypeID.IntegerTyID, 1⟩
    [Val.ext 10 ⟨TypeID.FloatTyID, 0⟩, Val.ext 11 ⟨TypeID.FloatTyID, 0⟩]

/-- The opcodes, other than the nineteen the classifier admits, that the
comment above the classifier call does not exclude (it excludes loads, stores,
terminators, `VAArg`, calls, allocas and `FCmp`). -/
def documentedButRejected : List Opcode :=
  [Opcode.GetElementPtr, Opcode.Trunc, Opcode.ZExt, Opcode.SExt, Opcode.FPToUI,
    Opcode.FPToSI, Opcode.UIToFP, Opcode.SIToFP, Opcode.FPTrunc, Opcode.FPExt,
    Opcode.PtrToInt, Opcode.IntToPtr, Opcode.BitCast, Opcode.AddrSpaceCast, Opcode.ICmp,
    Opcode.PHI, Opcode.Select, Opcode.ExtractElement, Opcode.InsertElement,
    Opcode.ShuffleVector, Opcode.ExtractValue, Opcode.InsertValue, Opcode.Freeze]

/-- The block of C11, addresses ascending in program order: `store v, p;
store w, p; ret`. -/
def c11Module : Module :=
  [⟨[[Inst.store 1 (Val.ext 10 i32) (Val.ext 12 ptrTy) false,
      Inst.store 2 (Val.ext 11 i32) (Val.ext 12 ptrTy) false,
      Inst.ret 3 (Val.ext 13 i32)]], [(0, [])]⟩]

/-- The block of C11 with the first store at the higher address. -/
def c11ModuleRev : Module :=
  [⟨[[Inst.store 2 (Val.ext 10 i32) (Val.ext 12 ptrTy) false,
      Inst.store 1 (Val.ext 11 i32) (Val.ext 12 ptrTy) false,
      Inst.ret 3 (Val.ext 13 i32)]], [(0, [])]⟩]

/-- The block of C12: `store i32 v, p; j = load i32 p; call f(j)`. -/
def c12Module : Module :=
  [⟨[[Inst.store 1 (Val.ext 10 i32) (Val.ext 12 ptrTy) false,
      Inst.load 2 i32 (Val.ext 12 ptrTy) false,
      Inst.call 3 [Val.inst 2]]], [(0, [])]⟩]

/-- The block of C15: two loads of `p` of which the first, in program order,
has the higher address, and a call that uses both. -/
def c15Module : Module :=
  [⟨[[Inst.load 5 i32 (Val.ext 12 ptrTy) false,
      Inst.load 4 i32 (Val.ext 12 ptrTy) false,
      Inst.call 6 [Val.inst 5, Val.inst 4]]], [(0, [])]⟩]

/-- The block of C16: `store v, p; store w, p; j = load p; call f(j)` with
values of pointer type, the load at an address between those of the stores. -/
def c16Module : Module :=
  [⟨[[Inst.store 1 (Val.ext 10 ptrTy) (Val.ext 12 ptrTy) false,
      Inst.store 3 (Val.ext 11 ptrTy) (Val.ext 12 ptrTy) false,
      Inst.load 2 ptrTy (Val.ext 12 ptrTy) false,
      Inst.call 4 [Val.inst 2]]], [(0, [])]⟩]

/-- The addresses `a` and `b` are those of two instructions of one block of `m0`. -/
def SameBlock (m0 : Module) (a b : Nat) : Prop :=
  ∃ fi bi, a ∈ blockIds m0 fi bi ∧ b ∈ blockIds m0 fi bi

/-- The address `a` is that of an instruction of a dominator-tree node of `m0`
and `b` that of an instruction of one of the immediate children of that node. -/
def ParentChild (m0 : Module) (a b : Nat) : Prop :=
  ∃ (fi : Nat) (f : Function) (bp : Nat) (children : List Nat) (bc : Nat),
    m0.get? fi = some f ∧ (bp, children) ∈ f.domTree ∧ bc ∈ children ∧
      a ∈ blockIds m0 fi bp ∧ b ∈ blockIds m0 fi bc

/-- The address `id` is that of an instruction of `m0` with the opcode `o`. -/
def HasOpcode (m0 : Module) (o : Opcode) (id : Nat) : Prop :=
  ∃ x ∈ allInsts m0, x.id = id ∧ x.opcode = o

/-- Where a logged erase comes from, in terms of the module `m0` the pass
started on: the scan over a dominator-tree child merges an instruction of the
child into one of the node; a flush of the load (store) worklist merges two
loads (stores) of one block; every other erase merges two instructions of one
block. -/
def Local (m0 : Module) (e : Event) : Prop :=
  ∃ i, e.survivor = some i ∧
    match e.site with
    | Site.domTreeScan => ParentChild m0 i.id e.erased.id
    | Site.loadFlush => SameBlock m0 i.id e.erased.id ∧
        HasOpcode m0 Opcode.Load i.id ∧ HasOpcode m0 Opcode.Load e.erased.id
    | Site.storeFlush => SameBlock m0 i.id e.erased.id ∧
        HasOpcode m0 Opcode.Store i.id ∧ HasOpcode m0 Opcode.Store e.erased.id
    | _ => SameBlock m0 i.id e.erased.id

/-- A state of `CommonSubexpressionElimination` started on `m0`: the module
descends from `m0`, the members of the three worklists satisfy `AL`, `AS` and
`AB`, and the erases logged after the first `base` ones are local. -/
structure Prov (m0 : Module) (AL AS AB : Nat → Prop) (base : Nat) (s : State) : Prop where
  desc : Descends m0 s.m
  le : base ≤ s.log.length
  loads : ∀ id ∈ s.load_worklist, AL id
  stores : ∀ id ∈ s.store_worklist, AS id
  both : ∀ id ∈ s.store_load_worklist, AB id
  log : ∀ e ∈ s.log.drop base, Local m0 e

/-- The property of no address. -/
def Nowhere : Nat → Prop := fun _ => False

/-- The address of a load of the block `bi` of the function `fi` of `m0`. -/
def LoadOf (m0 : Module) (fi bi : Nat) : Nat → Prop :=
  fun id => id ∈ blockIds m0 fi bi ∧ HasOpcode m0 Opcode.Load id

/-- The address of a store of the block `bi` of the function `fi` of `m0`. -/
def StoreOf (m0 : Module) (fi bi : Nat) : Nat → Prop :=
  fun id => id ∈ blockIds m0 fi bi ∧ HasOpcode m0 Opcode.Store id

/-- The address of an instruction of the block `bi` of the function `fi` of `m0`. -/
def InBlock (m0 : Module) (fi bi : Nat) : Nat → Prop :=
  fun id => id ∈ blockIds m0 fi bi

/-- The scenario of C13: the block `P` stores the pointer `v` to `p` and
branches to its dominator-tree child `C`, which loads a pointer from `p` and
passes it to a call. -/
def c13Module : Module :=
  [⟨[[Inst.store 1 (Val.ext 10 ptrTy) (Val.ext 12 ptrTy) false,
        ⟨2, Opcode.Br, voidTy, [], false, false, true, false, false, true⟩],
      [Inst.load 3 ptrTy (Val.ext 12 ptrTy) false,
        Inst.call 4 [Val.inst 3],
        Inst.ret 5 (Val.ext 13 i32)]],
    [(0, [1]), (1, [])]⟩]

/-- The chain of C14, `P -> C -> G`, each block with a `mul x, y`; the copies
of `C` and of `G` are used in their blocks. -/
def c14Chain : Module :=
  [⟨[[Inst.plain 1 Opcode.Mul i32 [Val.ext 10 i32, Val.ext 11 i32],
        ⟨2, Opcode.Br, voidTy, [], false, false, true, false, false, true⟩],
      [Inst.plain 3 Opcode.Mul i32 [Val.ext 10 i32, Val.ext 11 i32],
        Inst.call 4 [Val.inst 3],
        ⟨5, Opcode.Br, voidTy, [], false, false, true, false, false, true⟩],
      [Inst.plain 6 Opcode.Mul i32 [Val.ext 10 i32, Val.ext 11 i32],
        Inst.ret 7 (Val.inst 6)]],
    [(0, [1]), (1, [2]), (2, [])]⟩]

/-- Modelled from the claim: one visit of the single in-order scan. The
instruction `x` is removed, and counted, when `isDead` holds for it in the
module as it is when `x` is visited. -/
def scanVisit (acc : Module × Nat) (x : Inst) : Module × Nat :=
  if isDead acc.1 x then (eraseFromParent acc.1 x.id, acc.2 + 1) else acc

/-- Modelled from the claim: the single in-order scan over the instructions
of the module, function after function and block after block, each visited
once; the result is the module that is left and the number of instructions
removed. -/
def singleScan (m : Module) : Module × Nat := (allInsts m).foldl scanVisit (m, 0)

/-- The module of `s` is `m0` without the instructions at some addresses,
those of `E0` among them. -/
def Shrunk (m0 : Module) (E0 : List Nat) (s : State) : Prop :=
  ∃ E : List Nat, (∀ id ∈ E0, id ∈ E) ∧
    s.m = filterInsts (fun x => decide (x.id ∉ E)) m0

/-- What an erase of the instruction at `jid`, with its uses redirected to
`v`, leaves of a block. -/
def eraseBlock (jid : Nat) (v : Option Val) (C : Block) : Block :=
  (C.map (redirect jid v)).filter (fun x => !(x.id == jid))

/-- Every instruction operand of a non-PHI instruction of the block `C` is at
an address of `ids0` that dominates the instruction. -/
def Tidy (dominates : Nat → Nat → Bool) (ids0 : List Nat) (C : Block) : Prop :=
  ∀ x ∈ C, x.opcode ≠ Opcode.PHI → ∀ k, Val.inst k ∈ x.operands →
    k ∈ ids0 ∧ dominates k x.id = true

/-- The erases logged after the first `base` ones are erases of the store
flush, each of an instruction that passed the removability guard. -/
def StoreFlushLog (base : Nat) (s : State) : Prop :=
  base ≤ s.log.length ∧
    ∀ e ∈ s.log.drop base, e.site = Site.storeFlush ∧ e.erased.notRemovable = false

/-- The state of C21: the block `store v, p; store w, p; ret` with both
stores in `store_worklist`. -/
def c21State : State :=
  ⟨c11Module, ⟨0, 0, 0, 0, 0, 0⟩, [], [1, 2], [], []⟩

/-- The address `id` is in `pre`, and no address after it in `pre` is that of
an instruction of `m0` with the opcode `o`. -/
def Since (m0 : Module) (o : Opcode) (pre : List Nat) (id : Nat) : Prop :=
  ∃ p1 p2, pre = p1 ++ id :: p2 ∧ ∀ k ∈ p2, ¬ HasOpcode m0 o k

/-- The addresses `a` and `b` are in one initial stretch of `L` in which no
instruction with the opcode `o` follows either of them. -/
def SameSeg (m0 : Module) (o : Opcode) (L : List Nat) (a b : Nat) : Prop :=
  ∃ pre rest, L = pre ++ rest ∧ Since m0 o pre a ∧ Since m0 o pre b

/-- An erase of the per-block phase on the block with the addresses `L`: the
erased instruction and the one it was merged into are at addresses of `L`; an
erased load was merged into a load with no store from one to the other, an
erased store into a store with no load from one to the other. -/
def SegEvent (m0 : Module) (L : List Nat) (e : Event) : Prop :=
  ∃ i, e.survivor = some i ∧ i.id ∈ L ∧ e.erased.id ∈ L ∧
    (e.erased.opcode = Opcode.Load →
      i.opcode = Opcode.Load ∧ SameSeg m0 Opcode.Store L i.id e.erased.id) ∧
    (e.erased.opcode = Opcode.Store →
      i.opcode = Opcode.Store ∧ SameSeg m0 Opcode.Load L i.id e.erased.id)

/-- No instruction with the opcode `o` lies between the instructions at the
addresses `a` and `b` in the program order of the block `bi` of the function
`fi` of `m`. -/
def NoneBetween (m : Module) (fi bi : Nat) (o : Opcode) (a b : Nat) : Prop :=
  ∀ (p : List Inst) (x : Inst) (mid : List Inst) (y : Inst) (q : List Inst),
    getBlock m fi bi = p ++ x :: (mid ++ y :: q) →
    (x.id = a ∧ y.id = b ∨ x.id = b ∧ y.id = a) → ∀ k ∈ mid, k.opcode ≠ o

/-- A load of `m0` in `pre` with no store after it in `pre`. -/
def LoadSeg (m0 : Module) (pre : List Nat) : Nat → Prop :=
  fun id => HasOpcode m0 Opcode.Load id ∧ Since m0 Opcode.Store pre id

/-- A store of `m0` in `pre` with no load after it in `pre`. -/
def StoreSeg (m0 : Module) (pre : List Nat) : Nat → Prop :=
  fun id => HasOpcode m0 Opcode.Store id ∧ Since m0 Opcode.Load pre id

/-- A state of the instruction loop of the per-block phase on the block `bi`
of the function `fi`, whose addresses were `L` when the loop started: the
block has lost instructions only, the members of the load and store worklists
satisfy `AL` and `AS`, the loads and stores at the addresses `rest`, still to
visit, are in the module, and the erases logged after the first `base` ones
are erases on `L`. -/
structure WInv (m0 : Module) (fi bi : Nat) (L : List Nat) (AL AS : Nat → Prop)
    (rest : List Nat) (base : Nat) (st : State) : Prop where
  desc : Descends m0 st.m
  le : base ≤ st.log.length
  sub : ∀ id ∈ blockIds st.m fi bi, id ∈ L
  loads : ∀ id ∈ st.load_worklist, AL id
  stores : ∀ id ∈ st.store_worklist, AS id
  alive : ∀ id ∈ rest, (HasOpcode m0 Opcode.Load id ∨ HasOpcode m0 Opcode.Store id) →
    getInst st.m id ≠ none
  log : ∀ e ∈ st.log.drop base, SegEvent m0 L e

/-- A state of the per-block phase started on `m0`, between two blocks: the
load and store worklists are empty, every erase logged after the first `base`
ones is an erase on the addresses of one block of `m0`, and the blocks that
are not `done` have the addresses they have in `m0`. -/
structure PhaseSeg (m0 : Module) (base : Nat) (done : Nat → Nat → Prop) (st : State) :
    Prop where
  desc : Descends m0 st.m
  le : base ≤ st.log.length
  loads : st.load_worklist = []
  stores : st.store_worklist = []
  log : ∀ e ∈ st.log.drop base, ∃ fi bi, SegEvent m0 (blockIds m0 fi bi) e
  fresh : ∀ f b, ¬ done f b → blockIds st.m f b = blockIds m0 f b

/-- The block of C22: `l1 = load p; store v, p; l2 = load p; call f(l1, l2)`. -/
def c22Module : Module :=
  [⟨[[Inst.load 1 i32 (Val.ext 12 ptrTy) false,
      Inst.store 2 (Val.ext 10 i32) (Val.ext 12 ptrTy) false,
      Inst.load 3 i32 (Val.ext 12 ptrTy) false,
      Inst.call 4 [Val.inst 1, Val.inst 3]]], [(0, [])]⟩]

theorem allInsts_mapInsts (g : Inst → Inst) (m : Module) :
    allInsts (mapInsts g m) = (allInsts m).map g := by
  unfold allInsts mapInsts Function.insts
  induction m with
  | nil => rfl
  | cons f m ih =>
    simp only [List.map_cons, List.flatten_cons, List.map_append] at ih ⊢
    rw [ih]
    congr 1
    induction f.blocks with
    | nil => rfl
    | cons b bs ihb => simp only [List.map_cons, List.flatten_cons, List.map_append, ihb]

theorem allInsts_filterInsts (p : Inst → Bool) (m : Module) :
    allInsts (filterInsts p m) = (allInsts m).filter p := by
  unfold allInsts filterInsts Function.insts
  induction m with
  | nil => rfl
  | cons f m ih =>
    simp only [List.map_cons, List.flatten_cons, List.filter_append] at ih ⊢
    rw [ih]
    congr 1
    induction f.blocks with
    | nil => rfl
    | cons b bs ihb => simp only [List.map_cons, List.flatten_cons, List.filter_append, ihb]

theorem getInst_some {m : Module} {id : Nat} {x : Inst} (h : getInst m id = some x) :
    x ∈ allInsts m ∧ x.id = id := by
  unfold getInst at h
  exact ⟨List.mem_of_find?_eq_some h, by simpa using List.find?_some h⟩

theorem allInsts_erase (s : State) (site : Site) (j : Inst) (i : Option Inst) (v : Option Val) :
    allInsts (s.erase site j i v).m =
      ((allInsts s.m).map (fun x => match v with
        | some v => x.subst j.id v
        | none => x)).filter (fun x => !(x.id == j.id)) := by
  cases v with
  | none => simp [State.erase, eraseFromParent, allInsts_filterInsts]
  | some v => simp [State.erase, eraseFromParent, replaceAllUsesWith, allInsts_filterInsts,
      allInsts_mapInsts]

/-! ## Every run is a trace -/

theorem Trace.trans {pass : Pass}
    {a b c : State} (h1 : Trace pass a b) (h2 : Trace pass b c) :
    Trace pass a c := by
  induction h2 with
  | refl => exact h1
  | erase site j i v _ hg hm hl hs ih => exact Trace.erase site j i v ih hg hm hl hs
  | frame _ hm hl hs ih => exact Trace.frame ih hm hl hs

theorem Trace.foldl {pass : Pass}
    {α : Type} (f : State → α → State)
    (hf : ∀ s a, Trace pass s (f s a)) (l : List α) (s : State) :
    Trace pass s (l.foldl f s) := by
  induction l generalizing s with
  | nil => exact Trace.refl s
  | cons a l ih => exact (hf s a).trans (ih (f s a))

/-- One guarded erase from `s`. -/
theorem Trace.one {pass : Pass}
    {s s2 : State} (site : Site) (j : Inst) (i : Option Inst) (v : Option Val)
    (hg : Guard pass s.m site j i v)
    (hm : s2.m = (s.erase site j i v).m) (hl : s2.log = (s.erase site j i v).log)
    (hs : s2.stats = s.stats.bump site) : Trace pass s s2 :=
  Trace.erase site j i v (Trace.refl s) hg hm hl hs

/-- A change of the worklists only. -/
theorem Trace.wl {pass : Pass}
    {s s2 : State} (hm : s2.m = s.m) (hl : s2.log = s.log) (hs : s2.stats = s.stats) :
    Trace pass s s2 :=
  Trace.frame (Trace.refl s) hm hl hs

theorem dceStep_trace (simplify : Module → Inst → Option Val)
    (s : State) (iid : Nat) : Trace (Pass.dce simplify) s (dceStep simplify s iid) := by
  unfold dceStep
  cases hi : getInst s.m iid with
  | none => exact Trace.refl s
  | some i =>
    have hid := (getInst_some hi).2
    simp only
    by_cases hd : isDead s.m i = true
    · rw [if_pos hd]
      refine Trace.one Site.dead i none none ⟨by rw [hid]; exact hi, rfl, hd⟩ rfl rfl rfl
    · rw [if_neg hd]
      cases ht : simplify s.m i with
      | none => exact Trace.refl s
      | some temp =>
        refine Trace.one Site.simplified i none (some temp)
          ⟨by rw [hid]; exact hi, by simpa using hd, ht, by simp⟩ rfl rfl rfl

theorem RunDeadCodeElimination_trace (simplify : Module → Inst → Option Val) (s : State) :
    Trace (Pass.dce simplify) s (RunDeadCodeElimination simplify s) := by
  unfold RunDeadCodeElimination
  refine Trace.foldl _ (fun s fi => ?_) _ s
  unfold dceFunction
  cases s.m.get? fi with
  | none => exact Trace.refl s
  | some f =>
    refine Trace.foldl _ (fun s bi => ?_) _ s
    exact Trace.foldl _ (dceStep_trace simplify) _ s

theorem find_filter_map (g : Inst → Inst) (hg : ∀ x, (g x).id = x.id) (iid jid : Nat)
    (h : iid ≠ jid) (l : List Inst) :
    ((l.map g).filter (fun x => !(x.id == jid))).find? (fun x => x.id == iid) =
      (l.find? (fun x => x.id == iid)).map g := by
  induction l with
  | nil => rfl
  | cons x l ih =>
    rw [List.map_cons, List.filter_cons]
    by_cases hx : x.id = jid
    · have e1 : (!((g x).id == jid)) = false := by simp [hg, hx]
      have e2 : (x.id == iid) = false := by
        simp only [beq_eq_false_iff_ne, ne_eq]
        exact fun e => h (e.symm.trans hx)
      rw [e1, if_neg (by simp), ih, List.find?_cons, e2]
    · have e1 : (!((g x).id == jid)) = true := by simp [hg, hx]
      rw [e1, if_pos rfl, List.find?_cons, List.find?_cons, hg]
      cases hb : (x.id == iid) with
      | true => rfl
      | false => exact ih

theorem Inst.subst_id (k : Nat) (v : Val) (x : Inst) : (x.subst k v).id = x.id := rfl

theorem getInst_erase_ne (s : State) (site : Site) (j : Inst) (i : Option Inst) (v : Val)
    (iid : Nat) (h : iid ≠ j.id) :
    getInst (s.erase site j i (some v)).m iid = (getInst s.m iid).map (Inst.subst j.id v) := by
  unfold getInst
  rw [allInsts_erase]
  exact find_filter_map _ (Inst.subst_id j.id v) iid j.id h _

theorem getInst_erase_none_ne (s : State) (site : Site) (j : Inst) (i : Option Inst)
    (iid : Nat) (h : iid ≠ j.id) :
    getInst (s.erase site j i none).m iid = getInst s.m iid := by
  have := find_filter_map id (fun _ => rfl) iid j.id h (allInsts s.m)
  simpa [allInsts_erase, getInst] using this

theorem sameShape_ne {i j : Inst} (h : sameShape i j = true) : i.id ≠ j.id := by
  unfold sameShape at h
  simp only [Bool.and_eq_true, bne_iff_ne, ne_eq] at h
  exact h.1.1.1

theorem scanStep_trace (dominates : Nat → Nat → Bool)
    (site : Site) (hsite : site = Site.blockScan ∨ site = Site.domTreeScan)
    (iid : Nat) (s : State) (jid : Nat)
    (h : ∃ i, getInst s.m iid = some i ∧ cse_check_opcode i = true) :
    Trace (Pass.cse dominates) s (scanStep dominates site iid s jid) ∧
      ∃ i, getInst (scanStep dominates site iid s jid).m iid = some i ∧
        cse_check_opcode i = true := by
  obtain ⟨i, hi, hc⟩ := h
  unfold scanStep
  rw [hi]
  cases hj : getInst s.m jid with
  | none => exact ⟨Trace.refl s, i, hi, hc⟩
  | some j =>
    have hiid := (getInst_some hi).2
    have hjid := (getInst_some hj).2
    simp only
    by_cases h1 : sameShape i j = true
    · rw [if_pos h1]
      by_cases h2 : areOperandsSame i j = true
      · rw [if_pos h2]
        by_cases h3 : dominates iid jid = true
        · rw [if_pos h3]
          have hne : iid ≠ j.id := by rw [← hiid]; exact sameShape_ne h1
          have hm : MergeOK dominates s.m i j (some (Val.inst iid)) :=
            ⟨by rw [hiid]; exact hi, hc, h1, h2, by rw [hiid, hjid]; exact h3, by rw [hiid]⟩
          refine ⟨Trace.one site j (some i) (some (Val.inst iid)) ⟨by rw [hjid]; exact hj, ?_⟩
            rfl rfl ?_, ?_⟩
          · rcases hsite with e | e <;> subst e <;> exact hm
          · rcases hsite with e | e <;> subst e <;> rfl
          · refine ⟨i.subst j.id (Val.inst iid), ?_, hc⟩
            show getInst (s.erase site j (some i) (some (Val.inst iid))).m iid = _
            rw [getInst_erase_ne _ _ _ _ _ _ hne, hi]
            rfl
        · rw [if_neg h3]; exact ⟨Trace.refl s, i, hi, hc⟩
      · rw [if_neg h2]; exact ⟨Trace.refl s, i, hi, hc⟩
    · rw [if_neg h1]; exact ⟨Trace.refl s, i, hi, hc⟩

theorem scan_trace (dominates : Nat → Nat → Bool)
    (site : Site) (hsite : site = Site.blockScan ∨ site = Site.domTreeScan)
    (iid : Nat) (ids : List Nat) (s : State)
    (h : ∃ i, getInst s.m iid = some i ∧ cse_check_opcode i = true) :
    Trace (Pass.cse dominates) s (ids.foldl (scanStep dominates site iid) s) ∧
      ∃ i, getInst (ids.foldl (scanStep dominates site iid) s).m iid = some i ∧
        cse_check_opcode i = true := by
  induction ids generalizing s with
  | nil => exact ⟨Trace.refl s, h⟩
  | cons jid ids ih =>
    have h1 := scanStep_trace dominates site hsite iid s jid h
    have h2 := ih _ h1.2
    exact ⟨h1.1.trans h2.1, h2.2⟩

theorem loadInner_trace (dominates : Nat → Nat → Bool)
    (iid : Nat) (s : State) (jid : Nat) :
    Trace (Pass.cse dominates) s (loadInner dominates iid s jid) := by
  unfold loadInner
  cases hi : getInst s.m iid with
  | none => exact Trace.refl s
  | some i =>
    cases hj : getInst s.m jid with
    | none => exact Trace.refl s
    | some j =>
      have hiid := (getInst_some hi).2
      have hjid := (getInst_some hj).2
      simp only
      split_ifs with h1 h2 h3
      · exact Trace.one Site.loadFlush j (some i) (some (Val.inst iid))
          ⟨by rw [hjid]; exact hj, by rw [hiid]; exact hi, h1, by rw [hiid, hjid]; exact h2,
            by simpa using h3, by rw [hiid]⟩ rfl rfl rfl
      all_goals exact Trace.refl s

theorem process_load_worklist_trace (dominates : Nat → Nat → Bool) (s : State) :
    Trace (Pass.cse dominates) s (process_load_worklist dominates s) := by
  unfold process_load_worklist
  refine Trace.trans (Trace.foldl _ (fun s p => ?_) _ s) (Trace.wl rfl rfl rfl)
  unfold loadOuter
  split_ifs
  · exact Trace.foldl _ (loadInner_trace dominates p) _ s
  · exact Trace.refl s

theorem storeInner_trace (dominates : Nat → Nat → Bool)
    (iid : Nat) (s : State) (jid : Nat) :
    Trace (Pass.cse dominates) s (storeInner dominates iid s jid) := by
  unfold storeInner
  cases hi : getInst s.m iid with
  | none => exact Trace.refl s
  | some i =>
    cases hj : getInst s.m jid with
    | none => exact Trace.refl s
    | some j =>
      have hiid := (getInst_some hi).2
      have hjid := (getInst_some hj).2
      simp only
      split_ifs with h1 h2 h3
      · exact Trace.one Site.storeFlush j (some i) (some (Val.inst iid))
          ⟨by rw [hjid]; exact hj, by rw [hiid]; exact hi, h1, by rw [hiid, hjid]; exact h2,
            by simpa using h3, by rw [hiid]⟩ rfl rfl rfl
      all_goals exact Trace.refl s

theorem process_store_worklist_trace (dominates : Nat → Nat → Bool) (s : State) :
    Trace (Pass.cse dominates) s (process_store_worklist dominates s) := by
  unfold process_store_worklist
  refine Trace.trans (Trace.foldl _ (fun s p => ?_) _ s) (Trace.wl rfl rfl rfl)
  unfold storeOuter
  split_ifs
  · exact Trace.foldl _ (storeInner_trace dominates p) _ s
  · exact Trace.refl s

theorem storeLoadInner_trace (dominates : Nat → Nat → Bool) (iid : Nat) (l : List Nat) (s : State)
    (hs : ∃ i, getInst s.m iid = some i ∧ i.opcode = Opcode.Store) :
    Trace (Pass.cse dominates) s (storeLoadInner dominates iid l s) := by
  induction l generalizing s with
  | nil => exact Trace.refl s
  | cons jid rest ih =>
    obtain ⟨i, hi, hop⟩ := hs
    unfold storeLoadInner
    rw [hi]
    cases hj : getInst s.m jid with
    | none => exact ih s ⟨i, hi, hop⟩
    | some j =>
      have hiid := (getInst_some hi).2
      have hjid := (getInst_some hj).2
      simp only
      split_ifs with h1 h2 h3 h4
      · exact Trace.refl s
      · have hne : iid ≠ j.id := by
          unfold forwardCond at h2
          simp only [Bool.and_eq_true, bne_iff_ne, ne_eq] at h2
          rw [← hiid]; exact h2.1.1.1.1
        have key : ∀ s2 : State,
            s2.m = (s.erase Site.storeLoadFlush j (some i) (i.getOperand 0)).m →
            s2.log = (s.erase Site.storeLoadFlush j (some i) (i.getOperand 0)).log →
            s2.stats = s.stats.bump Site.storeLoadFlush →
            Trace (Pass.cse dominates) s (storeLoadInner dominates iid rest s2) := by
          intro s2 hm hl hst
          refine Trace.trans (Trace.one Site.storeLoadFlush j (some i) (i.getOperand 0)
            ⟨by rw [hjid]; exact hj, by rw [hiid]; exact hi, hop, by simpa using h1, h2,
              by rw [hiid, hjid]; exact h3, by simpa using h4, rfl⟩ hm hl hst) (ih _ ?_)
          rw [hm]
          cases hv : i.getOperand 0 with
          | none =>
            refine ⟨i, ?_, hop⟩
            rw [getInst_erase_none_ne _ _ _ _ _ hne]; exact hi
          | some v =>
            refine ⟨i.subst j.id v, ?_, hop⟩
            rw [getInst_erase_ne _ _ _ _ _ _ hne, hi]
            rfl
        exact key _ rfl rfl rfl
      all_goals exact ih s ⟨i, hi, hop⟩

theorem process_store_load_worklist_trace (dominates : Nat → Nat → Bool) (s : State) :
    Trace (Pass.cse dominates) s (process_store_load_worklist dominates s) := by
  unfold process_store_load_worklist
  refine Trace.trans (Trace.foldl _ (fun s p => ?_) _ s) (Trace.wl rfl rfl rfl)
  unfold storeLoadOuter
  split_ifs
  · cases hi : getInst s.m p with
    | none => exact Trace.refl s
    | some i =>
      simp only
      split_ifs with h
      · exact storeLoadInner_trace dominates p _ s ⟨i, hi, h⟩
      · exact Trace.refl s
  · exact Trace.refl s

theorem blockStep_trace (dominates : Nat → Nat → Bool)
    (fi bi : Nat) (s : State) (iid : Nat) :
    Trace (Pass.cse dominates) s (blockStep dominates fi bi s iid) := by
  unfold blockStep
  cases hi : getInst s.m iid with
  | none => exact Trace.refl s
  | some i =>
    simp only
    split_ifs with h1 h2 h3
    · refine Trace.trans ?_ (process_store_worklist_trace dominates _)
      exact Trace.wl rfl rfl rfl
    · refine Trace.trans ?_ (process_load_worklist_trace dominates _)
      exact Trace.wl rfl rfl rfl
    · exact (scan_trace dominates Site.blockScan (Or.inl rfl) iid _ s ⟨i, hi, h3⟩).1
    · exact Trace.refl s

theorem cseFunction_trace (dominates : Nat → Nat → Bool)
    (s : State) (fi : Nat) : Trace (Pass.cse dominates) s (cseFunction dominates s fi) := by
  unfold cseFunction
  cases s.m.get? fi with
  | none => exact Trace.refl s
  | some f =>
    refine Trace.foldl _ (fun s bi => ?_) _ s
    unfold cseBlock
    split_ifs
    · exact Trace.refl s
    · exact (Trace.foldl _ (blockStep_trace dominates fi bi) _ s).trans
        ((process_load_worklist_trace dominates _).trans
          (process_store_worklist_trace dominates _))

theorem nodeStep_trace (dominates : Nat → Nat → Bool)
    (fi : Nat) (children : List Nat) (s : State) (iid : Nat) :
    Trace (Pass.cse dominates) s (nodeStep dominates fi children s iid) := by
  unfold nodeStep
  cases hi : getInst s.m iid with
  | none => exact Trace.refl s
  | some i =>
    simp only
    split_ifs with h1 h3
    · exact Trace.wl rfl rfl rfl
    · have : ∀ (cs : List Nat) (s : State),
          (∃ i, getInst s.m iid = some i ∧ cse_check_opcode i = true) →
          Trace (Pass.cse dominates) s (cs.foldl (childScan dominates fi iid) s) := by
        intro cs
        induction cs with
        | nil => intro s _; exact Trace.refl s
        | cons c cs ih =>
          intro s h
          have h1 := scan_trace dominates Site.domTreeScan (Or.inr rfl) iid
            (blockIds s.m fi c) s h
          exact h1.1.trans (ih _ h1.2)
      exact this children s ⟨i, hi, h3⟩
    · exact Trace.refl s

theorem cseDomFunction_trace (dominates : Nat → Nat → Bool) (s : State) (fi : Nat) :
    Trace (Pass.cse dominates) s (cseDomFunction dominates s fi) := by
  unfold cseDomFunction
  cases s.m.get? fi with
  | none => exact Trace.refl s
  | some f =>
    simp only
    split_ifs
    · exact Trace.refl s
    · refine Trace.foldl _ (fun s node => ?_) _ s
      unfold cseNode
      split_ifs
      · exact Trace.refl s
      · exact (Trace.foldl _ (nodeStep_trace dominates fi node.2) _ s).trans
          (process_store_load_worklist_trace dominates _)

theorem CommonSubexpressionElimination_trace (dominates : Nat → Nat → Bool) (s : State) :
    Trace (Pass.cse dominates) s (csePerBlock dominates s) ∧
      Trace (Pass.cse dominates) (strayIncrement (csePerBlock dominates s))
        (CommonSubexpressionElimination dominates s) :=
  ⟨Trace.foldl _ (cseFunction_trace dominates) _ s,
    Trace.foldl _ (cseDomFunction_trace dominates) _ _⟩

/-! ## What a trace does to the module, the log and the counters -/

theorem mapInsts_id (m : Module) : mapInsts (fun x => x) m = m := by
  unfold mapInsts
  induction m with
  | nil => rfl
  | cons f m ih => simp [ih]

theorem filterInsts_true (m : Module) : filterInsts (fun _ => true) m = m := by
  unfold filterInsts
  induction m with
  | nil => rfl
  | cons f m ih => simp [ih]

theorem mapInsts_mapInsts (g h : Inst → Inst) (m : Module) :
    mapInsts h (mapInsts g m) = mapInsts (fun x => h (g x)) m := by
  unfold mapInsts
  simp [Function.comp_def]

theorem filterInsts_filterInsts (p q : Inst → Bool) (m : Module) :
    filterInsts p (filterInsts q m) = filterInsts (fun x => q x && p x) m := by
  unfold filterInsts
  simp [Function.comp_def, List.filter_filter, Bool.and_comm]

theorem mapInsts_filterInsts (h : Inst → Inst) (p : Inst → Bool) (hp : ∀ x, p (h x) = p x)
    (m : Module) : mapInsts h (filterInsts p m) = filterInsts p (mapInsts h m) := by
  unfold mapInsts filterInsts
  simp [Function.comp_def, List.filter_map, hp]

theorem filterInsts_congr (p q : Inst → Bool) (h : ∀ x, p x = q x) (m : Module) :
    filterInsts p m = filterInsts q m := by
  have : p = q := funext h
  rw [this]

theorem redirect_frame (jid : Nat) (v : Option Val) (x : Inst) :
    (redirect jid v x).frame = x.frame := by
  cases v <;> rfl

theorem erase_m (s : State) (site : Site) (j : Inst) (i : Option Inst) (v : Option Val) :
    (s.erase site j i v).m = eraseFromParent (mapInsts (redirect j.id v) s.m) j.id := by
  cases v with
  | none =>
    have : redirect j.id none = fun x => x := rfl
    rw [this, mapInsts_id]; rfl
  | some v => rfl

theorem frame_id {x y : Inst} (h : x.frame = y.frame) : x.id = y.id := by
  show x.frame.id = y.frame.id
  rw [h]

theorem erase_log (s : State) (site : Site) (j : Inst) (i : Option Inst) (v : Option Val) :
    (s.erase site j i v).log =
      s.log ++ [Event.mk site j i v (numUses (s.erase site j i v).m j.id)] := rfl

theorem Trace.summary {pass : Pass}
    {s s2 : State} (h : Trace pass s s2) :
    ∃ (new : List Event) (g : Inst → Inst), Summary pass s s2 new g := by
  induction h with
  | refl =>
    refine ⟨[], fun x => x, ?_, fun _ => rfl, ?_, ?_, rfl, ?_⟩
    · simp
    · intro x
      show x.operands = x.operands.map (fun o => o)
      rw [List.map_id']
    · simp only [List.map_nil, List.not_mem_nil, not_false_eq_true, decide_True]
      rw [mapInsts_id, filterInsts_true]
    · intro e he; simp at he
  | @erase s1 s2 site j i v _ hg hm hl hs ih =>
    obtain ⟨new, g, hsum⟩ := ih
    refine ⟨new ++ [Event.mk site j i v (numUses (s1.erase site j i v).m j.id)],
      fun x => redirect j.id v (g x), ?_, ?_, ?_, ?_, ?_, ?_⟩
    · rw [hl, erase_log, hsum.log, List.append_assoc]
    · intro x
      rw [redirect_frame, hsum.keep]
    · intro x
      have h1 : ∀ o, replayVal (new ++ [Event.mk site j i v
          (numUses (s1.erase site j i v).m j.id)]) o =
          Event.apply (Event.mk site j i v (numUses (s1.erase site j i v).m j.id))
            (replayVal new o) := by
        intro o
        unfold replayVal
        rw [List.foldl_append]
        rfl
      rw [show replayVal (new ++ [Event.mk site j i v
          (numUses (s1.erase site j i v).m j.id)]) =
          fun o => Event.apply (Event.mk site j i v (numUses (s1.erase site j i v).m j.id))
            (replayVal new o) from funext h1]
      cases v with
      | none =>
        show (g x).operands = _
        rw [hsum.ops]
        rfl
      | some w =>
        show (g x).operands.map (substVal j.id w) = _
        rw [hsum.ops, List.map_map]
        rfl
    · rw [hm, erase_m, hsum.m, eraseFromParent,
        mapInsts_filterInsts (redirect j.id v) _
          (fun x => by rw [frame_id (redirect_frame j.id v x)]),
        filterInsts_filterInsts, mapInsts_mapInsts]
      apply filterInsts_congr
      intro x
      rw [Bool.eq_iff_iff]
      simp
    · rw [hs, hsum.stats, List.foldl_append]; rfl
    · intro e he
      rcases List.mem_append.mp he with he | he
      · exact hsum.guard e he
      · simp only [List.mem_singleton] at he
        subst he
        exact ⟨s1.m, ⟨_, g, hsum.keep, hsum.m⟩, hg⟩
  | frame _ hm hl hs ih =>
    obtain ⟨new, g, hsum⟩ := ih
    exact ⟨new, g, by rw [hl, hsum.log], hsum.keep, hsum.ops, by rw [hm, hsum.m],
      by rw [hs, hsum.stats], hsum.guard⟩

/-! ## Facts about blocks and descent -/

theorem getBlock_filter_map (p : Inst → Bool) (g : Inst → Inst) (m : Module) (fi bi : Nat) :
    getBlock (filterInsts p (mapInsts g m)) fi bi = ((getBlock m fi bi).map g).filter p := by
  unfold getBlock filterInsts mapInsts
  simp only [List.get?_eq_getElem?, List.getElem?_map]
  cases m[fi]? with
  | none => rfl
  | some f =>
    simp only [Option.map_some', List.getElem?_map]
    cases f.blocks[bi]? <;> rfl

theorem mem_allInsts_of_getBlock {m : Module} {fi bi : Nat} {x : Inst}
    (h : x ∈ getBlock m fi bi) : x ∈ allInsts m := by
  unfold getBlock at h
  simp only [List.get?_eq_getElem?] at h
  cases hf : m[fi]? with
  | none => rw [hf] at h; simp at h
  | some f =>
    rw [hf] at h
    simp only at h
    cases hb : f.blocks[bi]? with
    | none => rw [hb] at h; simp at h
    | some b =>
      rw [hb] at h
      simp only [Option.getD_some] at h
      unfold allInsts Function.insts
      simp only [List.mem_flatten, List.mem_map, exists_exists_and_eq_and]
      exact ⟨f, List.getElem?_mem hf, b, List.getElem?_mem hb, h⟩

theorem Descends.mem {m0 m : Module} (h : Descends m0 m) {x : Inst} (hx : x ∈ allInsts m) :
    ∃ x0 ∈ allInsts m0, x.frame = x0.frame := by
  obtain ⟨p, g, hg, rfl⟩ := h
  rw [allInsts_filterInsts, allInsts_mapInsts] at hx
  obtain ⟨x0, h0, rfl⟩ := List.mem_map.mp (List.mem_of_mem_filter hx)
  exact ⟨x0, h0, hg x0⟩

theorem eq_of_nodup_ids {m : Module} (hn : ((allInsts m).map Inst.id).Nodup) {x y : Inst}
    (hx : x ∈ allInsts m) (hy : y ∈ allInsts m) (h : x.id = y.id) : x = y :=
  List.inj_on_of_nodup_map hn hx hy h

/-! ## The classifier and the dead test -/

theorem isDead_volatile_load (m : Module) (x : Inst) (hload : x.opcode = Opcode.Load)
    (hvol : x.isVolatile = true) : isDead m x = false := by
  unfold isDead
  rw [hload, hvol]
  simp [deadOpcode]

theorem frame_opcode {x y : Inst} (h : x.frame = y.frame) : x.opcode = y.opcode := by
  show x.frame.opcode = y.frame.opcode
  rw [h]

theorem frame_isVolatile {x y : Inst} (h : x.frame = y.frame) : x.isVolatile = y.isVolatile := by
  show x.frame.isVolatile = y.frame.isVolatile
  rw [h]

/-- The guard of an erase of `RunDeadCodeElimination`, by cases. -/
theorem Guard.dce {simplify : Module → Inst → Option Val} {m : Module} {site : Site}
    {j : Inst} {i : Option Inst} {v : Option Val}
    (h : Guard (Pass.dce simplify) m site j i v) :
    getInst m j.id = some j ∧ i = none ∧
      ((site = Site.dead ∧ v = none ∧ isDead m j = true) ∨
        (site = Site.simplified ∧ isDead m j = false ∧ simplify m j = v ∧ v ≠ none)) := by
  obtain ⟨h0, h1⟩ := h
  refine ⟨h0, ?_⟩
  cases site <;> cases i <;> simp only [Guard] at h1
  · exact ⟨rfl, Or.inl ⟨rfl, h1⟩⟩
  · exact ⟨rfl, Or.inr ⟨rfl, h1⟩⟩

theorem loadCond_ne {i j : Inst} (h : loadCond i j = true) : i.id ≠ j.id := by
  unfold loadCond at h
  simp only [Bool.and_eq_true, bne_iff_ne, ne_eq] at h
  exact h.1.1.1

theorem storeCond_ne {i j : Inst} (h : storeCond i j = true) : i.id ≠ j.id := by
  unfold storeCond at h
  simp only [Bool.and_eq_true, bne_iff_ne, ne_eq] at h
  exact h.1.1.1

theorem forwardCond_ne {m : Module} {i j : Inst} (h : forwardCond m i j = true) :
    i.id ≠ j.id := by
  unfold forwardCond at h
  simp only [Bool.and_eq_true, bne_iff_ne, ne_eq] at h
  exact h.1.1.1.1

/-- The guard of an erase of `CommonSubexpressionElimination`, by cases. -/
theorem Guard.cse {dominates : Nat → Nat → Bool} {m : Module} {site : Site}
    {j : Inst} {i : Option Inst} {v : Option Val}
    (h : Guard (Pass.cse dominates) m site j i v) :
    getInst m j.id = some j ∧ ∃ i0, i = some i0 ∧ getInst m i0.id = some i0 ∧
      dominates i0.id j.id = true ∧ i0.id ≠ j.id ∧
      (((site = Site.blockScan ∨ site = Site.domTreeScan) ∧ cse_check_opcode i0 = true ∧
          sameShape i0 j = true ∧ areOperandsSame i0 j = true ∧ v = some (Val.inst i0.id)) ∨
        (site = Site.loadFlush ∧ loadCond i0 j = true ∧ j.notRemovable = false ∧
          v = some (Val.inst i0.id)) ∨
        (site = Site.storeFlush ∧ storeCond i0 j = true ∧ j.notRemovable = false ∧
          v = some (Val.inst i0.id)) ∨
        (site = Site.storeLoadFlush ∧ i0.opcode = Opcode.Store ∧ killCond i0 j = false ∧
          forwardCond m i0 j = true ∧ j.notRemovable = false ∧ v = i0.getOperand 0)) := by
  obtain ⟨h0, h1⟩ := h
  refine ⟨h0, ?_⟩
  cases site <;> cases i <;> simp only [Guard, MergeOK] at h1
  · obtain ⟨a, b, c, d, e, f⟩ := h1
    exact ⟨_, rfl, a, e, sameShape_ne c, Or.inl ⟨Or.inl rfl, b, c, d, f⟩⟩
  · obtain ⟨a, b, c, d, e, f⟩ := h1
    exact ⟨_, rfl, a, e, sameShape_ne c, Or.inl ⟨Or.inr rfl, b, c, d, f⟩⟩
  · obtain ⟨a, b, c, d, e⟩ := h1
    exact ⟨_, rfl, a, c, loadCond_ne b, Or.inr (Or.inl ⟨rfl, b, d, e⟩)⟩
  · obtain ⟨a, b, c, d, e⟩ := h1
    exact ⟨_, rfl, a, c, storeCond_ne b, Or.inr (Or.inr (Or.inl ⟨rfl, b, d, e⟩))⟩
  · obtain ⟨a, b, c, d, e, f, g⟩ := h1
    exact ⟨_, rfl, a, e, forwardCond_ne d, Or.inr (Or.inr (Or.inr ⟨rfl, b, c, d, f, g⟩))⟩

/-- The counters after the bumps of a list of events. -/
theorem foldl_bump (new : List Event) (st : Stats) :
    new.foldl (fun st e => st.bump e.site) st =
      ⟨st.CSEDead + new.countP (fun e => e.site == Site.dead),
        st.CSEElim + new.countP (fun e => e.site == Site.blockScan ||
          e.site == Site.domTreeScan),
        st.CSESimplify + new.countP (fun e => e.site == Site.simplified),
        st.CSELdElim + new.countP (fun e => e.site == Site.loadFlush),
        st.CSEStore2Load + new.countP (fun e => e.site == Site.storeLoadFlush),
        st.CSEStElim + new.countP (fun e => e.site == Site.storeFlush)⟩ := by
  induction new generalizing st with
  | nil => rfl
  | cons e new ih =>
    rw [List.foldl_cons, ih]
    simp only [List.countP_cons]
    cases hs : e.site <;> simp [Stats.bump] <;> omega

/-- C9. `cse_check_opcode(I)` is false for a load, a store, an instruction
with a terminator opcode, a call, a `VAArg` and an `Alloca`, and for every
instruction that is volatile, may have side effects, is a terminator or is not
safe to remove, whatever its opcode. The test changes nothing: where the
per-block phase consults it on such an instruction (one that is neither a load
nor a store), the state after the iteration is the state before it. -/
theorem C9_classifier_exclusions (I : Inst)
    (h : I.opcode = Opcode.Load ∨ I.opcode = Opcode.Store ∨ I.opcode.isTerm = true ∨
      I.opcode = Opcode.Call ∨ I.opcode = Opcode.VAArg ∨ I.opcode = Opcode.Alloca ∨
      I.isVolatile = true ∨ I.mayHaveSideEffects = true ∨ I.isTerminator = true ∨
      I.isSafeToRemove = false) :
    cse_check_opcode I = false ∧
      ∀ (dominates : Nat → Nat → Bool) (fi bi : Nat) (s : State),
        getInst s.m I.id = some I → I.opcode ≠ Opcode.Load → I.opcode ≠ Opcode.Store →
        blockStep dominates fi bi s I.id = s := by
  have hc : cse_check_opcode I = false := by
    unfold cse_check_opcode Inst.notRemovable
    rcases h with h | h | h | h | h | h | h | h | h | h
    · rw [h]; simp [cseOpcode]
    · rw [h]; simp [cseOpcode]
    · have : cseOpcode I.opcode = false := by
        cases hop : I.opcode <;> rw [hop] at h <;> simp [Opcode.isTerm, cseOpcode] at h ⊢
      simp [this]
    · rw [h]; simp [cseOpcode]
    · rw [h]; simp [cseOpcode]
    · rw [h]; simp [cseOpcode]
    all_goals simp [h]
  refine ⟨hc, ?_⟩
  intro dominates fi bi s hi hl hs
  unfold blockStep
  rw [hi]
  simp [hl, hs, hc]

/-- Witness of C9 on a volatile load. -/
theorem C9_classifier_exclusions_witness :
    (Inst.load 7 i32 (Val.ext 1 ptrTy) true).opcode = Opcode.Load ∧
      cse_check_opcode (Inst.load 7 i32 (Val.ext 1 ptrTy) true) = false :=
  ⟨rfl, (C9_classifier_exclusions _ (Or.inl rfl)).1⟩

/-- C6. A volatile load is never dead, whatever its number of uses; hence a
volatile load `L` of the block `bi` of the function `fi` for which the
simplifier never returns a replacement is still in that block after
`RunDeadCodeElimination` (with the operands it then has), and no erase of the
pass, so no increment of `CSEDead`, was for it. Instruction addresses are
unique. -/
theorem C6_volatile_load_survives_dce (simplify : Module → Inst → Option Val) (s : State)
    (fi bi : Nat) (L : Inst) (hL : L ∈ getBlock s.m fi bi)
    (hload : L.opcode = Opcode.Load) (hvol : L.isVolatile = true)
    (hsimp : ∀ m x, x.frame = L.frame → simplify m x = none)
    (hids : ((allInsts s.m).map Inst.id).Nodup) :
    (∀ m, isDead m L = false) ∧
    (∃ L2 ∈ getBlock (RunDeadCodeElimination simplify s).m fi bi, L2.frame = L.frame) ∧
    (∃ new, (RunDeadCodeElimination simplify s).log = s.log ++ new ∧
      (RunDeadCodeElimination simplify s).stats.CSEDead =
        s.stats.CSEDead + new.countP (fun e => e.site == Site.dead) ∧
      ∀ e ∈ new, e.erased.id ≠ L.id) := by
  refine ⟨fun m => isDead_volatile_load m L hload hvol, ?_⟩
  obtain ⟨new, g, hsum⟩ :=
    (RunDeadCodeElimination_trace simplify s).summary
  have hne : ∀ e ∈ new, e.erased.id ≠ L.id := by
    intro e he hid
    obtain ⟨me, hdesc, hguard⟩ := hsum.guard e he
    obtain ⟨hget, _, hcase⟩ := hguard.dce
    obtain ⟨x0, hx0, hfr⟩ := hdesc.mem (getInst_some hget).1
    have hx0L : x0 = L :=
      eq_of_nodup_ids hids hx0 (mem_allInsts_of_getBlock hL) ((frame_id hfr).symm.trans hid)
    rw [hx0L] at hfr
    rcases hcase with ⟨_, _, hd⟩ | ⟨_, _, hs, hv⟩
    · rw [isDead_volatile_load me e.erased ((frame_opcode hfr).trans hload)
        ((frame_isVolatile hfr).trans hvol)] at hd
      exact Bool.false_ne_true hd
    · rw [hsimp me e.erased hfr] at hs
      exact hv hs.symm
  refine ⟨⟨g L, ?_, hsum.keep L⟩, new, hsum.log, ?_, hne⟩
  · rw [hsum.m, getBlock_filter_map]
    refine List.mem_filter.mpr ⟨List.mem_map_of_mem g hL, ?_⟩
    simp only [decide_eq_true_eq, List.mem_map, not_exists, not_and]
    intro e he hid
    exact hne e he (hid.trans (frame_id (hsum.keep L)))
  · rw [hsum.stats, foldl_bump]

/-- Witness of C6: a volatile load without uses, followed by a `ret`. -/
theorem C6_volatile_load_survives_dce_witness :
    Inst.load 1 i32 (Val.ext 9 ptrTy) true ∈
        getBlock (State.init [⟨[[Inst.load 1 i32 (Val.ext 9 ptrTy) true,
          Inst.ret 2 (Val.ext 8 i32)]], [(0, [])]⟩]).m 0 0 ∧
      numUses [⟨[[Inst.load 1 i32 (Val.ext 9 ptrTy) true,
          Inst.ret 2 (Val.ext 8 i32)]], [(0, [])]⟩] 1 = 0 ∧
      ∃ L2 ∈ getBlock (RunDeadCodeElimination noSimplify (State.init
          [⟨[[Inst.load 1 i32 (Val.ext 9 ptrTy) true,
            Inst.ret 2 (Val.ext 8 i32)]], [(0, [])]⟩])).m 0 0,
        L2.frame = (Inst.load 1 i32 (Val.ext 9 ptrTy) true).frame :=
  ⟨by decide, by decide,
    (C6_volatile_load_survives_dce noSimplify _ 0 0 _ (by decide) rfl rfl
      (fun _ _ _ => rfl) (by decide)).2.1⟩

/-! ## The summary of `CommonSubexpressionElimination` -/

theorem Descends.compose {m0 m1 m2 : Module} (h1 : Descends m0 m1) (h2 : Descends m1 m2) :
    Descends m0 m2 := by
  obtain ⟨ids1, g1, k1, rfl⟩ := h1
  obtain ⟨ids2, g2, k2, rfl⟩ := h2
  refine ⟨ids1 ++ ids2, fun x => g2 (g1 x), fun x => by rw [k2, k1], ?_⟩
  rw [mapInsts_filterInsts g2 _ (fun x => by rw [frame_id (k2 x)]), filterInsts_filterInsts,
    mapInsts_mapInsts]
  apply filterInsts_congr
  intro x
  rw [Bool.eq_iff_iff]
  simp

theorem Summary.descends {pass : Pass} {s s2 : State} {new : List Event} {g : Inst → Inst}
    (h : Summary pass s s2 new g) : Descends s.m s2.m :=
  ⟨_, g, h.keep, h.m⟩

/-- The net effect of `CommonSubexpressionElimination`: the erases it logged,
each with its guard, the module that is left, and the counters, `CSEElim`
with the increment of line 391. -/
theorem CommonSubexpressionElimination_summary (dominates : Nat → Nat → Bool) (s : State) :
    ∃ (new : List Event) (g : Inst → Inst),
      (CommonSubexpressionElimination dominates s).log = s.log ++ new ∧
      (∀ x, (g x).frame = x.frame) ∧
      (CommonSubexpressionElimination dominates s).m =
        filterInsts (fun x => decide (x.id ∉ new.map (fun e => e.erased.id)))
          (mapInsts g s.m) ∧
      (CommonSubexpressionElimination dominates s).stats =
        ⟨s.stats.CSEDead,
          s.stats.CSEElim + 1 + new.countP (fun e => e.site == Site.blockScan ||
            e.site == Site.domTreeScan),
          s.stats.CSESimplify,
          s.stats.CSELdElim + new.countP (fun e => e.site == Site.loadFlush),
          s.stats.CSEStore2Load + new.countP (fun e => e.site == Site.storeLoadFlush),
          s.stats.CSEStElim + new.countP (fun e => e.site == Site.storeFlush)⟩ ∧
      ∀ e ∈ new, ∃ m, Descends s.m m ∧
        Guard (Pass.cse dominates) m e.site e.erased e.survivor e.replacement := by
  obtain ⟨t1, t2⟩ := CommonSubexpressionElimination_trace dominates s
  obtain ⟨n1, g1, h1⟩ := t1.summary
  obtain ⟨n2, g2, h2⟩ := t2.summary
  have hguard : ∀ e ∈ n1 ++ n2, ∃ m, Descends s.m m ∧
      Guard (Pass.cse dominates) m e.site e.erased e.survivor e.replacement := by
    intro e he
    rcases List.mem_append.mp he with he | he
    · exact h1.guard e he
    · obtain ⟨m, hd, hg⟩ := h2.guard e he
      exact ⟨m, h1.descends.compose hd, hg⟩
  have hcount : ∀ (p : Site → Bool), (n1 ++ n2).countP (fun e => p e.site) = 0 →
      n1.countP (fun e => p e.site) = 0 ∧ n2.countP (fun e => p e.site) = 0 := by
    intro p hp
    rw [List.countP_append] at hp
    omega
  have hdead : (n1 ++ n2).countP (fun e => e.site == Site.dead) = 0 := by
    rw [List.countP_eq_zero]
    intro e he
    obtain ⟨m, _, hg⟩ := hguard e he
    obtain ⟨_, i0, _, _, _, _, hc⟩ := hg.cse
    rcases hc with ⟨h | h, _⟩ | ⟨h, _⟩ | ⟨h, _⟩ | ⟨h, _⟩ <;> rw [h] <;> decide
  have hsimp : (n1 ++ n2).countP (fun e => e.site == Site.simplified) = 0 := by
    rw [List.countP_eq_zero]
    intro e he
    obtain ⟨m, _, hg⟩ := hguard e he
    obtain ⟨_, i0, _, _, _, _, hc⟩ := hg.cse
    rcases hc with ⟨h | h, _⟩ | ⟨h, _⟩ | ⟨h, _⟩ | ⟨h, _⟩ <;> rw [h] <;> decide
  refine ⟨n1 ++ n2, fun x => g2 (g1 x), ?_, fun x => by rw [h2.keep, h1.keep], ?_, ?_, hguard⟩
  · rw [h2.log]
    show (csePerBlock dominates s).log ++ n2 = _
    rw [h1.log, List.append_assoc]
  · rw [h2.m]
    show filterInsts _ (mapInsts g2 (csePerBlock dominates s).m) = _
    rw [h1.m, mapInsts_filterInsts g2 _ (fun x => by rw [frame_id (h2.keep x)]),
      filterInsts_filterInsts, mapInsts_mapInsts]
    apply filterInsts_congr
    intro x
    rw [Bool.eq_iff_iff]
    simp
  · rw [h2.stats, foldl_bump]
    show Stats.mk _ _ _ _ _ _ = _
    simp only [strayIncrement]
    rw [h1.stats, foldl_bump]
    have d1 := hcount (fun t => t == Site.dead) hdead
    have d2 := hcount (fun t => t == Site.simplified) hsimp
    simp only [List.countP_append, d1.1, d1.2, d2.1, d2.2, Nat.add_zero]
    congr 1 <;> omega

/-! ## Soundness of merging and the dominance precondition -/

theorem operands_eq_of_same {i j : Inst} (h1 : sameShape i j = true)
    (h2 : areOperandsSame i j = true) : i.operands = j.operands := by
  unfold sameShape at h1
  simp only [Bool.and_eq_true, beq_iff_eq] at h1
  have hlen : i.operands.length = j.operands.length := h1.2
  unfold areOperandsSame Inst.getOperand at h2
  simp only [List.all_eq_true, List.mem_range, beq_iff_eq, List.get?_eq_getElem?] at h2
  apply List.ext_getElem? 
  intro w
  by_cases hw : w < i.operands.length
  · exact h2 w hw
  · rw [List.getElem?_eq_none (by omega), List.getElem?_eq_none (by omega)]

/-- C3. Whenever the intra-block scan or the dominator-tree scan of
`CommonSubexpressionElimination` erases `j` and redirects its uses to `i`, then
`i` passes the classifier, `i` and `j` have the same opcode, the same type
identifier, the same number of operands and the same operand at every index;
their result types are equal under every typing of values that gives both the
type of their first operand (as the unary and binary operators the classifier
admits have); and if the operands of `i` are `a, b` with `a` and `b` distinct,
those of `j` are not `b, a`. -/
theorem C3_merge_soundness (dominates : Nat → Nat → Bool) (s : State) :
    ∃ new, (CommonSubexpressionElimination dominates s).log = s.log ++ new ∧
      ∀ e ∈ new, (e.site = Site.blockScan ∨ e.site = Site.domTreeScan) →
        ∃ i, e.survivor = some i ∧ e.replacement = some (Val.inst i.id) ∧
          cse_check_opcode i = true ∧
          i.opcode = e.erased.opcode ∧ i.ty.typeID = e.erased.ty.typeID ∧
          i.operands.length = e.erased.operands.length ∧
          (∀ w, i.getOperand w = e.erased.getOperand w) ∧
          (∀ tyOf : Val → Ty, (∃ v, i.getOperand 0 = some v ∧ i.ty = tyOf v) →
            (∃ v, e.erased.getOperand 0 = some v ∧ e.erased.ty = tyOf v) →
            i.ty = e.erased.ty) ∧
          (∀ a b, a ≠ b → i.operands = [a, b] → e.erased.operands ≠ [b, a]) := by
  obtain ⟨new, g, hlog, _, _, _, hguard⟩ := CommonSubexpressionElimination_summary dominates s
  refine ⟨new, hlog, ?_⟩
  intro e he hsite
  obtain ⟨m, _, hg⟩ := hguard e he
  obtain ⟨_, i, hi, _, _, _, hc⟩ := hg.cse
  have hscan : cse_check_opcode i = true ∧ sameShape i e.erased = true ∧
      areOperandsSame i e.erased = true ∧ e.replacement = some (Val.inst i.id) := by
    rcases hc with ⟨_, h⟩ | ⟨h, _⟩ | ⟨h, _⟩ | ⟨h, _⟩
    · exact h
    all_goals rcases hsite with h2 | h2 <;> rw [h] at h2 <;> cases h2
  obtain ⟨hcheck, hshape, hsame, hrep⟩ := hscan
  have hops := operands_eq_of_same hshape hsame
  have hshape2 := hshape
  unfold sameShape at hshape2
  simp only [Bool.and_eq_true, beq_iff_eq] at hshape2
  refine ⟨i, hi, hrep, hcheck, hshape2.1.1.2, hshape2.1.2, hshape2.2, ?_, ?_, ?_⟩
  · intro w; unfold Inst.getOperand; rw [hops]
  · rintro tyOf ⟨v, hv, hty⟩ ⟨v2, hv2, hty2⟩
    unfold Inst.getOperand at hv hv2
    rw [hops, hv2] at hv
    cases hv
    rw [hty, hty2]
  · intro a b hab h1 h2
    rw [hops, h2] at h1
    simp only [List.cons.injEq, and_true] at h1
    exact hab h1.1.symm

theorem Trace.dominatedErases {dominates : Nat → Nat → Bool} {s s2 : State}
    (h : Trace (Pass.cse dominates) s s2) : DominatedErases dominates s s2 := by
  obtain ⟨new, g, hsum⟩ := h.summary
  refine ⟨new, hsum.log, ?_⟩
  intro e he
  obtain ⟨m, _, hg⟩ := hsum.guard e he
  obtain ⟨_, i, hi, _, hd, _, hc⟩ := hg.cse
  refine ⟨i, hi, hd, ?_⟩
  rcases hc with ⟨_, _, _, _, h⟩ | ⟨_, _, _, h⟩ | ⟨_, _, _, h⟩ | ⟨h1, h2, _, _, _, h3⟩
  · exact Or.inl h
  · exact Or.inl h
  · exact Or.inl h
  · exact Or.inr ⟨h1, h2, h3⟩

/-- C4. In every erase-and-replace performed by
`CommonSubexpressionElimination`, and by `process_load_worklist`,
`process_store_worklist` and `process_store_load_worklist` from any state, the
oracle answered true for `dominates(i, j)`, where `j` is the erased instruction
and `i` the surviving one (for store-to-load forwarding, the store whose value
replaces the load). -/
theorem C4_dominance_precondition (dominates : Nat → Nat → Bool) (s : State) :
    DominatedErases dominates s (CommonSubexpressionElimination dominates s) ∧
      DominatedErases dominates s (process_load_worklist dominates s) ∧
      DominatedErases dominates s (process_store_worklist dominates s) ∧
      DominatedErases dominates s (process_store_load_worklist dominates s) := by
  refine ⟨?_, (process_load_worklist_trace dominates s).dominatedErases,
    (process_store_worklist_trace dominates s).dominatedErases,
    (process_store_load_worklist_trace dominates s).dominatedErases⟩
  obtain ⟨t1, t2⟩ := CommonSubexpressionElimination_trace dominates s
  obtain ⟨n1, h1, k1⟩ := t1.dominatedErases
  obtain ⟨n2, h2, k2⟩ := t2.dominatedErases
  refine ⟨n1 ++ n2, ?_, ?_⟩
  · rw [h2]
    show (csePerBlock dominates s).log ++ n2 = _
    rw [h1, List.append_assoc]
  · intro e he
    rcases List.mem_append.mp he with he | he
    · exact k1 e he
    · exact k2 e he

/-! ## The increment of line 391 and the oracle that always answers false -/

/-- C5. On every state, with an oracle that answers false to every query,
`CommonSubexpressionElimination` erases nothing and leaves `CSELdElim`,
`CSEStElim` and `CSEStore2Load` as they were, but `CSEElim` is one more than
before the call: the statement `CSEElim++;` of line 391 is executed whatever
the oracle answers. -/
theorem C5_counters_without_dominance (s : State) :
    (CommonSubexpressionElimination (fun _ _ => false) s).log = s.log ∧
      (CommonSubexpressionElimination (fun _ _ => false) s).stats =
        { s.stats with CSEElim := s.stats.CSEElim + 1 } := by
  obtain ⟨new, g, hlog, _, _, hstats, hguard⟩ :=
    CommonSubexpressionElimination_summary (fun _ _ => false) s
  have hnil : new = [] := by
    apply List.eq_nil_iff_forall_not_mem.mpr
    intro e he
    obtain ⟨m, _, hg⟩ := hguard e he
    obtain ⟨_, i, _, _, hd, _⟩ := hg.cse
    exact Bool.false_ne_true hd
  subst hnil
  refine ⟨by rw [hlog, List.append_nil], ?_⟩
  rw [hstats]
  simp

/-- The failing input of C5: on a fresh run on the module without functions,
with the oracle that always answers false, `CSEElim` reads 1 after the pass. -/
theorem C5_empty_module_CSEElim :
    (CommonSubexpressionElimination (fun _ _ => false) (State.init [])).stats.CSEElim = 1 := by
  decide

/-! ## Volatile accesses -/

theorem sameShape_opcode {i j : Inst} (h : sameShape i j = true) : i.opcode = j.opcode := by
  unfold sameShape at h
  simp only [Bool.and_eq_true, beq_iff_eq] at h
  exact h.1.1.2

theorem cse_check_opcode_cseOpcode {i : Inst} (h : cse_check_opcode i = true) :
    cseOpcode i.opcode = true := by
  unfold cse_check_opcode at h
  by_cases h1 : i.isVolatile = true
  · simp [h1] at h
  · by_cases h2 : i.notRemovable = true
    · simp [h2] at h
    · simpa [h1, h2] using h

/-- An erase of `CommonSubexpressionElimination` is never of a volatile load
or store. -/
theorem Guard.cse_not_volatile_access {dominates : Nat → Nat → Bool} {m : Module} {site : Site}
    {j : Inst} {i : Option Inst} {v : Option Val}
    (hg : Guard (Pass.cse dominates) m site j i v)
    (hop : j.opcode = Opcode.Load ∨ j.opcode = Opcode.Store) : j.isVolatile = false := by
  obtain ⟨_, i, _, _, _, _, hc⟩ := hg.cse
  rcases hc with ⟨_, h1, h2, _⟩ | ⟨_, h, _⟩ | ⟨_, h, _⟩ | ⟨_, _, _, h, _⟩
  · have h3 := cse_check_opcode_cseOpcode h1
    rw [sameShape_opcode h2] at h3
    rcases hop with h | h <;> rw [h] at h3 <;> simp [cseOpcode] at h3
  · unfold loadCond at h; simp only [Bool.and_eq_true, Bool.not_eq_true'] at h; exact h.1.2
  · unfold storeCond at h; simp only [Bool.and_eq_true, Bool.not_eq_true'] at h; exact h.1.2
  · unfold forwardCond at h; simp only [Bool.and_eq_true, Bool.not_eq_true'] at h; exact h.1.2

theorem Trace.noVolatileErased {dominates : Nat → Nat → Bool} {s s2 : State}
    (h : Trace (Pass.cse dominates) s s2) : NoVolatileErased s s2 := by
  obtain ⟨new, g, hsum⟩ := h.summary
  refine ⟨new, hsum.log, ?_⟩
  intro e he hop
  obtain ⟨m, _, hg⟩ := hsum.guard e he
  exact hg.cse_not_volatile_access hop

/-- C7. From any state, whatever the worklists hold and whatever the oracle
answers, every load or store erased by `process_load_worklist`,
`process_store_worklist` or `process_store_load_worklist` has its volatile
flag clear; and a volatile load or store `x` of a module with unique
instruction addresses is still in the module after
`CommonSubexpressionElimination` (with the operands it then has). -/
theorem C7_volatile_never_merged (dominates : Nat → Nat → Bool) (s : State) (x : Inst)
    (hx : x ∈ allInsts s.m) (hvol : x.isVolatile = true)
    (hop : x.opcode = Opcode.Load ∨ x.opcode = Opcode.Store)
    (hids : ((allInsts s.m).map Inst.id).Nodup) :
    (∀ s0 : State, NoVolatileErased s0 (process_load_worklist dominates s0) ∧
      NoVolatileErased s0 (process_store_worklist dominates s0) ∧
      NoVolatileErased s0 (process_store_load_worklist dominates s0)) ∧
    (∃ x2 ∈ allInsts (CommonSubexpressionElimination dominates s).m, x2.frame = x.frame) ∧
    (∃ new, (CommonSubexpressionElimination dominates s).log = s.log ++ new ∧
      ∀ e ∈ new, e.erased.id ≠ x.id) := by
  refine ⟨fun s0 => ⟨(process_load_worklist_trace dominates s0).noVolatileErased,
    (process_store_worklist_trace dominates s0).noVolatileErased,
    (process_store_load_worklist_trace dominates s0).noVolatileErased⟩, ?_⟩
  obtain ⟨new, g, hlog, hkeep, hm, _, hguard⟩ :=
    CommonSubexpressionElimination_summary dominates s
  have hne : ∀ e ∈ new, e.erased.id ≠ x.id := by
    intro e he hid
    obtain ⟨me, hdesc, hg⟩ := hguard e he
    obtain ⟨x0, hx0, hfr⟩ := hdesc.mem (getInst_some hg.1).1
    have hx0x : x0 = x := eq_of_nodup_ids hids hx0 hx ((frame_id hfr).symm.trans hid)
    rw [hx0x] at hfr
    have := hg.cse_not_volatile_access (by rw [frame_opcode hfr]; exact hop)
    rw [frame_isVolatile hfr, hvol] at this
    exact Bool.noConfusion this
  refine ⟨⟨g x, ?_, hkeep x⟩, new, hlog, hne⟩
  rw [hm, allInsts_filterInsts, allInsts_mapInsts]
  refine List.mem_filter.mpr ⟨List.mem_map_of_mem g hx, ?_⟩
  simp only [decide_eq_true_eq, List.mem_map, not_exists, not_and]
  intro e he hid
  exact hne e he (hid.trans (frame_id (hkeep x)))

/-- Witness of C7: a volatile store followed by a second store to the same
address and a `ret`. -/
theorem C7_volatile_never_merged_witness :
    Inst.store 2 (Val.ext 8 i32) (Val.ext 9 ptrTy) true ∈
        allInsts [⟨[[Inst.store 1 (Val.ext 8 i32) (Val.ext 9 ptrTy) false,
          Inst.store 2 (Val.ext 8 i32) (Val.ext 9 ptrTy) true,
          Inst.ret 3 (Val.ext 8 i32)]], [(0, [])]⟩] ∧
      ∃ x2 ∈ allInsts (CommonSubexpressionElimination (fun a b => decide (a < b))
          (State.init [⟨[[Inst.store 1 (Val.ext 8 i32) (Val.ext 9 ptrTy) false,
            Inst.store 2 (Val.ext 8 i32) (Val.ext 9 ptrTy) true,
            Inst.ret 3 (Val.ext 8 i32)]], [(0, [])]⟩])).m,
        x2.frame = (Inst.store 2 (Val.ext 8 i32) (Val.ext 9 ptrTy) true).frame :=
  ⟨by decide,
    (C7_volatile_never_merged (fun a b => decide (a < b)) (State.init _) _ (by decide) rfl
      (Or.inr rfl) (by decide)).2.1⟩

/-! ## Graph integrity -/

theorem numUses_eq_zero_iff (m : Module) (k : Nat) : numUses m k = 0 ↔ Unused m k := by
  unfold numUses Unused
  rw [List.sum_eq_zero_iff]
  simp only [List.mem_map, forall_exists_index, and_imp, forall_apply_eq_imp_iff₂,
    List.count_eq_zero]

theorem mem_erase_m {s : State} {site : Site} {j : Inst} {i : Option Inst} {v : Option Val}
    {y : Inst} (hy : y ∈ allInsts (s.erase site j i v).m) :
    ∃ x ∈ allInsts s.m, y = redirect j.id v x ∧ x.id ≠ j.id := by
  rw [erase_m, eraseFromParent, allInsts_filterInsts, allInsts_mapInsts] at hy
  obtain ⟨hy1, hy2⟩ := List.mem_filter.mp hy
  obtain ⟨x, hx, rfl⟩ := List.mem_map.mp hy1
  refine ⟨x, hx, rfl, ?_⟩
  rw [frame_id (redirect_frame j.id v x)] at hy2
  simpa using hy2

theorem mem_redirect_operands {jid : Nat} {v : Option Val} {x : Inst} {o : Val}
    (ho : o ∈ (redirect jid v x).operands) :
    o ∈ x.operands ∨ (Val.inst jid ∈ x.operands ∧ v = some o) := by
  cases v with
  | none => exact Or.inl ho
  | some w =>
    simp only [redirect, Inst.subst, List.mem_map] at ho
    obtain ⟨o0, ho0, rfl⟩ := ho
    unfold substVal
    split_ifs with h
    · exact Or.inr ⟨h ▸ ho0, rfl⟩
    · exact Or.inl ho0

theorem not_mem_redirect_self {jid : Nat} {w : Val} (x : Inst) (hw : w ≠ Val.inst jid) :
    Val.inst jid ∉ (redirect jid (some w) x).operands := by
  simp only [redirect, Inst.subst, List.mem_map, not_exists, not_and]
  intro o _
  unfold substVal
  split_ifs with h
  · exact hw
  · exact h

/-- One erase keeps the log intact when the replacement is a value that is
neither the erased instruction nor an instruction erased before (one that is
absent and unused). -/
theorem Intact.step {base : Nat} {s1 s2 : State} {site : Site} {j : Inst} {i : Option Inst}
    {v : Option Val} (h1 : Intact base s1)
    (hm : s2.m = (s1.erase site j i v).m) (hl : s2.log = (s1.erase site j i v).log)
    (hself : match v with
      | some w => w ≠ Val.inst j.id
      | none => Unused s1.m j.id)
    (hold : ∀ k, v = some (Val.inst k) → ¬ Absent s1.m k ∨ ¬ Unused s1.m k) :
    Intact base s2 := by
  obtain ⟨hb, hall⟩ := h1
  have hnew : Unused s2.m j.id := by
    intro y hy
    rw [hm] at hy
    obtain ⟨x, hx, rfl, _⟩ := mem_erase_m hy
    cases v with
    | none => exact hself x hx
    | some w => exact not_mem_redirect_self x hself
  refine ⟨by rw [hl, erase_log, List.length_append]; omega, ?_⟩
  intro e he
  rw [hl, erase_log, List.drop_append_of_le_length hb] at he
  rcases List.mem_append.mp he with he | he
  · obtain ⟨a, b, c⟩ := hall e he
    refine ⟨a, ?_, ?_⟩
    · intro y hy
      rw [hm] at hy
      obtain ⟨x, hx, rfl, _⟩ := mem_erase_m hy
      intro ho
      rcases mem_redirect_operands ho with ho | ⟨_, hv⟩
      · exact b x hx ho
      · rcases hold _ hv with h | h
        · exact h c
        · exact h b
    · intro y hy
      rw [hm] at hy
      obtain ⟨x, hx, rfl, _⟩ := mem_erase_m hy
      rw [frame_id (redirect_frame j.id v x)]
      exact c x hx
  · simp only [List.mem_singleton] at he
    subst he
    refine ⟨?_, hnew, ?_⟩
    · show numUses (s1.erase site j i v).m j.id = 0
      rw [numUses_eq_zero_iff, ← hm]
      exact hnew
    · intro y hy
      rw [hm] at hy
      obtain ⟨x, _, rfl, hne⟩ := mem_erase_m hy
      rw [frame_id (redirect_frame j.id v x)]
      exact hne

theorem isDead_unused {m : Module} {j : Inst} (h : isDead m j = true) : Unused m j.id := by
  rw [← numUses_eq_zero_iff]
  unfold isDead at h
  by_contra hne
  rw [if_neg hne] at h
  exact Bool.false_ne_true h

theorem Trace.intact_dce {simplify : Module → Inst → Option Val} {s s2 : State} {base : Nat}
    (hsimp : ∀ m x v, simplify m x = some v →
      v ≠ Val.inst x.id ∧ ∀ k, v = Val.inst k → ∃ y ∈ allInsts m, y.id = k)
    (h : Trace (Pass.dce simplify) s s2) (h0 : Intact base s) : Intact base s2 := by
  induction h with
  | refl => exact h0
  | @erase s1 s2 site j i v _ hg hm hl _ ih =>
    obtain ⟨_, _, hc⟩ := hg.dce
    rcases hc with ⟨_, hv, hd⟩ | ⟨_, _, hs, hv⟩
    · subst hv
      exact ih.step hm hl (isDead_unused hd) (fun k hk => by cases hk)
    · cases v with
      | none => exact absurd rfl hv
      | some w =>
        obtain ⟨h1, h2⟩ := hsimp _ _ _ hs
        refine ih.step hm hl h1 (fun k hk => Or.inl ?_)
        cases hk
        obtain ⟨y, hy, hyk⟩ := h2 k rfl
        exact fun habs => habs y hy hyk
  | frame _ hm hl _ ih =>
    obtain ⟨a, b⟩ := ih
    exact ⟨by rw [hl]; exact a, by rw [hl, hm]; exact b⟩

theorem forwardCond_operand0 {m : Module} {i j : Inst} (h : forwardCond m i j = true) :
    ∃ w, i.getOperand 0 = some w := by
  unfold forwardCond at h
  simp only [Bool.and_eq_true, beq_iff_eq] at h
  have h2 := h.2
  unfold Inst.getOperand at h2 ⊢
  cases hops : i.operands with
  | nil => rw [hops] at h2; simp at h2
  | cons w ws => exact ⟨w, rfl⟩

theorem Trace.intact_cse {dominates : Nat → Nat → Bool} {s s2 : State} {base : Nat}
    (hirr : ∀ a, dominates a a = false)
    (htr : ∀ a b c, dominates a b = true → dominates b c = true → dominates a c = true)
    (h : Trace (Pass.cse dominates) s s2)
    (h0 : StoreOperandsDominate dominates s.m ∧ Intact base s) :
    StoreOperandsDominate dominates s2.m ∧ Intact base s2 := by
  induction h with
  | refl => exact h0
  | @erase s1 s2 site j i v _ hg hm hl _ ih =>
    obtain ⟨hssa, hint⟩ := ih
    obtain ⟨hj, i0, _, hi0, hdom, hne, hc⟩ := hg.cse
    have hi0m := (getInst_some hi0).1
    -- the replacement: never the erased instruction, and it dominates it or is
    -- the stored value of a store that does
    have hv : ∃ w, v = some w ∧ w ≠ Val.inst j.id ∧
        (∀ k, w = Val.inst k → ¬ Absent s1.m k ∨ ¬ Unused s1.m k) ∧
        (∀ k, w = Val.inst k → dominates k j.id = true) := by
      have hmerge : v = some (Val.inst i0.id) → ∃ w, v = some w ∧ w ≠ Val.inst j.id ∧
          (∀ k, w = Val.inst k → ¬ Absent s1.m k ∨ ¬ Unused s1.m k) ∧
          (∀ k, w = Val.inst k → dominates k j.id = true) := by
        intro hv
        refine ⟨_, hv, fun e => hne (Val.inst.inj e), fun k hk => Or.inl ?_, fun k hk => ?_⟩
        · cases hk; exact fun habs => habs i0 hi0m rfl
        · cases hk; exact hdom
      rcases hc with ⟨_, _, _, _, h⟩ | ⟨_, _, _, h⟩ | ⟨_, _, _, h⟩ | ⟨_, hst, _, hf, _, h⟩
      · exact hmerge h
      · exact hmerge h
      · exact hmerge h
      · obtain ⟨w, hw⟩ := forwardCond_operand0 hf
        have hwm : w ∈ i0.operands := by
          unfold Inst.getOperand at hw
          exact List.getElem?_mem (by simpa using hw)
        refine ⟨w, by rw [h, hw], ?_, fun k hk => Or.inr ?_, fun k hk => ?_⟩
        · intro e
          have := htr _ _ _ (hssa i0 hi0m hst j.id (by rw [hw, e])) hdom
          rw [hirr] at this
          exact Bool.false_ne_true this
        · intro hun
          exact hun i0 hi0m (hk ▸ hwm)
        · exact htr _ _ _ (hssa i0 hi0m hst k (by rw [hw, hk])) hdom
    obtain ⟨w, rfl, hw1, hw2, hw3⟩ := hv
    refine ⟨?_, hint.step hm hl hw1 (fun k hk => hw2 k (Option.some.inj hk))⟩
    intro y hy hop k hk
    rw [hm] at hy
    obtain ⟨x, hx, rfl, _⟩ := mem_erase_m hy
    rw [frame_id (redirect_frame j.id (some w) x)]
    have hop2 : x.opcode = Opcode.Store := by
      rw [← frame_opcode (redirect_frame j.id (some w) x)]; exact hop
    simp only [redirect, Inst.subst, Inst.getOperand, List.get?_eq_getElem?,
      List.getElem?_map, Option.map_eq_some'] at hk
    obtain ⟨o, ho, hsub⟩ := hk
    unfold substVal at hsub
    split_ifs at hsub with he
    · have h1 := hssa x hx hop2 j.id (by
        unfold Inst.getOperand; rw [List.get?_eq_getElem?, ho, he])
      exact htr _ _ _ (hw3 k hsub) h1
    · exact hssa x hx hop2 k (by
        unfold Inst.getOperand; rw [List.get?_eq_getElem?, ho, hsub])
  | frame _ hm hl _ ih =>
    obtain ⟨a, b, c⟩ := ih
    exact ⟨by rw [hm]; exact a, by rw [hl]; exact b, by rw [hl, hm]; exact c⟩

theorem Intact.start (s : State) : Intact s.log.length s :=
  ⟨Nat.le_refl _, by rw [List.drop_length]; intro e he; cases he⟩

theorem Intact.integrity {s s2 : State} {new : List Event} (h : Intact s.log.length s2)
    (hlog : s2.log = s.log ++ new) : Integrity s s2 := by
  refine ⟨new, hlog, ?_⟩
  intro e he
  have hd : e ∈ s2.log.drop s.log.length := by
    rw [hlog, List.drop_left]; exact he
  obtain ⟨a, b, _⟩ := h.2 e hd
  exact ⟨a, (numUses_eq_zero_iff _ _).mpr b⟩

/-- C10. Use lists are the operand lists of the module. If the simplifier never
returns the instruction it was asked about nor an instruction that is not in
the module, then after `RunDeadCodeElimination` every erase left no use of the
erased instruction behind and no operand of the module refers to an erased
instruction. If the dominance oracle is irreflexive and transitive and every
store whose stored value is an instruction is dominated by it, the same holds
after `CommonSubexpressionElimination`. -/
theorem C10_use_before_erase (simplify : Module → Inst → Option Val)
    (dominates : Nat → Nat → Bool) (s : State)
    (hsimp : ∀ m x v, simplify m x = some v →
      v ≠ Val.inst x.id ∧ ∀ k, v = Val.inst k → ∃ y ∈ allInsts m, y.id = k)
    (hirr : ∀ a, dominates a a = false)
    (htr : ∀ a b c, dominates a b = true → dominates b c = true → dominates a c = true)
    (hssa : StoreOperandsDominate dominates s.m) :
    Integrity s (RunDeadCodeElimination simplify s) ∧
      Integrity s (CommonSubexpressionElimination dominates s) := by
  constructor
  · obtain ⟨new, g, hsum⟩ := (RunDeadCodeElimination_trace simplify s).summary
    exact ((RunDeadCodeElimination_trace simplify s).intact_dce hsimp
      (Intact.start s)).integrity hsum.log
  · obtain ⟨t1, t2⟩ := CommonSubexpressionElimination_trace dominates s
    obtain ⟨new, g, hlog, _⟩ := CommonSubexpressionElimination_summary dominates s
    have h1 := t1.intact_cse hirr htr ⟨hssa, Intact.start s⟩
    have h2 := t2.intact_cse hirr htr h1
    exact h2.2.integrity hlog

/-- Witness of C10: the block `t1 = add a, b; t2 = add a, b; store t2, p;
l1 = load p; l2 = load p; call (t1, l1, l2)` with dominance in address order. -/
theorem C10_use_before_erase_witness :
    StoreOperandsDominate (fun a b => decide (a < b))
        (State.init [⟨[[Inst.plain 1 Opcode.Add i32 [Val.ext 10 i32, Val.ext 11 i32],
          Inst.plain 2 Opcode.Add i32 [Val.ext 10 i32, Val.ext 11 i32],
          Inst.store 3 (Val.inst 2) (Val.ext 12 ptrTy) false,
          Inst.load 4 i32 (Val.ext 12 ptrTy) false,
          Inst.load 5 i32 (Val.ext 12 ptrTy) false,
          Inst.call 6 [Val.inst 1, Val.inst 4, Val.inst 5]]], [(0, [])]⟩]).m ∧
      Integrity
        (State.init [⟨[[Inst.plain 1 Opcode.Add i32 [Val.ext 10 i32, Val.ext 11 i32],
          Inst.plain 2 Opcode.Add i32 [Val.ext 10 i32, Val.ext 11 i32],
          Inst.store 3 (Val.inst 2) (Val.ext 12 ptrTy) false,
          Inst.load 4 i32 (Val.ext 12 ptrTy) false,
          Inst.load 5 i32 (Val.ext 12 ptrTy) false,
          Inst.call 6 [Val.inst 1, Val.inst 4, Val.inst 5]]], [(0, [])]⟩])
        (CommonSubexpressionElimination (fun a b => decide (a < b))
          (State.init [⟨[[Inst.plain 1 Opcode.Add i32 [Val.ext 10 i32, Val.ext 11 i32],
            Inst.plain 2 Opcode.Add i32 [Val.ext 10 i32, Val.ext 11 i32],
            Inst.store 3 (Val.inst 2) (Val.ext 12 ptrTy) false,
            Inst.load 4 i32 (Val.ext 12 ptrTy) false,
            Inst.load 5 i32 (Val.ext 12 ptrTy) false,
            Inst.call 6 [Val.inst 1, Val.inst 4, Val.inst 5]]], [(0, [])]⟩])) := by
  have hssa : StoreOperandsDominate (fun a b => decide (a < b))
      (State.init [⟨[[Inst.plain 1 Opcode.Add i32 [Val.ext 10 i32, Val.ext 11 i32],
        Inst.plain 2 Opcode.Add i32 [Val.ext 10 i32, Val.ext 11 i32],
        Inst.store 3 (Val.inst 2) (Val.ext 12 ptrTy) false,
        Inst.load 4 i32 (Val.ext 12 ptrTy) false,
        Inst.load 5 i32 (Val.ext 12 ptrTy) false,
        Inst.call 6 [Val.inst 1, Val.inst 4, Val.inst 5]]], [(0, [])]⟩]).m := by
    intro x hx hop k hk
    simp only [State.init, allInsts, Function.insts, List.map_cons, List.map_nil,
      List.flatten_cons, List.flatten_nil, List.append_nil, List.mem_cons,
      List.mem_singleton, List.not_mem_nil, or_false] at hx
    rcases hx with rfl | rfl | rfl | rfl | rfl | rfl <;>
      simp [Inst.plain, Inst.store, Inst.load, Inst.call, Inst.getOperand] at hop hk ⊢
    subst hk
    decide
  exact ⟨hssa, (C10_use_before_erase noSimplify (fun a b => decide (a < b)) (State.init _)
    (fun _ _ _ h => by cases h) (fun a => by simp)
    (fun a b c h1 h2 => by simp only [decide_eq_true_eq] at *; omega) hssa).2⟩

set_option maxRecDepth 100000 in
/-- Counterexample to C2: on the block of the claim as it stands the pipeline
first erases `t1`, `l1` and `l2` as dead (none has a use), so `t2` is not
erased and no load is merged: `CSEDead` reads 3, `CSELdElim` reads 0, and
`CSEElim` reads 1 although nothing was merged. -/
theorem C2_counterexample :
    (pipeline noSimplify domByAddress (State.init c2Module)).m =
        [⟨[[Inst.plain 2 Opcode.Add i32 [Val.ext 10 i32, Val.ext 11 i32],
          Inst.store 3 (Val.inst 2) (Val.ext 12 ptrTy) false]], [(0, [])]⟩] ∧
      (pipeline noSimplify domByAddress (State.init c2Module)).stats =
        ⟨3, 1, 0, 0, 0, 0⟩ := by
  decide

set_option maxRecDepth 100000 in
/-- C2, as the code has it. When the block `t1 = add a, b; t2 = add a, b;
store t2, p; l1 = load p; l2 = load p` is followed by an instruction that uses
`t1`, `l1` and `l2`, and addresses ascend in program order, the pipeline erases
`t2` and redirects its uses to `t1` (the store then stores `t1`), erases `l2`
and redirects its uses to `l1`, erases nothing else, and `CSELdElim` rises
from 0 to 1. -/
theorem C2_scenario_with_uses :
    (pipeline noSimplify domByAddress (State.init c2ModuleUsed)).m =
        [⟨[[Inst.plain 1 Opcode.Add i32 [Val.ext 10 i32, Val.ext 11 i32],
          Inst.store 3 (Val.inst 1) (Val.ext 12 ptrTy) false,
          Inst.load 4 i32 (Val.ext 12 ptrTy) false,
          Inst.call 6 [Val.inst 1, Val.inst 4, Val.inst 4]]], [(0, [])]⟩] ∧
      (pipeline noSimplify domByAddress (State.init c2ModuleUsed)).stats.CSELdElim = 1 ∧
      (pipeline noSimplify domByAddress (State.init c2ModuleUsed)).log.map
          (fun e => (e.site, e.erased.id, e.replacement)) =
        [(Site.blockScan, 2, some (Val.inst 1)), (Site.loadFlush, 5, some (Val.inst 4))] := by
  decide

/-! ## Runs shrink the module -/

theorem Trace.log_le {pass : Pass} {s s2 : State} (h : Trace pass s s2) :
    s.log.length ≤ s2.log.length := by
  obtain ⟨new, g, hsum⟩ := h.summary
  rw [hsum.log, List.length_append]
  omega

theorem Trace.unchanged {pass : Pass} {s s2 : State} (h : Trace pass s s2)
    (hlog : s2.log.length = s.log.length) : s2.m = s.m ∧ s2.stats = s.stats := by
  induction h with
  | refl => exact ⟨rfl, rfl⟩
  | @erase s1 s2 site j i v t _ _ hl _ _ =>
    have := t.log_le
    rw [hl, erase_log, List.length_append] at hlog
    simp only [List.length_singleton] at hlog
    omega
  | frame _ hm hl hs ih =>
    obtain ⟨a, b⟩ := ih (by rw [← hl]; exact hlog)
    exact ⟨hm.trans a, hs.trans b⟩

theorem Trace.size {pass : Pass} {s s2 : State} (h : Trace pass s s2) :
    (allInsts s2.m).length + s2.log.length ≤ (allInsts s.m).length + s.log.length := by
  induction h with
  | refl => exact Nat.le_refl _
  | @erase s1 s2 site j i v _ hg hm hl _ ih =>
    have hj : getInst s1.m j.id = some j := hg.1
    have hlen : (allInsts s2.m).length < (allInsts s1.m).length := by
      rw [hm, erase_m, eraseFromParent, allInsts_filterInsts, allInsts_mapInsts]
      have hmem : redirect j.id v j ∈ (allInsts s1.m).map (redirect j.id v) :=
        List.mem_map_of_mem _ (getInst_some hj).1
      have := List.length_filter_lt_length_iff_exists (p := fun x : Inst => !(x.id == j.id))
        (l := (allInsts s1.m).map (redirect j.id v))
      rw [List.length_map] at this
      refine this.mpr ⟨_, hmem, ?_⟩
      rw [frame_id (redirect_frame j.id v j)]
      simp
    rw [hl, erase_log, List.length_append, List.length_singleton]
    omega
  | frame _ hm hl _ ih => rw [hm, hl]; exact ih

theorem run_size (simplify : Module → Inst → Option Val) (dominates : Nat → Nat → Bool)
    (m : Module) :
    (allInsts (runModule simplify dominates m)).length + (run simplify dominates m).log.length ≤
      (allInsts m).length := by
  have h0 := (RunDeadCodeElimination_trace simplify (State.init m)).size
  obtain ⟨t1, t2⟩ := CommonSubexpressionElimination_trace dominates
    (RunDeadCodeElimination simplify (State.init m))
  have h1 := t1.size
  have h2 := t2.size
  have e1 : (strayIncrement (csePerBlock dominates
      (RunDeadCodeElimination simplify (State.init m)))).m =
      (csePerBlock dominates (RunDeadCodeElimination simplify (State.init m))).m := rfl
  have e2 : (strayIncrement (csePerBlock dominates
      (RunDeadCodeElimination simplify (State.init m)))).log =
      (csePerBlock dominates (RunDeadCodeElimination simplify (State.init m))).log := rfl
  rw [e1, e2] at h2
  have e3 : (State.init m).log.length = 0 := rfl
  have e4 : (State.init m).m = m := rfl
  rw [e3, e4] at h0
  unfold runModule run pipeline
  omega

theorem run_fixed_of_log_nil (simplify : Module → Inst → Option Val)
    (dominates : Nat → Nat → Bool) (m : Module)
    (h : (run simplify dominates m).log = []) :
    runModule simplify dominates m = m ∧
      (run simplify dominates m).stats = ⟨0, 1, 0, 0, 0, 0⟩ := by
  have td := RunDeadCodeElimination_trace simplify (State.init m)
  obtain ⟨t1, t2⟩ := CommonSubexpressionElimination_trace dominates
    (RunDeadCodeElimination simplify (State.init m))
  have l0 := td.log_le
  have l1 := t1.log_le
  have l2 := t2.log_le
  have e2 : (strayIncrement (csePerBlock dominates
      (RunDeadCodeElimination simplify (State.init m)))).log =
      (csePerBlock dominates (RunDeadCodeElimination simplify (State.init m))).log := rfl
  have e3 : (State.init m).log.length = 0 := rfl
  have hend : (CommonSubexpressionElimination dominates
      (RunDeadCodeElimination simplify (State.init m))).log.length = 0 := by
    have : (run simplify dominates m).log.length = 0 := by rw [h]; rfl
    exact this
  rw [e2] at l2
  obtain ⟨a0, b0⟩ := td.unchanged (by omega)
  obtain ⟨a1, b1⟩ := t1.unchanged (by omega)
  obtain ⟨a2, b2⟩ := t2.unchanged (by rw [e2]; omega)
  constructor
  · show (CommonSubexpressionElimination dominates
      (RunDeadCodeElimination simplify (State.init m))).m = m
    rw [a2]
    show (csePerBlock dominates (RunDeadCodeElimination simplify (State.init m))).m = m
    rw [a1, a0]; rfl
  · show (CommonSubexpressionElimination dominates
      (RunDeadCodeElimination simplify (State.init m))).stats = _
    rw [b2]
    show Stats.mk _ _ _ _ _ _ = _
    rw [b1, b0]; rfl

/-- C8, as the code has it. A second run of the pipeline can still erase
instructions (see `C8_counterexample`), but runs only ever remove instructions:
for every module `M` there is a number `n` of runs, at most the number of
instructions of `M`, after which the module is a fixed point: one more run
erases no instruction, rewrites no operand and leaves `CSEDead`, `CSESimplify`,
`CSELdElim`, `CSEStElim` and `CSEStore2Load` at zero. -/
theorem C8_fixed_point_after_enough_runs (simplify : Module → Inst → Option Val)
    (dominates : Nat → Nat → Bool) (M : Module) :
    ∃ n, n ≤ (allInsts M).length ∧
      runModule simplify dominates ((runModule simplify dominates)^[n] M) =
        (runModule simplify dominates)^[n] M ∧
      (run simplify dominates ((runModule simplify dominates)^[n] M)).log = [] ∧
      (run simplify dominates ((runModule simplify dominates)^[n] M)).stats.CSEDead = 0 ∧
      (run simplify dominates ((runModule simplify dominates)^[n] M)).stats.CSESimplify = 0 ∧
      (run simplify dominates ((runModule simplify dominates)^[n] M)).stats.CSELdElim = 0 ∧
      (run simplify dominates ((runModule simplify dominates)^[n] M)).stats.CSEStElim = 0 ∧
      (run simplify dominates ((runModule simplify dominates)^[n] M)).stats.CSEStore2Load = 0 := by
  have key : ∀ k (M : Module), (allInsts M).length ≤ k →
      ∃ n, n ≤ k ∧ (run simplify dominates ((runModule simplify dominates)^[n] M)).log = [] := by
    intro k
    induction k with
    | zero =>
      intro M hM
      refine ⟨0, Nat.le_refl _, ?_⟩
      have := run_size simplify dominates M
      exact List.eq_nil_of_length_eq_zero (by simp only [Function.iterate_zero, id_eq]; omega)
    | succ k ih =>
      intro M hM
      by_cases hlog : (run simplify dominates M).log = []
      · exact ⟨0, Nat.zero_le _, hlog⟩
      · have hs := run_size simplify dominates M
        have hpos : 0 < (run simplify dominates M).log.length :=
          List.length_pos.mpr hlog
        obtain ⟨n, hn, hl⟩ := ih (runModule simplify dominates M) (by omega)
        exact ⟨n + 1, by omega, by rw [Function.iterate_succ_apply]; exact hl⟩
  obtain ⟨n, hn, hl⟩ := key _ M (Nat.le_refl _)
  obtain ⟨hm, hst⟩ := run_fixed_of_log_nil simplify dominates _ hl
  refine ⟨n, hn, hm, hl, ?_⟩
  rw [hst]
  exact ⟨rfl, rfl, rfl, rfl, rfl⟩

set_option maxRecDepth 100000 in
/-- Counterexample to C8: on `a = add x, y; b = add a, z; ret w` the first run
erases `b` only; the second run, on the output of the first, erases `a` and
`CSEDead` reads 1 (and `CSEElim` reads 1). -/
theorem C8_counterexample :
    runModule noSimplify domByAddress (runModule noSimplify domByAddress c8Module) ≠
        runModule noSimplify domByAddress c8Module ∧
      (run noSimplify domByAddress (runModule noSimplify domByAddress c8Module)).stats =
        ⟨1, 1, 0, 0, 0, 0⟩ := by
  decide

set_option maxRecDepth 100000 in
/-- C1 on the two-block function of the scenario: `s` is erased from `C`, the
`ret` that used `s` uses `t`, and `t` is still in `P`. -/
theorem C1_pair :
    (CommonSubexpressionElimination domByAddress (State.init c1Pair)).m =
      [⟨[[Inst.plain 3 Opcode.Mul i32 [Val.ext 10 i32, Val.ext 11 i32],
          ⟨4, Opcode.Br, voidTy, [], false, false, true, false, false, true⟩],
        [Inst.ret 6 (Val.inst 3)]],
      [(0, [1]), (1, [])]⟩] := by
  decide

theorem replayVal_append (n1 n2 : List Event) (o : Val) :
    replayVal (n1 ++ n2) o = replayVal n2 (replayVal n1 o) := by
  unfold replayVal
  rw [List.foldl_append]

theorem replayVal_ext (new : List Event) (id : Nat) (ty : Ty) :
    replayVal new (Val.ext id ty) = Val.ext id ty := by
  induction new with
  | nil => rfl
  | cons e new ih =>
    have he : e.apply (Val.ext id ty) = Val.ext id ty := by
      unfold Event.apply
      cases e.replacement with
      | none => rfl
      | some v =>
        simp only [substVal]
        rw [if_neg (by simp)]
    show replayVal new (e.apply (Val.ext id ty)) = _
    rw [he]
    exact ih

theorem Rewritten.chain {m0 m1 m2 : Module} (h1 : Rewritten m0 m1) (h2 : Rewritten m1 m2) :
    Rewritten m0 m2 := by
  obtain ⟨σ1, hσ1, hr1⟩ := h1
  obtain ⟨σ2, hσ2, hr2⟩ := h2
  refine ⟨fun o => σ2 (σ1 o), fun id ty => by
    show σ2 (σ1 (Val.ext id ty)) = Val.ext id ty
    rw [hσ1, hσ2], fun x hx => ?_⟩
  obtain ⟨x1, hx1, hf1, ho1⟩ := hr2 x hx
  obtain ⟨x0, hx0, hf0, ho0⟩ := hr1 x1 hx1
  refine ⟨x0, hx0, hf1.trans hf0, ?_⟩
  rw [ho1, ho0, List.map_map]
  rfl

theorem Summary.toRewritten {pass : Pass} {s s2 : State} {new : List Event} {g : Inst → Inst}
    (h : Summary pass s s2 new g) : Rewritten s.m s2.m := by
  refine ⟨replayVal new, replayVal_ext new, fun x hx => ?_⟩
  rw [h.m, allInsts_filterInsts, allInsts_mapInsts] at hx
  obtain ⟨x0, hx0, rfl⟩ := List.mem_map.mp (List.mem_of_mem_filter hx)
  exact ⟨x0, hx0, h.keep x0, h.ops x0⟩

/-- Every erase of a trace passed its guard in a module that holds
instructions of the start only, their operands rewritten by one substitution. -/
theorem Trace.guards_rewritten {pass : Pass} {s s2 : State} (h : Trace pass s s2) :
    ∀ new, s2.log = s.log ++ new → ∀ e ∈ new, ∃ m, Rewritten s.m m ∧
      Guard pass m e.site e.erased e.survivor e.replacement := by
  induction h with
  | refl =>
    intro new hnew e he
    have : new = [] := by
      have h2 : s.log ++ [] = s.log ++ new := by rw [List.append_nil]; exact hnew
      exact (List.append_cancel_left h2).symm
    rw [this] at he
    cases he
  | @erase s1 s2 site j i v t hg hm hl hs ih =>
    intro new hnew e he
    obtain ⟨n1, g1, hsum⟩ := t.summary
    have h2 : s.log ++ new = s.log ++ (n1 ++ [Event.mk site j i v
        (numUses (s1.erase site j i v).m j.id)]) := by
      rw [← hnew, hl, erase_log, hsum.log, List.append_assoc]
    rw [List.append_cancel_left h2] at he
    rcases List.mem_append.mp he with he | he
    · exact ih n1 hsum.log e he
    · simp only [List.mem_singleton] at he
      subst he
      exact ⟨s1.m, hsum.toRewritten, hg⟩
  | frame t hm hl hs ih =>
    intro new hnew e he
    exact ih new (by rw [← hl]; exact hnew) e he

theorem Effect.init (dominates : Nat → Nat → Bool) (s : State) :
    Effect dominates s s [] (fun x => x) := by
  refine ⟨by simp, fun _ => rfl, ?_, ?_, ?_⟩
  · intro x
    show x.operands = x.operands.map (fun o => o)
    rw [List.map_id']
  · simp only [List.map_nil, List.not_mem_nil, not_false_eq_true, decide_True]
    rw [mapInsts_id, filterInsts_true]
  · intro e he; cases he

theorem Effect.toDescends {dominates : Nat → Nat → Bool} {s s2 : State} {new : List Event}
    {g : Inst → Inst} (h : Effect dominates s s2 new g) : Descends s.m s2.m :=
  ⟨_, g, h.keep, h.m⟩

theorem Effect.asRewritten {dominates : Nat → Nat → Bool} {s s2 : State} {new : List Event}
    {g : Inst → Inst} (h : Effect dominates s s2 new g) : Rewritten s.m s2.m := by
  refine ⟨replayVal new, replayVal_ext new, fun x hx => ?_⟩
  rw [h.m, allInsts_filterInsts, allInsts_mapInsts] at hx
  obtain ⟨x0, hx0, rfl⟩ := List.mem_map.mp (List.mem_of_mem_filter hx)
  exact ⟨x0, hx0, h.keep x0, h.ops x0⟩

/-- Two stretches in a row; between them the counters may have changed. -/
theorem Effect.append {dominates : Nat → Nat → Bool} {s a a2 b : State}
    {n1 n2 : List Event} {g1 g2 : Inst → Inst}
    (h1 : Effect dominates s a n1 g1) (hm : a2.m = a.m) (hl : a2.log = a.log)
    (h2 : Summary (Pass.cse dominates) a2 b n2 g2)
    (hg2 : ∀ e ∈ n2, ∃ m, Rewritten a2.m m ∧
      Guard (Pass.cse dominates) m e.site e.erased e.survivor e.replacement) :
    Effect dominates s b (n1 ++ n2) (fun x => g2 (g1 x)) := by
  refine ⟨?_, fun x => by rw [h2.keep, h1.keep], ?_, ?_, ?_⟩
  · rw [h2.log, hl, h1.log, List.append_assoc]
  · intro x
    rw [h2.ops, h1.ops, List.map_map]
    congr 1
    funext o
    exact (replayVal_append n1 n2 o).symm
  · rw [h2.m, hm, h1.m, mapInsts_filterInsts g2 _ (fun x => by rw [frame_id (h2.keep x)]),
      filterInsts_filterInsts, mapInsts_mapInsts]
    apply filterInsts_congr
    intro x
    rw [Bool.eq_iff_iff]
    simp
  · intro e he
    rcases List.mem_append.mp he with he | he
    · exact h1.guard e he
    · obtain ⟨m, hd, hg⟩ := hg2 e he
      refine ⟨m, h1.asRewritten.chain ?_, hg⟩
      rw [← hm]; exact hd

theorem Effect.trace {dominates : Nat → Nat → Bool} {s a b : State}
    {n1 : List Event} {g1 : Inst → Inst}
    (h1 : Effect dominates s a n1 g1) (t : Trace (Pass.cse dominates) a b) :
    ∃ (n2 : List Event) (g2 : Inst → Inst),
      Effect dominates s b (n1 ++ n2) (fun x => g2 (g1 x)) := by
  obtain ⟨n2, g2, h2⟩ := t.summary
  exact ⟨n2, g2, h1.append rfl rfl h2 (t.guards_rewritten n2 h2.log)⟩

/-- The instruction at an address after a stretch: gone if an event erased it,
else the instruction that was there, with its operands rewritten. -/
theorem Effect.getInst {dominates : Nat → Nat → Bool} {s s2 : State} {new : List Event}
    {g : Inst → Inst} (h : Effect dominates s s2 new g) (id : Nat) :
    getInst s2.m id =
      if id ∈ new.map (fun e => e.erased.id) then none else (getInst s.m id).map g := by
  rw [h.m]
  unfold P2.getInst
  rw [allInsts_filterInsts, allInsts_mapInsts]
  generalize allInsts s.m = l
  induction l with
  | nil => simp
  | cons x l ih =>
    rw [List.map_cons, List.filter_cons]
    have hid : (g x).id = x.id := frame_id (h.keep x)
    by_cases hx : x.id ∈ new.map (fun e => e.erased.id)
    · rw [if_neg (by rw [hid]; simpa using hx), ih]
      by_cases hi : id ∈ new.map (fun e => e.erased.id)
      · rw [if_pos hi, if_pos hi]
      · rw [if_neg hi, if_neg hi, List.find?_cons]
        have : (x.id == id) = false := by
          simp only [beq_eq_false_iff_ne, ne_eq]
          intro e; rw [e] at hx; exact hi hx
        rw [this]
    · rw [if_pos (by rw [hid]; simpa using hx), List.find?_cons, List.find?_cons, hid]
      cases hb : (x.id == id) with
      | true =>
        have : x.id = id := by simpa using hb
        rw [if_neg (by rw [← this]; exact hx)]
        rfl
      | false => exact ih

/-! ## The worklists hold memory accesses -/

theorem getInst_erase_self (s : State) (site : Site) (j : Inst) (i : Option Inst)
    (v : Option Val) : getInst (s.erase site j i v).m j.id = none := by
  unfold getInst
  rw [List.find?_eq_none]
  intro y hy
  obtain ⟨x, _, rfl, hne⟩ := mem_erase_m hy
  rw [frame_id (redirect_frame j.id v x)]
  simpa using hne

theorem getInst_erase_frame {s : State} {site : Site} {j : Inst} {i : Option Inst}
    {v : Option Val} {id : Nat} {y : Inst} (h : getInst (s.erase site j i v).m id = some y) :
    ∃ x, getInst s.m id = some x ∧ y.frame = x.frame := by
  by_cases hid : id = j.id
  · rw [hid, getInst_erase_self] at h; cases h
  · cases v with
    | none =>
      rw [getInst_erase_none_ne _ _ _ _ _ hid] at h
      exact ⟨y, h, rfl⟩
    | some w =>
      rw [getInst_erase_ne _ _ _ _ _ _ hid] at h
      cases hx : getInst s.m id with
      | none => rw [hx] at h; cases h
      | some x =>
        rw [hx] at h
        simp only [Option.map_some', Option.some.injEq] at h
        exact ⟨x, rfl, by rw [← h]; rfl⟩

theorem MemIds.afterErase {s : State} {l : List Nat} (h : MemIds s.m l) (site : Site) (j : Inst)
    (i : Option Inst) (v : Option Val) : MemIds (s.erase site j i v).m l := by
  intro id hid y hy
  obtain ⟨x, hx, hfr⟩ := getInst_erase_frame hy
  rw [frame_opcode hfr]
  exact h id hid x hx

theorem MemIds.subset {m : Module} {l l2 : List Nat} (h : MemIds m l)
    (hsub : ∀ id ∈ l2, id ∈ l) : MemIds m l2 :=
  fun id hid => h id (hsub id hid)

theorem FL.eraseStep {base : Nat} {s s2 : State} {site : Site} {j : Inst} {i : Option Inst}
    {v : Option Val} (h : FL base s)
    (hm : s2.m = (s.erase site j i v).m) (hl : s2.log = (s.erase site j i v).log)
    (h1 : ∀ id ∈ s2.load_worklist, id ∈ s.load_worklist)
    (h2 : ∀ id ∈ s2.store_worklist, id ∈ s.store_worklist)
    (h3 : ∀ id ∈ s2.store_load_worklist, id ∈ s.store_load_worklist)
    (hop : (site = Site.loadFlush ∨ site = Site.storeFlush ∨ site = Site.storeLoadFlush) →
      memOp j.opcode = true) : FL base s2 := by
  obtain ⟨hb, ⟨w1, w2, w3⟩, hlog⟩ := h
  refine ⟨by rw [hl, erase_log, List.length_append]; omega, ⟨?_, ?_, ?_⟩, ?_⟩
  · rw [hm]; exact (w1.afterErase site j i v).subset h1
  · rw [hm]; exact (w2.afterErase site j i v).subset h2
  · rw [hm]; exact (w3.afterErase site j i v).subset h3
  · intro e he
    rw [hl, erase_log, List.drop_append_of_le_length hb] at he
    rcases List.mem_append.mp he with he | he
    · exact hlog e he
    · simp only [List.mem_singleton] at he
      subst he
      exact hop

theorem FL.frame {base : Nat} {s s2 : State} (h : FL base s)
    (hm : s2.m = s.m) (hl : s2.log = s.log)
    (h1 : ∀ id ∈ s2.load_worklist, id ∈ s.load_worklist)
    (h2 : ∀ id ∈ s2.store_worklist, id ∈ s.store_worklist)
    (h3 : ∀ id ∈ s2.store_load_worklist, id ∈ s.store_load_worklist) : FL base s2 := by
  obtain ⟨hb, ⟨w1, w2, w3⟩, hlog⟩ := h
  exact ⟨by rw [hl]; exact hb, ⟨by rw [hm]; exact w1.subset h1, by rw [hm]; exact w2.subset h2,
    by rw [hm]; exact w3.subset h3⟩, by rw [hl]; exact hlog⟩

theorem foldl_inv {α : Type} (I : State → Prop) (f : State → α → State) (l : List α)
    (hf : ∀ s a, a ∈ l → I s → I (f s a)) (s : State) (h : I s) : I (l.foldl f s) := by
  induction l generalizing s with
  | nil => exact h
  | cons a l ih =>
    exact ih (fun s b hb => hf s b (List.mem_cons_of_mem a hb)) _
      (hf s a (List.mem_cons_self a l) h)

theorem mem_setErase {a id : Nat} {l : List Nat} (h : id ∈ setErase a l) : id ∈ l :=
  List.mem_of_mem_filter h

theorem mem_setInsert {a id : Nat} {l : List Nat} (h : id ∈ setInsert a l) :
    id = a ∨ id ∈ l := by
  induction l with
  | nil => simpa [setInsert] using h
  | cons b l ih =>
    unfold setInsert at h
    split_ifs at h with h1 h2
    · rcases List.mem_cons.mp h with h | h
      · exact Or.inl h
      · exact Or.inr h
    · exact Or.inr h
    · rcases List.mem_cons.mp h with h | h
      · exact Or.inr (h ▸ List.mem_cons_self b l)
      · rcases ih h with h | h
        · exact Or.inl h
        · exact Or.inr (List.mem_cons_of_mem b h)

theorem mem_fromMember {p id : Nat} {l : List Nat} (h : id ∈ fromMember p l) : id ∈ l :=
  (List.dropWhile_sublist _).subset h

theorem scanStep_fl (dominates : Nat → Nat → Bool) (site : Site)
    (hsite : site = Site.blockScan ∨ site = Site.domTreeScan) (base iid : Nat) (s : State)
    (jid : Nat) (h : FL base s) : FL base (scanStep dominates site iid s jid) := by
  unfold scanStep
  cases getInst s.m iid with
  | none => exact h
  | some i =>
    cases getInst s.m jid with
    | none => exact h
    | some j =>
      simp only
      split_ifs
      · refine @FL.eraseStep base s _ site j (some i) (some (Val.inst iid)) h
          rfl rfl (fun _ hx => hx) (fun _ hx => hx) (fun _ hx => hx) ?_
        intro hs
        rcases hsite with e | e <;> rw [e] at hs <;> simp at hs
      all_goals exact h

theorem loadInner_fl (dominates : Nat → Nat → Bool) (base iid : Nat) (L : List Nat) (s : State)
    (jid : Nat) (hj : jid ∈ L) (h : FL base s ∧ MemIds s.m L) :
    FL base (loadInner dominates iid s jid) ∧ MemIds (loadInner dominates iid s jid).m L := by
  unfold loadInner
  cases getInst s.m iid with
  | none => exact h
  | some i =>
    cases hjj : getInst s.m jid with
    | none => exact h
    | some j =>
      simp only
      split_ifs
      · exact ⟨@FL.eraseStep base s _ Site.loadFlush j (some i) (some (Val.inst iid)) h.1 rfl rfl
          (fun _ hx => mem_setErase hx) (fun _ hx => hx) (fun _ hx => hx)
          (fun _ => h.2 jid hj j hjj),
          h.2.afterErase Site.loadFlush j (some i) (some (Val.inst iid))⟩
      all_goals exact h

theorem process_load_worklist_fl (dominates : Nat → Nat → Bool) (base : Nat) (s : State)
    (h : FL base s) : FL base (process_load_worklist dominates s) := by
  unfold process_load_worklist
  have h1 : FL base (s.load_worklist.foldl (loadOuter dominates) s) := by
    refine foldl_inv (FL base) _ _ (fun s p _ hs => ?_) s h
    unfold loadOuter
    split_ifs
    · exact (foldl_inv (fun st => FL base st ∧ MemIds st.m s.load_worklist) _ _
        (fun st jid hjid hst => loadInner_fl dominates base p s.load_worklist st jid
          (mem_fromMember hjid) hst) s ⟨hs, hs.2.1.1⟩).1
    · exact hs
  exact h1.frame rfl rfl (fun _ hx => by cases hx) (fun _ hx => hx) (fun _ hx => hx)

theorem storeInner_fl (dominates : Nat → Nat → Bool) (base iid : Nat) (L : List Nat) (s : State)
    (jid : Nat) (hj : jid ∈ L) (h : FL base s ∧ MemIds s.m L) :
    FL base (storeInner dominates iid s jid) ∧ MemIds (storeInner dominates iid s jid).m L := by
  unfold storeInner
  cases getInst s.m iid with
  | none => exact h
  | some i =>
    cases hjj : getInst s.m jid with
    | none => exact h
    | some j =>
      simp only
      split_ifs
      · exact ⟨@FL.eraseStep base s _ Site.storeFlush j (some i) (some (Val.inst iid)) h.1 rfl rfl
          (fun _ hx => hx) (fun _ hx => mem_setErase hx) (fun _ hx => hx)
          (fun _ => h.2 jid hj j hjj),
          h.2.afterErase Site.storeFlush j (some i) (some (Val.inst iid))⟩
      all_goals exact h

theorem process_store_worklist_fl (dominates : Nat → Nat → Bool) (base : Nat) (s : State)
    (h : FL base s) : FL base (process_store_worklist dominates s) := by
  unfold process_store_worklist
  have h1 : FL base (s.store_worklist.reverse.foldl (storeOuter dominates) s) := by
    refine foldl_inv (FL base) _ _ (fun s p _ hs => ?_) s h
    unfold storeOuter
    split_ifs
    · exact (foldl_inv (fun st => FL base st ∧ MemIds st.m s.store_worklist) _ _
        (fun st jid hjid hst => storeInner_fl dominates base p s.store_worklist st jid
          (List.mem_reverse.mp (mem_fromMember hjid)) hst) s ⟨hs, hs.2.1.2.1⟩).1
    · exact hs
  exact h1.frame rfl rfl (fun _ hx => hx) (fun _ hx => by cases hx) (fun _ hx => hx)

theorem storeLoadInner_fl (dominates : Nat → Nat → Bool) (base iid : Nat) (L : List Nat)
    (l : List Nat) (hl : ∀ jid ∈ l, jid ∈ L) (s : State) (h : FL base s ∧ MemIds s.m L) :
    FL base (storeLoadInner dominates iid l s) := by
  induction l generalizing s with
  | nil => exact h.1
  | cons jid rest ih =>
    have hrest : ∀ k ∈ rest, k ∈ L := fun k hk => hl k (List.mem_cons_of_mem jid hk)
    unfold storeLoadInner
    cases getInst s.m iid with
    | none => exact ih hrest s h
    | some i =>
      cases hjj : getInst s.m jid with
      | none => exact ih hrest s h
      | some j =>
        simp only
        split_ifs
        · exact h.1
        · refine ih hrest _ ⟨@FL.eraseStep base s _ Site.storeLoadFlush j (some i) (i.getOperand 0)
            h.1 rfl rfl (fun _ hx => hx) (fun _ hx => hx) (fun _ hx => mem_setErase hx)
            (fun _ => h.2 jid (hl jid (List.mem_cons_self jid rest)) j hjj),
            h.2.afterErase Site.storeLoadFlush j (some i) (i.getOperand 0)⟩
        all_goals exact ih hrest s h

theorem process_store_load_worklist_fl (dominates : Nat → Nat → Bool) (base : Nat) (s : State)
    (h : FL base s) : FL base (process_store_load_worklist dominates s) := by
  unfold process_store_load_worklist
  have h1 : FL base (s.store_load_worklist.foldl (storeLoadOuter dominates) s) := by
    refine foldl_inv (FL base) _ _ (fun s p _ hs => ?_) s h
    unfold storeLoadOuter
    split_ifs
    · cases getInst s.m p with
      | none => exact hs
      | some i =>
        simp only
        split_ifs
        · exact storeLoadInner_fl dominates base p s.store_load_worklist _
            (fun _ hx => mem_fromMember hx) s ⟨hs, hs.2.1.2.2⟩
        · exact hs
    · exact hs
  exact h1.frame rfl rfl (fun _ hx => hx) (fun _ hx => hx) (fun _ hx => by cases hx)

theorem FL.insert_load {base : Nat} {s : State} {iid : Nat} {i : Inst} (h : FL base s)
    (hi : getInst s.m iid = some i) (hop : memOp i.opcode = true) :
    FL base { s with load_worklist := setInsert iid s.load_worklist } := by
  obtain ⟨hb, ⟨w1, w2, w3⟩, hlog⟩ := h
  refine ⟨hb, ⟨?_, w2, w3⟩, hlog⟩
  intro id hid x hx
  rcases mem_setInsert hid with e | e
  · subst e
    have : getInst s.m id = some x := hx
    rw [hi] at this
    cases this
    exact hop
  · exact w1 id e x hx

theorem FL.insert_store {base : Nat} {s : State} {iid : Nat} {i : Inst} (h : FL base s)
    (hi : getInst s.m iid = some i) (hop : memOp i.opcode = true) :
    FL base { s with store_worklist := setInsert iid s.store_worklist } := by
  obtain ⟨hb, ⟨w1, w2, w3⟩, hlog⟩ := h
  refine ⟨hb, ⟨w1, ?_, w3⟩, hlog⟩
  intro id hid x hx
  rcases mem_setInsert hid with e | e
  · subst e
    have : getInst s.m id = some x := hx
    rw [hi] at this
    cases this
    exact hop
  · exact w2 id e x hx

theorem FL.insert_store_load {base : Nat} {s : State} {iid : Nat} {i : Inst} (h : FL base s)
    (hi : getInst s.m iid = some i) (hop : memOp i.opcode = true) :
    FL base { s with store_load_worklist := setInsert iid s.store_load_worklist } := by
  obtain ⟨hb, ⟨w1, w2, w3⟩, hlog⟩ := h
  refine ⟨hb, ⟨w1, w2, ?_⟩, hlog⟩
  intro id hid x hx
  rcases mem_setInsert hid with e | e
  · subst e
    have : getInst s.m id = some x := hx
    rw [hi] at this
    cases this
    exact hop
  · exact w3 id e x hx

theorem blockStep_fl (dominates : Nat → Nat → Bool) (base fi bi : Nat) (s : State) (iid : Nat)
    (h : FL base s) : FL base (blockStep dominates fi bi s iid) := by
  unfold blockStep
  cases hi : getInst s.m iid with
  | none => exact h
  | some i =>
    simp only
    split_ifs with h1 h2 h3
    · exact process_store_worklist_fl dominates base _ (h.insert_load hi (by rw [h1]; rfl))
    · exact process_load_worklist_fl dominates base _ (h.insert_store hi (by rw [h2]; rfl))
    · exact foldl_inv (FL base) _ _
        (fun st jid _ hst => scanStep_fl dominates Site.blockScan (Or.inl rfl) base iid st jid hst)
        s h
    · exact h

theorem csePerBlock_fl (dominates : Nat → Nat → Bool) (base : Nat) (s : State)
    (h : FL base s) : FL base (csePerBlock dominates s) := by
  unfold csePerBlock
  refine foldl_inv (FL base) _ _ (fun s fi _ hs => ?_) s h
  unfold cseFunction
  cases s.m.get? fi with
  | none => exact hs
  | some f =>
    refine foldl_inv (FL base) _ _ (fun s bi _ hs => ?_) s hs
    unfold cseBlock
    split_ifs
    · exact hs
    · exact process_store_worklist_fl dominates base _
        (process_load_worklist_fl dominates base _
          (foldl_inv (FL base) _ _ (fun st iid _ hst => blockStep_fl dominates base fi bi st iid hst)
            s hs))

theorem childScan_fl (dominates : Nat → Nat → Bool) (base fi iid : Nat) (s : State) (ci : Nat)
    (h : FL base s) : FL base (childScan dominates fi iid s ci) := by
  unfold childScan
  exact foldl_inv (FL base) _ _
    (fun st jid _ hst => scanStep_fl dominates Site.domTreeScan (Or.inr rfl) base iid st jid hst)
    s h

theorem nodeStep_fl (dominates : Nat → Nat → Bool) (base fi : Nat) (children : List Nat)
    (s : State) (iid : Nat) (h : FL base s) :
    FL base (nodeStep dominates fi children s iid) := by
  unfold nodeStep
  cases hi : getInst s.m iid with
  | none => exact h
  | some i =>
    simp only
    split_ifs with h1 h3
    · refine h.insert_store_load hi ?_
      rcases h1 with e | e <;> rw [e] <;> rfl
    · exact foldl_inv (FL base) _ _
        (fun st ci _ hst => childScan_fl dominates base fi iid st ci hst) s h
    · exact h

theorem cseNode_fl (dominates : Nat → Nat → Bool) (base fi : Nat) (s : State)
    (node : Nat × List Nat) (h : FL base s) : FL base (cseNode dominates fi s node) := by
  unfold cseNode
  split_ifs
  · exact h
  · exact process_store_load_worklist_fl dominates base _
      (foldl_inv (FL base) _ _
        (fun st iid _ hst => nodeStep_fl dominates base fi node.2 st iid hst) s h)

theorem cseDomFunction_fl (dominates : Nat → Nat → Bool) (base : Nat) (s : State) (fi : Nat)
    (h : FL base s) : FL base (cseDomFunction dominates s fi) := by
  unfold cseDomFunction
  cases s.m.get? fi with
  | none => exact h
  | some f =>
    simp only
    split_ifs
    · exact h
    · exact foldl_inv (FL base) _ _
        (fun st node _ hst => cseNode_fl dominates base fi st node hst) s h

/-! ## Cross-block merging -/

theorem getInst_of_mem {m : Module} (hn : ((allInsts m).map Inst.id).Nodup) {x : Inst}
    (hx : x ∈ allInsts m) : getInst m x.id = some x := by
  cases h : getInst m x.id with
  | none =>
    unfold getInst at h
    rw [List.find?_eq_none] at h
    exact absurd (by simp) (h x hx)
  | some y =>
    obtain ⟨hy, hid⟩ := getInst_some h
    rw [eq_of_nodup_ids hn hy hx hid]

theorem Reached.next {dominates : Nat → Nat → Bool} {s0 st st2 : State}
    (h : Reached dominates s0 st) (t : Trace (Pass.cse dominates) st st2)
    (hfl : FL s0.log.length st2) : Reached dominates s0 st2 := by
  obtain ⟨⟨new, g, he⟩, _⟩ := h
  obtain ⟨n2, g2, h2⟩ := he.trace t
  exact ⟨⟨_, _, h2⟩, hfl⟩

theorem Merged.later {dominates : Nat → Nat → Bool} {s0 st st2 : State} {sid : Nat}
    (h : Merged s0 st sid) (hr : Reached dominates s0 st)
    (t : Trace (Pass.cse dominates) st st2) : Merged s0 st2 sid := by
  obtain ⟨e, he, hid⟩ := h
  obtain ⟨new, g, hsum⟩ := t.summary
  refine ⟨e, ?_, hid⟩
  rw [hsum.log, List.drop_append_of_le_length hr.2.1]
  exact List.mem_append_left _ he

theorem Settled.persists {dominates : Nat → Nat → Bool} {s0 st st2 : State} {sid tid : Nat}
    (h : Settled s0 st sid tid) (hr : Reached dominates s0 st)
    (t : Trace (Pass.cse dominates) st st2) : Settled s0 st2 sid tid :=
  h.imp (fun x => x.later hr t) (fun x => x.later hr t)

theorem Merged.iff_mem {dominates : Nat → Nat → Bool} {s0 st : State} {new : List Event}
    {g : Inst → Inst} (he : Effect dominates s0 st new g) (sid : Nat) :
    Merged s0 st sid ↔ sid ∈ new.map (fun e => e.erased.id) := by
  unfold Merged
  rw [he.log, List.drop_left]
  simp only [List.mem_map]

/-- Reaching an element of the list a fold runs over: if the step at `a`
establishes `Q` and every step keeps `R` and `Q`, the fold establishes `Q`. -/
theorem foldl_reach {α : Type} (R Q : State → Prop) (f : State → α → State) (a : α)
    (hR : ∀ st b, R st → R (f st b)) (hQ : ∀ st b, R st → Q st → Q (f st b))
    (hstep : ∀ st, R st → Q (f st a)) (l : List α) (ha : a ∈ l) (st : State) (h : R st) :
    Q (l.foldl f st) := by
  induction l generalizing st with
  | nil => cases ha
  | cons b l ih =>
    rw [List.foldl_cons]
    rcases List.mem_cons.mp ha with e | e
    · subst e
      have hq : Q (f st a) := hstep st h
      have hr : R (f st a) := hR st a h
      clear ih ha
      generalize f st a = st2 at hq hr
      induction l generalizing st2 with
      | nil => exact hq
      | cons c l ih2 => exact ih2 _ (hQ st2 c hr hq) (hR st2 c hr)
    · exact ih e _ (hR st b h)

theorem cse_check_opcode_frame {x y : Inst} (h : x.frame = y.frame) :
    cse_check_opcode x = cse_check_opcode y := by
  have hx : cse_check_opcode x = cse_check_opcode x.frame := rfl
  have hy : cse_check_opcode y = cse_check_opcode y.frame := rfl
  rw [hx, hy, h]

theorem frame_ty {x y : Inst} (h : x.frame = y.frame) : x.ty = y.ty := by
  show x.frame.ty = y.frame.ty
  rw [h]

theorem same_of_operands {x y : Inst} (hid : x.id ≠ y.id) (hop : x.opcode = y.opcode)
    (hty : x.ty.typeID = y.ty.typeID) (hops : x.operands = y.operands) :
    sameShape x y = true ∧ areOperandsSame x y = true := by
  constructor
  · unfold sameShape
    simp [hid, hop, hty, hops]
  · unfold areOperandsSame Inst.getOperand
    simp [hops]

/-- What a reached state of the scenario of C1 looks like, unless `t` was
erased: `t` is in its block, passes the classifier and answers to its address;
`s`, unless erased, is in its block, answers to its address and still has the
shape and the operands of `t`. -/
theorem CrossBlock.at_state {dominates : Nat → Nat → Bool} {s0 st : State} {fi bp bc : Nat}
    {children : List Nat} {t s : Inst} (hc : CrossBlock dominates s0 fi bp bc children t s)
    (hr : Reached dominates s0 st) :
    Merged s0 st t.id ∨
    ∃ t2, getInst st.m t.id = some t2 ∧ t2 ∈ getBlock st.m fi bp ∧ t2.frame = t.frame ∧
      cse_check_opcode t2 = true ∧
      (Merged s0 st s.id ∨
        ∃ s2, getInst st.m s.id = some s2 ∧ s2 ∈ getBlock st.m fi bc ∧ s2.id = s.id ∧
          sameShape t2 s2 = true ∧ areOperandsSame t2 s2 = true) := by
  obtain ⟨⟨new, g, he⟩, hfl⟩ := hr
  by_cases htk : t.id ∈ new.map (fun e => e.erased.id)
  · exact Or.inl ((Merged.iff_mem he t.id).mpr htk)
  right
  have hblock : ∀ (x : Inst) (b : Nat), x ∈ getBlock s0.m fi b →
      x.id ∉ new.map (fun e => e.erased.id) → g x ∈ getBlock st.m fi b := by
    intro x b hx hn
    rw [he.m, getBlock_filter_map]
    refine List.mem_filter.mpr ⟨List.mem_map_of_mem g hx, ?_⟩
    rw [frame_id (he.keep x)]
    simpa using hn
  have hget : ∀ (x : Inst), x ∈ allInsts s0.m → x.id ∉ new.map (fun e => e.erased.id) →
      getInst st.m x.id = some (g x) := by
    intro x hx hn
    rw [he.getInst, if_neg hn, getInst_of_mem hc.ids hx]
    rfl
  refine ⟨g t, hget t (mem_allInsts_of_getBlock hc.t_mem) htk, hblock t bp hc.t_mem htk,
    he.keep t, by rw [cse_check_opcode_frame (he.keep t)]; exact hc.check, ?_⟩
  by_cases hs : s.id ∈ new.map (fun e => e.erased.id)
  · exact Or.inl ((Merged.iff_mem he s.id).mpr hs)
  · refine Or.inr ⟨g s, hget s (mem_allInsts_of_getBlock hc.s_mem) hs,
      hblock s bc hc.s_mem hs, frame_id (he.keep s), ?_⟩
    refine same_of_operands ?_ ?_ ?_ ?_
    · rw [frame_id (he.keep t), frame_id (he.keep s)]; exact hc.ne
    · rw [frame_opcode (he.keep t), frame_opcode (he.keep s)]; exact hc.opcode.symm
    · rw [frame_ty (he.keep t), frame_ty (he.keep s)]; exact hc.typeID.symm
    · rw [he.ops, he.ops, hc.operands]

theorem cseNode_trace (dominates : Nat → Nat → Bool) (fi : Nat) (s : State)
    (node : Nat × List Nat) : Trace (Pass.cse dominates) s (cseNode dominates fi s node) := by
  unfold cseNode
  split_ifs
  · exact Trace.refl s
  · exact (Trace.foldl _ (nodeStep_trace dominates fi node.2) _ s).trans
      (process_store_load_worklist_trace dominates _)

/-- The scan step with `i` at `t` keeps a reached state reached and a settled
pair settled. -/
theorem CrossBlock.scanStep_keeps {dominates : Nat → Nat → Bool} {s0 : State} {fi bp bc : Nat}
    {children : List Nat} {t s : Inst} (hc : CrossBlock dominates s0 fi bp bc children t s)
    (st : State) (jid : Nat) (hr : Reached dominates s0 st) :
    Reached dominates s0 (scanStep dominates Site.domTreeScan t.id st jid) ∧
      (Settled s0 st s.id t.id →
        Settled s0 (scanStep dominates Site.domTreeScan t.id st jid) s.id t.id) := by
  rcases hc.at_state hr with hmt | ⟨t2, ht2, _, _, hchk, _⟩
  · have hnone : getInst st.m t.id = none := by
      obtain ⟨⟨new, g, he⟩, _⟩ := hr
      rw [he.getInst, if_pos ((Merged.iff_mem he t.id).mp hmt)]
    have hsame : scanStep dominates Site.domTreeScan t.id st jid = st := by
      unfold scanStep
      rw [hnone]
    rw [hsame]
    exact ⟨hr, id⟩
  · have tr := (scanStep_trace dominates Site.domTreeScan (Or.inr rfl) t.id st jid
      ⟨t2, ht2, hchk⟩).1
    exact ⟨hr.next tr (scanStep_fl dominates Site.domTreeScan (Or.inr rfl) _ t.id st jid hr.2),
      fun hm => hm.persists hr tr⟩

/-- The scan step with `i` at `t` and `j` at `s` erases `s`, unless `s` or `t`
was erased before. -/
theorem CrossBlock.scanStep_merges {dominates : Nat → Nat → Bool} {s0 : State} {fi bp bc : Nat}
    {children : List Nat} {t s : Inst} (hc : CrossBlock dominates s0 fi bp bc children t s)
    (st : State) (hr : Reached dominates s0 st) :
    Settled s0 (scanStep dominates Site.domTreeScan t.id st s.id) s.id t.id := by
  rcases hc.at_state hr with hmt | ⟨t2, ht2, _, _, _, hcase⟩
  · exact (hc.scanStep_keeps st s.id hr).2 (Or.inr hmt)
  rcases hcase with hm | ⟨s2, hs2, _, hid, hshape, hsame⟩
  · exact (hc.scanStep_keeps st s.id hr).2 (Or.inl hm)
  · left
    unfold scanStep
    rw [ht2, hs2]
    simp only
    rw [if_pos hshape, if_pos hsame, if_pos hc.dom]
    refine ⟨Event.mk Site.domTreeScan s2 (some t2) (some (Val.inst t.id))
      (numUses (st.erase Site.domTreeScan s2 (some t2) (some (Val.inst t.id))).m s2.id), ?_, hid⟩
    show _ ∈ List.drop _ (st.erase Site.domTreeScan s2 (some t2) (some (Val.inst t.id))).log
    rw [erase_log, List.drop_append_of_le_length hr.2.1]
    exact List.mem_append_right _ (List.mem_singleton_self _)

theorem CrossBlock.childScan_keeps {dominates : Nat → Nat → Bool} {s0 : State} {fi bp bc : Nat}
    {children : List Nat} {t s : Inst} (hc : CrossBlock dominates s0 fi bp bc children t s)
    (st : State) (ci : Nat) (hr : Reached dominates s0 st) :
    Reached dominates s0 (childScan dominates fi t.id st ci) ∧
      (Settled s0 st s.id t.id → Settled s0 (childScan dominates fi t.id st ci) s.id t.id) := by
  unfold childScan
  constructor
  · exact foldl_inv (Reached dominates s0) _ _
      (fun st2 jid _ h2 => (hc.scanStep_keeps st2 jid h2).1) st hr
  · intro hm
    exact (foldl_inv (fun st2 => Reached dominates s0 st2 ∧ Settled s0 st2 s.id t.id) _ _
      (fun st2 jid _ h2 => ⟨(hc.scanStep_keeps st2 jid h2.1).1,
        (hc.scanStep_keeps st2 jid h2.1).2 h2.2⟩) st ⟨hr, hm⟩).2

theorem CrossBlock.childScan_merges {dominates : Nat → Nat → Bool} {s0 : State} {fi bp bc : Nat}
    {children : List Nat} {t s : Inst} (hc : CrossBlock dominates s0 fi bp bc children t s)
    (st : State) (hr : Reached dominates s0 st) :
    Settled s0 (childScan dominates fi t.id st bc) s.id t.id := by
  rcases hc.at_state hr with hmt | ⟨t2, _, _, _, _, hcase⟩
  · exact (hc.childScan_keeps st bc hr).2 (Or.inr hmt)
  rcases hcase with hm | ⟨s2, _, hs2, hid, _, _⟩
  · exact (hc.childScan_keeps st bc hr).2 (Or.inl hm)
  · unfold childScan
    refine foldl_reach (Reached dominates s0) (fun st2 => Settled s0 st2 s.id t.id) _ s.id
      (fun st2 jid h2 => (hc.scanStep_keeps st2 jid h2).1)
      (fun st2 jid h2 hm => (hc.scanStep_keeps st2 jid h2).2 hm)
      (fun st2 h2 => hc.scanStep_merges st2 h2) _ ?_ st hr
    unfold blockIds
    rw [← hid]
    exact List.mem_map_of_mem Inst.id hs2

theorem CrossBlock.nodeStep_keeps {dominates : Nat → Nat → Bool} {s0 : State} {fi bp bc : Nat}
    {children : List Nat} {t s : Inst} (_hc : CrossBlock dominates s0 fi bp bc children t s)
    (cs : List Nat) (st : State) (iid : Nat) (hr : Reached dominates s0 st) :
    Reached dominates s0 (nodeStep dominates fi cs st iid) ∧
      (Settled s0 st s.id t.id → Settled s0 (nodeStep dominates fi cs st iid) s.id t.id) :=
  ⟨hr.next (nodeStep_trace dominates fi cs st iid) (nodeStep_fl dominates _ fi cs st iid hr.2),
    fun hm => hm.persists hr (nodeStep_trace dominates fi cs st iid)⟩

theorem CrossBlock.nodeStep_merges {dominates : Nat → Nat → Bool} {s0 : State} {fi bp bc : Nat}
    {children : List Nat} {t s : Inst} (hc : CrossBlock dominates s0 fi bp bc children t s)
    (st : State) (hr : Reached dominates s0 st) :
    Settled s0 (nodeStep dominates fi children st t.id) s.id t.id := by
  rcases hc.at_state hr with hmt | ⟨t2, ht2, _, hfr, hchk, _⟩
  · exact (hc.nodeStep_keeps children st t.id hr).2 (Or.inr hmt)
  have hcse : cseOpcode t2.opcode = true := cse_check_opcode_cseOpcode hchk
  have hnl : ¬ (t2.opcode = Opcode.Load ∨ t2.opcode = Opcode.Store) := by
    rintro (h | h) <;> rw [h] at hcse <;> simp [cseOpcode] at hcse
  unfold nodeStep
  rw [ht2]
  simp only
  rw [if_neg hnl, if_pos hchk]
  exact foldl_reach (Reached dominates s0) (fun st2 => Settled s0 st2 s.id t.id) _ bc
    (fun st2 ci h2 => (hc.childScan_keeps st2 ci h2).1)
    (fun st2 ci h2 hm => (hc.childScan_keeps st2 ci h2).2 hm)
    (fun st2 h2 => hc.childScan_merges st2 h2) _ hc.child st hr

theorem CrossBlock.cseNode_keeps {dominates : Nat → Nat → Bool} {s0 : State} {fi bp bc : Nat}
    {children : List Nat} {t s : Inst} (_hc : CrossBlock dominates s0 fi bp bc children t s)
    (st : State) (node : Nat × List Nat) (hr : Reached dominates s0 st) :
    Reached dominates s0 (cseNode dominates fi st node) ∧
      (Settled s0 st s.id t.id → Settled s0 (cseNode dominates fi st node) s.id t.id) :=
  ⟨hr.next (cseNode_trace dominates fi st node) (cseNode_fl dominates _ fi st node hr.2),
    fun hm => hm.persists hr (cseNode_trace dominates fi st node)⟩

theorem CrossBlock.cseNode_merges {dominates : Nat → Nat → Bool} {s0 : State} {fi bp bc : Nat}
    {children : List Nat} {t s : Inst} (hc : CrossBlock dominates s0 fi bp bc children t s)
    (st : State) (hr : Reached dominates s0 st) :
    Settled s0 (cseNode dominates fi st (bp, children)) s.id t.id := by
  rcases hc.at_state hr with hmt | ⟨t2, _, ht2, hfr, _, _⟩
  · exact (hc.cseNode_keeps st (bp, children) hr).2 (Or.inr hmt)
  unfold cseNode
  have hne : (getBlock st.m fi bp).isEmpty = false := by
    cases hb : getBlock st.m fi bp with
    | nil => rw [hb] at ht2; cases ht2
    | cons _ _ => rfl
  simp only [hne, Bool.false_eq_true, if_false]
  have h1 : Reached dominates s0 ((blockIds st.m fi bp).foldl
      (nodeStep dominates fi children) st) ∧
      Settled s0 ((blockIds st.m fi bp).foldl (nodeStep dominates fi children) st)
        s.id t.id := by
    constructor
    · exact foldl_inv (Reached dominates s0) _ _
        (fun st2 iid _ h2 => (hc.nodeStep_keeps children st2 iid h2).1) st hr
    · refine foldl_reach (Reached dominates s0) (fun st2 => Settled s0 st2 s.id t.id) _ t.id
        (fun st2 iid h2 => (hc.nodeStep_keeps children st2 iid h2).1)
        (fun st2 iid h2 hm => (hc.nodeStep_keeps children st2 iid h2).2 hm)
        (fun st2 h2 => hc.nodeStep_merges st2 h2) _ ?_ st hr
      unfold blockIds
      rw [← frame_id hfr]
      exact List.mem_map_of_mem Inst.id ht2
  exact h1.2.persists h1.1 (process_store_load_worklist_trace dominates _)

theorem Descends.domTree {m0 m : Module} (h : Descends m0 m) {fi : Nat} {f0 : Function}
    (h0 : m0.get? fi = some f0) : ∃ f, m.get? fi = some f ∧ f.domTree = f0.domTree := by
  obtain ⟨ids, g, _, rfl⟩ := h
  unfold filterInsts mapInsts
  simp only [List.get?_eq_getElem?, List.getElem?_map] at h0 ⊢
  rw [h0]
  exact ⟨_, rfl, rfl⟩

theorem getBlock_get? {m : Module} {fi bi : Nat} {x : Inst} (h : x ∈ getBlock m fi bi) :
    ∃ f, m.get? fi = some f ∧ f.blocks.isEmpty = false := by
  unfold getBlock at h
  cases hf : m.get? fi with
  | none => rw [hf] at h; cases h
  | some f =>
    refine ⟨f, rfl, ?_⟩
    rw [hf] at h
    simp only at h
    cases hb : f.blocks with
    | nil => rw [hb] at h; simp at h
    | cons _ _ => rfl

theorem CrossBlock.cseDomFunction_keeps {dominates : Nat → Nat → Bool} {s0 : State}
    {fi bp bc : Nat} {children : List Nat} {t s : Inst}
    (_hc : CrossBlock dominates s0 fi bp bc children t s)
    (st : State) (k : Nat) (hr : Reached dominates s0 st) :
    Reached dominates s0 (cseDomFunction dominates st k) ∧
      (Settled s0 st s.id t.id → Settled s0 (cseDomFunction dominates st k) s.id t.id) :=
  ⟨hr.next (cseDomFunction_trace dominates st k) (cseDomFunction_fl dominates _ st k hr.2),
    fun hm => hm.persists hr (cseDomFunction_trace dominates st k)⟩

theorem CrossBlock.cseDomFunction_merges {dominates : Nat → Nat → Bool} {s0 : State}
    {fi bp bc : Nat} {children : List Nat} {t s : Inst}
    (hc : CrossBlock dominates s0 fi bp bc children t s)
    (st : State) (hr : Reached dominates s0 st) :
    Settled s0 (cseDomFunction dominates st fi) s.id t.id := by
  rcases hc.at_state hr with hmt | ⟨t2, _, ht2, _, _, _⟩
  · exact (hc.cseDomFunction_keeps st fi hr).2 (Or.inr hmt)
  obtain ⟨f0, hf0, hnode⟩ := hc.node
  obtain ⟨⟨new, g, he⟩, hfl⟩ := hr
  obtain ⟨f, hf, hdt⟩ := he.toDescends.domTree hf0
  obtain ⟨f2, hf2, hne⟩ := getBlock_get? ht2
  rw [hf] at hf2
  cases hf2
  unfold cseDomFunction
  rw [hf]
  simp only [hne, Bool.false_eq_true, if_false]
  have hr : Reached dominates s0 st := ⟨⟨new, g, he⟩, hfl⟩
  refine foldl_reach (Reached dominates s0) (fun st2 => Settled s0 st2 s.id t.id) _
    (bp, children)
    (fun st2 node h2 => (hc.cseNode_keeps st2 node h2).1)
    (fun st2 node h2 hm => (hc.cseNode_keeps st2 node h2).2 hm)
    (fun st2 h2 => hc.cseNode_merges st2 h2) _ ?_ st hr
  rw [hdt]; exact hnode

/-- In the scenario of C1, from empty worklists, the pass ends in a reached
state in which `s` or `t` has been erased. -/
theorem CrossBlock.pass {dominates : Nat → Nat → Bool} {s0 : State} {fi bp bc : Nat}
    {children : List Nat} {t s : Inst} (hc : CrossBlock dominates s0 fi bp bc children t s)
    (hwl : s0.load_worklist = [] ∧ s0.store_worklist = [] ∧ s0.store_load_worklist = []) :
    Reached dominates s0 (CommonSubexpressionElimination dominates s0) ∧
      Settled s0 (CommonSubexpressionElimination dominates s0) s.id t.id := by
  have hempty : MemIds s0.m [] := fun id hid => by cases hid
  have r0 : Reached dominates s0 s0 := by
    refine ⟨⟨[], _, Effect.init dominates s0⟩, Nat.le_refl _, ?_, ?_⟩
    · rw [hwl.1, hwl.2.1, hwl.2.2]; exact ⟨hempty, hempty, hempty⟩
    · rw [List.drop_length]; intro e he; cases he
  obtain ⟨t1, _⟩ := CommonSubexpressionElimination_trace dominates s0
  have r1 : Reached dominates s0 (csePerBlock dominates s0) :=
    r0.next t1 (csePerBlock_fl dominates _ s0 r0.2)
  have r2 : Reached dominates s0 (strayIncrement (csePerBlock dominates s0)) := by
    obtain ⟨⟨new, g, he⟩, hfl⟩ := r1
    exact ⟨⟨new, g, ⟨he.log, he.keep, he.ops, he.m, he.guard⟩⟩, hfl⟩
  have hreach : Reached dominates s0 (CommonSubexpressionElimination dominates s0) := by
    unfold CommonSubexpressionElimination cseDomWalk
    exact foldl_inv (Reached dominates s0) _ _
      (fun st2 k _ h2 => (hc.cseDomFunction_keeps st2 k h2).1) _ r2
  refine ⟨hreach, ?_⟩
  unfold CommonSubexpressionElimination cseDomWalk
  rcases hc.at_state r2 with hmt | ⟨t2, _, ht2, _, _, _⟩
  · exact (foldl_inv (fun st2 => Reached dominates s0 st2 ∧ Settled s0 st2 s.id t.id) _ _
      (fun st2 k _ h2 => ⟨(hc.cseDomFunction_keeps st2 k h2.1).1,
        (hc.cseDomFunction_keeps st2 k h2.1).2 h2.2⟩) _ ⟨r2, Or.inr hmt⟩).2
  obtain ⟨f2, hf2, _⟩ := getBlock_get? ht2
  have hfi : fi ∈ List.range (strayIncrement (csePerBlock dominates s0)).m.length := by
    rw [List.mem_range]
    rw [List.get?_eq_getElem?] at hf2
    by_contra hlt
    rw [List.getElem?_eq_none (by omega)] at hf2
    cases hf2
  exact foldl_reach (Reached dominates s0) (fun st2 => Settled s0 st2 s.id t.id) _ fi
    (fun st2 k h2 => (hc.cseDomFunction_keeps st2 k h2).1)
    (fun st2 k h2 hm => (hc.cseDomFunction_keeps st2 k h2).2 hm)
    (fun st2 h2 => hc.cseDomFunction_merges st2 h2) _ hfi _ r2

set_option maxRecDepth 100000 in
/-- Witness of C3: on `c3Module` the pass merges the second `add a, b` into the
first and nothing else; `sub b, a` is not merged into `sub a, b`. -/
theorem C3_merge_soundness_witness :
    (CommonSubexpressionElimination domByAddress (State.init c3Module)).log.map
        (fun e => (e.site, e.erased.id, e.replacement)) =
      [(Site.blockScan, 2, some (Val.inst 1))] ∧
    ∃ new, (CommonSubexpressionElimination domByAddress (State.init c3Module)).log =
        (State.init c3Module).log ++ new ∧
      ∀ e ∈ new, (e.site = Site.blockScan ∨ e.site = Site.domTreeScan) →
        ∃ i, e.survivor = some i ∧ i.opcode = e.erased.opcode := by
  refine ⟨by decide, ?_⟩
  obtain ⟨new, hlog, h⟩ := C3_merge_soundness domByAddress (State.init c3Module)
  refine ⟨new, hlog, fun e he hs => ?_⟩
  obtain ⟨i, hi, _, _, hop, _⟩ := h e he hs
  exact ⟨i, hi, hop⟩

set_option maxRecDepth 100000 in
/-- Witness of C4: on the block of C2 with uses the pass performs two erases,
and each was preceded by a positive answer of the oracle. -/
theorem C4_dominance_precondition_witness :
    (CommonSubexpressionElimination domByAddress (State.init c2ModuleUsed)).log.length = 2 ∧
      DominatedErases domByAddress (State.init c2ModuleUsed)
        (CommonSubexpressionElimination domByAddress (State.init c2ModuleUsed)) :=
  ⟨by decide, (C4_dominance_precondition domByAddress (State.init c2ModuleUsed)).1⟩

/-! ## The dead test against the classifier -/

theorem deadOpcode_of_cseOpcode {o : Opcode} (h : cseOpcode o = true) :
    deadOpcode o = true := by
  cases o <;> simp [cseOpcode] at h <;> rfl

/-- C17, as the code has it. `isDead(I)` is true exactly when `I` has no use
and its opcode is one of the forty-two of the first group of `case` labels, or
`I` is a load that is not volatile; the flags are not consulted. Every
instruction without uses that the classifier admits is dead, since the
nineteen opcodes of the classifier are among the forty-two. The forty-two are
the nineteen of the classifier, `GetElementPtr`, the thirteen casts, `ICmp`,
`FCmp`, `PHI`, `Select` and the five vector and aggregate accesses; `Alloca`,
whose label is commented out, is not one of them. -/
theorem C17_dead_eligible_set (m : Module) (I : Inst) :
    (isDead m I = true ↔ numUses m I.id = 0 ∧
      (deadOpcode I.opcode = true ∨ (I.opcode = Opcode.Load ∧ I.isVolatile = false))) ∧
    (numUses m I.id = 0 ∧ cse_check_opcode I = true → isDead m I = true) ∧
    (∀ o, cseOpcode o = true → deadOpcode o = true) ∧
    (∀ o, deadOpcode o = true ↔ cseOpcode o = true ∨ o ∈ [Opcode.GetElementPtr,
      Opcode.Trunc, Opcode.ZExt, Opcode.SExt, Opcode.FPToUI, Opcode.FPToSI, Opcode.UIToFP,
      Opcode.SIToFP, Opcode.FPTrunc, Opcode.FPExt, Opcode.PtrToInt, Opcode.IntToPtr,
      Opcode.BitCast, Opcode.AddrSpaceCast, Opcode.ICmp, Opcode.FCmp, Opcode.PHI,
      Opcode.Select, Opcode.ExtractElement, Opcode.InsertElement, Opcode.ShuffleVector,
      Opcode.ExtractValue, Opcode.InsertValue]) ∧
    deadOpcode Opcode.Alloca = false := by
  have h1 : isDead m I = true ↔ numUses m I.id = 0 ∧
      (deadOpcode I.opcode = true ∨ (I.opcode = Opcode.Load ∧ I.isVolatile = false)) := by
    unfold isDead
    by_cases hu : numUses m I.id = 0
    · rw [if_pos hu]
      by_cases hd : deadOpcode I.opcode = true
      · simp [hd, hu]
      · rw [if_neg hd]
        by_cases hl : I.opcode = Opcode.Load
        · rw [if_pos hl]
          have hd2 : deadOpcode Opcode.Load = false := rfl
          cases hv : I.isVolatile <;> simp [hu, hl, hd2]
        · simp [hu, hd, hl]
    · simp [hu]
  refine ⟨h1, ?_, fun o => deadOpcode_of_cseOpcode, fun o => ?_, rfl⟩
  · rintro ⟨hu, hc⟩
    exact h1.mpr ⟨hu, Or.inl (deadOpcode_of_cseOpcode (cse_check_opcode_cseOpcode hc))⟩
  · cases o <;> simp [deadOpcode, cseOpcode]

/-- Counterexample to C17: an `fcmp` without uses is dead, although the
classifier rejects it (the comment above the classifier call leaves `FCmp` out
of what is considered) and it is not a load. -/
theorem C17_counterexample :
    ¬ (isDead [] c17Fcmp = true ↔ numUses [] c17Fcmp.id = 0 ∧
      (cse_check_opcode c17Fcmp = true ∨
        (c17Fcmp.opcode = Opcode.Load ∧ c17Fcmp.isVolatile = false))) := by
  decide

/-- C19. The classifier rejects every instruction whose opcode is one of
`documentedButRejected`, whatever its flags: `icmp`, `getelementptr`, the
casts, `select`, `extractvalue` and the others that the comment above the
call does not exclude. -/
theorem C19_classifier_rejects_documented (I : Inst)
    (h : I.opcode ∈ documentedButRejected) : cse_check_opcode I = false := by
  have hc : cseOpcode I.opcode = false := by
    unfold documentedButRejected at h
    simp only [List.mem_cons, List.mem_singleton, List.not_mem_nil, or_false] at h
    rcases h with h | h | h | h | h | h | h | h | h | h | h | h | h | h | h | h | h | h | h |
      h | h | h | h <;> rw [h] <;> rfl
  cases hx : cse_check_opcode I with
  | false => rfl
  | true => rw [cse_check_opcode_cseOpcode hx] at hc; exact absurd hc (by decide)

/-- Witness of C19: an `icmp` with no flag set, not a load, store, `VAArg`,
call, alloca or `FCmp`, is rejected. -/
theorem C19_classifier_rejects_documented_witness :
    (c17Icmp.opcode ∈ documentedButRejected ∧ c17Icmp.isVolatile = false ∧
      c17Icmp.notRemovable = false) ∧ cse_check_opcode c17Icmp = false :=
  ⟨by decide, C19_classifier_rejects_documented c17Icmp (by decide)⟩

set_option maxRecDepth 100000 in
/-- The scenario of C11 evaluated: for `store v, p; store w, p` the per-block
phase erases nothing and leaves `CSEStElim` at 0, whether the first store has
the lower or the higher address. -/
theorem C11_scenario_keeps_both_stores :
    (domByAddress 1 2 = true ∧
      (csePerBlock domByAddress (State.init c11Module)).m = c11Module ∧
      (csePerBlock domByAddress (State.init c11Module)).stats.CSEStElim = 0) ∧
    (domInBlock [2, 1, 3] 2 1 = true ∧
      (csePerBlock (domInBlock [2, 1, 3]) (State.init c11ModuleRev)).m = c11ModuleRev ∧
      (csePerBlock (domInBlock [2, 1, 3]) (State.init c11ModuleRev)).stats.CSEStElim = 0) := by
  decide

theorem forwardCond_type {m : Module} {i j : Inst} (h : forwardCond m i j = true) :
    ∃ p pty, i.getOperand 1 = some p ∧ valTy m p = some pty ∧ j.ty.typeID = pty.typeID := by
  unfold forwardCond at h
  simp only [Bool.and_eq_true, beq_iff_eq] at h
  obtain ⟨_, h5⟩ := h
  cases hp : i.getOperand 1 with
  | none => rw [hp] at h5; simp at h5
  | some p =>
    rw [hp] at h5
    cases ht : valTy m p with
    | none => simp [ht] at h5
    | some pty =>
      simp only [Option.some_bind, ht, Option.map_some', Option.some.injEq] at h5
      exact ⟨p, pty, rfl, ht, h5⟩

set_option maxRecDepth 100000 in
/-- C12. For the store `i` of an `i32` value `v` to `p` and the load `j` of
an `i32` from `p`, with `i` before `j` in the worklist and `i` dominating `j`,
`process_store_load_worklist` forwards nothing: it only empties the worklist,
and a whole run leaves the load in place with `CSEStore2Load` at 0. In every run
of `CommonSubexpressionElimination`, every load that store-to-load forwarding
erases has the type identifier of the type of the address operand of the
store, not that of the stored value. -/
theorem C12_forwarding_compares_address_type :
    (valTy c12Module (Val.ext 10 i32) = some i32 ∧
      (Inst.load 2 i32 (Val.ext 12 ptrTy) false).ty = i32 ∧ domByAddress 1 2 = true ∧
      process_store_load_worklist domByAddress
          ⟨c12Module, ⟨0, 0, 0, 0, 0, 0⟩, [], [], [1, 2], []⟩ =
        ⟨c12Module, ⟨0, 0, 0, 0, 0, 0⟩, [], [], [], []⟩ ∧
      (pipeline noSimplify domByAddress (State.init c12Module)).m = c12Module ∧
      (pipeline noSimplify domByAddress (State.init c12Module)).stats.CSEStore2Load = 0) ∧
    ∀ (dominates : Nat → Nat → Bool) (s : State),
      ∃ new, (CommonSubexpressionElimination dominates s).log = s.log ++ new ∧
        ∀ e ∈ new, e.site = Site.storeLoadFlush →
          ∃ m i p pty, e.survivor = some i ∧ i.opcode = Opcode.Store ∧
            i.getOperand 1 = some p ∧ valTy m p = some pty ∧
            e.erased.ty.typeID = pty.typeID ∧ e.replacement = i.getOperand 0 := by
  refine ⟨by decide, fun dominates s => ?_⟩
  obtain ⟨new, g, hlog, _, _, _, hguard⟩ := CommonSubexpressionElimination_summary dominates s
  refine ⟨new, hlog, fun e he hsite => ?_⟩
  obtain ⟨m, _, hg⟩ := hguard e he
  obtain ⟨_, i, hi, _, _, _, hcase⟩ := hg.cse
  rcases hcase with ⟨h | h, _⟩ | ⟨h, _⟩ | ⟨h, _⟩ | ⟨_, hop, _, hfw, _, hv⟩
  · rw [hsite] at h; exact absurd h (by decide)
  · rw [hsite] at h; exact absurd h (by decide)
  · rw [hsite] at h; exact absurd h (by decide)
  · rw [hsite] at h; exact absurd h (by decide)
  · obtain ⟨p, pty, h1, h2, h3⟩ := forwardCond_type hfw
    exact ⟨m, i, p, pty, hi, hop, h1, h2, h3, hv⟩

set_option maxRecDepth 100000 in
/-- C15. The load at address 5 comes first in the block, the load at address
4 second; both read `p` with type `i32`, neither is volatile, the first
dominates the second. With both in `load_worklist`, which enumerates 4 before
5, `process_load_worklist` erases neither: it only empties the worklist, and a
whole run of `CommonSubexpressionElimination` leaves both loads in the block
with `CSELdElim` at 0. -/
theorem C15_load_pair_missed :
    (getInst c15Module 5 = some (Inst.load 5 i32 (Val.ext 12 ptrTy) false) ∧
      getInst c15Module 4 = some (Inst.load 4 i32 (Val.ext 12 ptrTy) false) ∧
      loadCond (Inst.load 5 i32 (Val.ext 12 ptrTy) false)
        (Inst.load 4 i32 (Val.ext 12 ptrTy) false) = true ∧
      (Inst.load 4 i32 (Val.ext 12 ptrTy) false).notRemovable = false ∧
      domInBlock [5, 4, 6] 5 4 = true) ∧
    process_load_worklist (domInBlock [5, 4, 6])
        ⟨c15Module, ⟨0, 0, 0, 0, 0, 0⟩, [4, 5], [], [], []⟩ =
      ⟨c15Module, ⟨0, 0, 0, 0, 0, 0⟩, [], [], [], []⟩ ∧
    (CommonSubexpressionElimination (domInBlock [5, 4, 6]) (State.init c15Module)).m =
      c15Module ∧
    (CommonSubexpressionElimination (domInBlock [5, 4, 6])
      (State.init c15Module)).stats.CSELdElim = 0 := by
  decide

set_option maxRecDepth 100000 in
/-- C16. In the block `store v, p` (address 1); `store w, p` (address 3);
`j = load p` (address 2); `call f(j)` the second store lies between the first
store and the load in program order, yet `process_store_load_worklist`, which
enumerates 1, 2, 3, forwards `v` to the uses of `j`: after a run of
`CommonSubexpressionElimination` the call receives `v`, while the value most
recently stored to `p` is `w`. -/
theorem C16_forwarding_across_a_store :
    (domInBlock [1, 3, 2, 4] 1 3 = true ∧ domInBlock [1, 3, 2, 4] 3 2 = true ∧
      killCond (Inst.store 1 (Val.ext 10 ptrTy) (Val.ext 12 ptrTy) false)
        (Inst.store 3 (Val.ext 11 ptrTy) (Val.ext 12 ptrTy) false) = true) ∧
    process_store_load_worklist (domInBlock [1, 3, 2, 4])
        ⟨c16Module, ⟨0, 0, 0, 0, 0, 0⟩, [], [], [1, 2, 3], []⟩ =
      ⟨[⟨[[Inst.store 1 (Val.ext 10 ptrTy) (Val.ext 12 ptrTy) false,
          Inst.store 3 (Val.ext 11 ptrTy) (Val.ext 12 ptrTy) false,
          Inst.call 4 [Val.ext 10 ptrTy]]], [(0, [])]⟩],
        ⟨0, 0, 0, 0, 1, 0⟩, [], [], [],
        [⟨Site.storeLoadFlush, Inst.load 2 ptrTy (Val.ext 12 ptrTy) false,
          some (Inst.store 1 (Val.ext 10 ptrTy) (Val.ext 12 ptrTy) false),
          some (Val.ext 10 ptrTy), 0⟩]⟩ ∧
    (CommonSubexpressionElimination (domInBlock [1, 3, 2, 4]) (State.init c16Module)).m =
      [⟨[[Inst.store 1 (Val.ext 10 ptrTy) (Val.ext 12 ptrTy) false,
          Inst.store 3 (Val.ext 11 ptrTy) (Val.ext 12 ptrTy) false,
          Inst.call 4 [Val.ext 10 ptrTy]]], [(0, [])]⟩] := by
  decide

/-! ## Provenance of the erases -/

theorem Descends.self (m : Module) : Descends m m := by
  refine ⟨[], fun x => x, fun _ => rfl, ?_⟩
  simp only [List.not_mem_nil, not_false_eq_true, decide_True]
  rw [mapInsts_id, filterInsts_true]

theorem descends_erase (s : State) (site : Site) (j : Inst) (i : Option Inst) (v : Option Val) :
    Descends s.m (s.erase site j i v).m := by
  refine ⟨[j.id], redirect j.id v, redirect_frame j.id v, ?_⟩
  rw [erase_m]
  unfold eraseFromParent
  refine filterInsts_congr _ _ (fun x => ?_) _
  rw [Bool.eq_iff_iff]
  simp

theorem Descends.inBlock {m0 m : Module} (h : Descends m0 m) {fi bi id : Nat}
    (hid : id ∈ blockIds m fi bi) : id ∈ blockIds m0 fi bi := by
  obtain ⟨ids, g, hg, rfl⟩ := h
  unfold blockIds at hid ⊢
  rw [getBlock_filter_map] at hid
  obtain ⟨x, hx, rfl⟩ := List.mem_map.mp hid
  obtain ⟨x0, hx0, rfl⟩ := List.mem_map.mp (List.mem_of_mem_filter hx)
  rw [frame_id (hg x0)]
  exact List.mem_map_of_mem _ hx0

theorem Descends.hasOpcode {m0 m : Module} (h : Descends m0 m) {id : Nat} {x : Inst}
    (hx : getInst m id = some x) : HasOpcode m0 x.opcode id := by
  obtain ⟨hmem, hid⟩ := getInst_some hx
  obtain ⟨x0, hx0, hfr⟩ := h.mem hmem
  exact ⟨x0, hx0, (frame_id hfr).symm.trans hid, (frame_opcode hfr).symm⟩

theorem Prov.eraseEvent {m0 : Module} {AL AS AB : Nat → Prop} {base : Nat} {s s2 : State}
    {site : Site} {j : Inst} {i : Option Inst} {v : Option Val} (h : Prov m0 AL AS AB base s)
    (hm : s2.m = (s.erase site j i v).m) (hl : s2.log = (s.erase site j i v).log)
    (h1 : ∀ id ∈ s2.load_worklist, id ∈ s.load_worklist)
    (h2 : ∀ id ∈ s2.store_worklist, id ∈ s.store_worklist)
    (h3 : ∀ id ∈ s2.store_load_worklist, id ∈ s.store_load_worklist)
    (hloc : ∀ n, Local m0 ⟨site, j, i, v, n⟩) : Prov m0 AL AS AB base s2 := by
  refine ⟨?_, by rw [hl, erase_log, List.length_append]; have := h.le; omega,
    fun id hid => h.loads id (h1 id hid), fun id hid => h.stores id (h2 id hid),
    fun id hid => h.both id (h3 id hid), ?_⟩
  · rw [hm]; exact h.desc.compose (descends_erase s site j i v)
  · intro e he
    rw [hl, erase_log, List.drop_append_of_le_length h.le] at he
    rcases List.mem_append.mp he with he | he
    · exact h.log e he
    · simp only [List.mem_singleton] at he
      subst he
      exact hloc _

theorem Prov.weaken {m0 : Module} {AL AS AB AL2 AS2 AB2 : Nat → Prop} {base : Nat} {s : State}
    (h : Prov m0 AL AS AB base s) (h1 : ∀ id, AL id → AL2 id) (h2 : ∀ id, AS id → AS2 id)
    (h3 : ∀ id, AB id → AB2 id) : Prov m0 AL2 AS2 AB2 base s :=
  ⟨h.desc, h.le, fun id hid => h1 id (h.loads id hid), fun id hid => h2 id (h.stores id hid),
    fun id hid => h3 id (h.both id hid), h.log⟩

theorem scanStep_prov (dominates : Nat → Nat → Bool) (site : Site) {m0 : Module}
    {AL AS AB : Nat → Prop} {base : Nat} (iid : Nat) (s : State) (jid : Nat)
    (hloc : ∀ (j i : Inst) (v : Option Val) (n : Nat), i.id = iid → j.id = jid →
      Local m0 ⟨site, j, some i, v, n⟩)
    (h : Prov m0 AL AS AB base s) : Prov m0 AL AS AB base (scanStep dominates site iid s jid) := by
  unfold scanStep
  cases hii : getInst s.m iid with
  | none => exact h
  | some i =>
    cases hjj : getInst s.m jid with
    | none => exact h
    | some j =>
      simp only
      split_ifs
      · exact @Prov.eraseEvent m0 AL AS AB base s _ site j (some i) (some (Val.inst iid)) h
          rfl rfl (fun _ hx => hx) (fun _ hx => hx) (fun _ hx => hx)
          (fun n => hloc j i _ n (getInst_some hii).2 (getInst_some hjj).2)
      all_goals exact h

theorem loadInner_prov (dominates : Nat → Nat → Bool) {m0 : Module} {fi bi : Nat}
    {AL AS AB : Nat → Prop} {base : Nat} (iid : Nat) (s : State) (jid : Nat)
    (hi : LoadOf m0 fi bi iid) (hj : LoadOf m0 fi bi jid)
    (h : Prov m0 AL AS AB base s) : Prov m0 AL AS AB base (loadInner dominates iid s jid) := by
  unfold loadInner
  cases hii : getInst s.m iid with
  | none => exact h
  | some i =>
    cases hjj : getInst s.m jid with
    | none => exact h
    | some j =>
      simp only
      split_ifs
      · refine @Prov.eraseEvent m0 AL AS AB base s _ Site.loadFlush j (some i)
          (some (Val.inst iid)) h rfl rfl (fun _ hx => mem_setErase hx) (fun _ hx => hx)
          (fun _ hx => hx) (fun n => ⟨i, rfl, ?_⟩)
        show SameBlock m0 i.id j.id ∧ HasOpcode m0 Opcode.Load i.id ∧
          HasOpcode m0 Opcode.Load j.id
        rw [(getInst_some hii).2, (getInst_some hjj).2]
        exact ⟨⟨fi, bi, hi.1, hj.1⟩, hi.2, hj.2⟩
      all_goals exact h

theorem process_load_worklist_prov (dominates : Nat → Nat → Bool) {m0 : Module} {fi bi : Nat}
    {AL AS AB : Nat → Prop} {base : Nat} (s : State)
    (hAL : ∀ id, AL id → LoadOf m0 fi bi id) (h : Prov m0 AL AS AB base s) :
    Prov m0 Nowhere AS AB base (process_load_worklist dominates s) := by
  unfold process_load_worklist
  have h1 : Prov m0 AL AS AB base (s.load_worklist.foldl (loadOuter dominates) s) := by
    refine foldl_inv (Prov m0 AL AS AB base) _ _ (fun st p _ hst => ?_) s h
    unfold loadOuter
    split_ifs with hp
    · exact foldl_inv (Prov m0 AL AS AB base) _ _
        (fun st2 jid hjid hst2 => loadInner_prov dominates p st2 jid (hAL p (hst.loads p hp))
          (hAL jid (hst.loads jid (mem_fromMember hjid))) hst2) st hst
    · exact hst
  exact ⟨h1.desc, h1.le, fun _ hx => (by cases hx), h1.stores, h1.both, h1.log⟩

theorem storeInner_prov (dominates : Nat → Nat → Bool) {m0 : Module} {fi bi : Nat}
    {AL AS AB : Nat → Prop} {base : Nat} (iid : Nat) (s : State) (jid : Nat)
    (hi : StoreOf m0 fi bi iid) (hj : StoreOf m0 fi bi jid)
    (h : Prov m0 AL AS AB base s) : Prov m0 AL AS AB base (storeInner dominates iid s jid) := by
  unfold storeInner
  cases hii : getInst s.m iid with
  | none => exact h
  | some i =>
    cases hjj : getInst s.m jid with
    | none => exact h
    | some j =>
      simp only
      split_ifs
      · refine @Prov.eraseEvent m0 AL AS AB base s _ Site.storeFlush j (some i)
          (some (Val.inst iid)) h rfl rfl (fun _ hx => hx) (fun _ hx => mem_setErase hx)
          (fun _ hx => hx) (fun n => ⟨i, rfl, ?_⟩)
        show SameBlock m0 i.id j.id ∧ HasOpcode m0 Opcode.Store i.id ∧
          HasOpcode m0 Opcode.Store j.id
        rw [(getInst_some hii).2, (getInst_some hjj).2]
        exact ⟨⟨fi, bi, hi.1, hj.1⟩, hi.2, hj.2⟩
      all_goals exact h

theorem process_store_worklist_prov (dominates : Nat → Nat → Bool) {m0 : Module} {fi bi : Nat}
    {AL AS AB : Nat → Prop} {base : Nat} (s : State)
    (hAS : ∀ id, AS id → StoreOf m0 fi bi id) (h : Prov m0 AL AS AB base s) :
    Prov m0 AL Nowhere AB base (process_store_worklist dominates s) := by
  unfold process_store_worklist
  have h1 : Prov m0 AL AS AB base (s.store_worklist.reverse.foldl (storeOuter dominates) s) := by
    refine foldl_inv (Prov m0 AL AS AB base) _ _ (fun st p _ hst => ?_) s h
    unfold storeOuter
    split_ifs with hp
    · exact foldl_inv (Prov m0 AL AS AB base) _ _
        (fun st2 jid hjid hst2 => storeInner_prov dominates p st2 jid (hAS p (hst.stores p hp))
          (hAS jid (hst.stores jid (List.mem_reverse.mp (mem_fromMember hjid)))) hst2) st hst
    · exact hst
  exact ⟨h1.desc, h1.le, h1.loads, fun _ hx => (by cases hx), h1.both, h1.log⟩

theorem storeLoadInner_prov (dominates : Nat → Nat → Bool) {m0 : Module} {fi bi : Nat}
    {AL AS AB : Nat → Prop} {base : Nat} (iid : Nat) (l : List Nat)
    (hi : InBlock m0 fi bi iid) (hl : ∀ jid ∈ l, InBlock m0 fi bi jid) (s : State)
    (h : Prov m0 AL AS AB base s) : Prov m0 AL AS AB base (storeLoadInner dominates iid l s) := by
  induction l generalizing s with
  | nil => exact h
  | cons jid rest ih =>
    have hrest : ∀ k ∈ rest, InBlock m0 fi bi k := fun k hk => hl k (List.mem_cons_of_mem jid hk)
    unfold storeLoadInner
    cases hii : getInst s.m iid with
    | none => exact ih hrest s h
    | some i =>
      cases hjj : getInst s.m jid with
      | none => exact ih hrest s h
      | some j =>
        simp only
        split_ifs
        · exact h
        · refine ih hrest _ (@Prov.eraseEvent m0 AL AS AB base s _ Site.storeLoadFlush j (some i)
            (i.getOperand 0) h rfl rfl (fun _ hx => hx) (fun _ hx => hx)
            (fun _ hx => mem_setErase hx) (fun n => ⟨i, rfl, ?_⟩))
          show SameBlock m0 i.id j.id
          rw [(getInst_some hii).2, (getInst_some hjj).2]
          exact ⟨fi, bi, hi, hl jid (List.mem_cons_self jid rest)⟩
        all_goals exact ih hrest s h

theorem process_store_load_worklist_prov (dominates : Nat → Nat → Bool) {m0 : Module}
    {fi bi : Nat} {AL AS AB : Nat → Prop} {base : Nat} (s : State)
    (hAB : ∀ id, AB id → InBlock m0 fi bi id) (h : Prov m0 AL AS AB base s) :
    Prov m0 AL AS Nowhere base (process_store_load_worklist dominates s) := by
  unfold process_store_load_worklist
  have h1 : Prov m0 AL AS AB base
      (s.store_load_worklist.foldl (storeLoadOuter dominates) s) := by
    refine foldl_inv (Prov m0 AL AS AB base) _ _ (fun st p _ hst => ?_) s h
    unfold storeLoadOuter
    split_ifs with hp
    · cases getInst st.m p with
      | none => exact hst
      | some i =>
        simp only
        split_ifs
        · exact storeLoadInner_prov dominates p _ (hAB p (hst.both p hp))
            (fun jid hjid => hAB jid (hst.both jid (mem_fromMember hjid))) st hst
        · exact hst
    · exact hst
  exact ⟨h1.desc, h1.le, h1.loads, h1.stores, fun _ hx => (by cases hx), h1.log⟩

theorem Descends.domTree_of {m0 m : Module} (h : Descends m0 m) {fi : Nat} {f : Function}
    (hf : m.get? fi = some f) : ∃ f0, m0.get? fi = some f0 ∧ f0.domTree = f.domTree := by
  obtain ⟨ids, g, _, rfl⟩ := h
  unfold filterInsts mapInsts at hf
  simp only [List.get?_eq_getElem?, List.getElem?_map] at hf ⊢
  cases h0 : m0[fi]? with
  | none => rw [h0] at hf; simp at hf
  | some f0 =>
    rw [h0] at hf
    simp only [Option.map_some', Option.some.injEq] at hf
    exact ⟨f0, rfl, by rw [← hf]⟩

theorem mem_idsFrom {iid jid : Nat} {b : Block} (h : jid ∈ idsFrom iid b) :
    jid ∈ b.map Inst.id :=
  (List.dropWhile_sublist _).subset h

theorem blockStep_prov (dominates : Nat → Nat → Bool) {m0 : Module} {fi bi : Nat}
    {AB : Nat → Prop} {base : Nat} (s : State) (iid : Nat) (hiid : iid ∈ blockIds m0 fi bi)
    (h : Prov m0 (LoadOf m0 fi bi) (StoreOf m0 fi bi) AB base s) :
    Prov m0 (LoadOf m0 fi bi) (StoreOf m0 fi bi) AB base (blockStep dominates fi bi s iid) := by
  unfold blockStep
  cases hi : getInst s.m iid with
  | none => exact h
  | some i =>
    have hop := h.desc.hasOpcode hi
    simp only
    split_ifs with h1 h2 h3
    · rw [h1] at hop
      have hin : Prov m0 (LoadOf m0 fi bi) (StoreOf m0 fi bi) AB base
          { s with load_worklist := setInsert iid s.load_worklist } :=
        ⟨h.desc, h.le, fun id hid => (mem_setInsert hid).elim (fun e => e ▸ ⟨hiid, hop⟩)
          (h.loads id), h.stores, h.both, h.log⟩
      exact (process_store_worklist_prov dominates _ (fun _ hx => hx) hin).weaken
        (fun _ hx => hx) (fun _ hx => False.elim hx) (fun _ hx => hx)
    · rw [h2] at hop
      have hin : Prov m0 (LoadOf m0 fi bi) (StoreOf m0 fi bi) AB base
          { s with store_worklist := setInsert iid s.store_worklist } :=
        ⟨h.desc, h.le, h.loads, fun id hid => (mem_setInsert hid).elim
          (fun e => e ▸ ⟨hiid, hop⟩) (h.stores id), h.both, h.log⟩
      exact (process_load_worklist_prov dominates _ (fun _ hx => hx) hin).weaken
        (fun _ hx => False.elim hx) (fun _ hx => hx) (fun _ hx => hx)
    · refine foldl_inv (Prov m0 (LoadOf m0 fi bi) (StoreOf m0 fi bi) AB base) _ _
        (fun st jid hjid hst => scanStep_prov dominates Site.blockScan iid st jid
          (fun j i v n e1 e2 => ⟨i, rfl, ?_⟩) hst) s h
      show SameBlock m0 i.id j.id
      rw [e1, e2]
      exact ⟨fi, bi, hiid, h.desc.inBlock (mem_idsFrom hjid)⟩
    · exact h

theorem cseBlock_prov (dominates : Nat → Nat → Bool) {m0 : Module} {base : Nat} (fi : Nat)
    (s : State) (bi : Nat) (h : Prov m0 Nowhere Nowhere Nowhere base s) :
    Prov m0 Nowhere Nowhere Nowhere base (cseBlock dominates fi s bi) := by
  unfold cseBlock
  split_ifs
  · exact h
  · have h0 : Prov m0 (LoadOf m0 fi bi) (StoreOf m0 fi bi) Nowhere base s :=
      h.weaken (fun _ hx => False.elim hx) (fun _ hx => False.elim hx) (fun _ hx => hx)
    have h1 := foldl_inv (Prov m0 (LoadOf m0 fi bi) (StoreOf m0 fi bi) Nowhere base) _ _
      (fun st iid hiid hst => blockStep_prov dominates st iid (h.desc.inBlock hiid) hst) s h0
    exact process_store_worklist_prov dominates _ (fun _ hx => hx)
      (process_load_worklist_prov dominates _ (fun _ hx => hx) h1)

theorem csePerBlock_prov (dominates : Nat → Nat → Bool) {m0 : Module} {base : Nat} (s : State)
    (h : Prov m0 Nowhere Nowhere Nowhere base s) :
    Prov m0 Nowhere Nowhere Nowhere base (csePerBlock dominates s) := by
  unfold csePerBlock
  refine foldl_inv (Prov m0 Nowhere Nowhere Nowhere base) _ _ (fun s fi _ hs => ?_) s h
  unfold cseFunction
  cases s.m.get? fi with
  | none => exact hs
  | some f =>
    exact foldl_inv (Prov m0 Nowhere Nowhere Nowhere base) _ _
      (fun st bi _ hst => cseBlock_prov dominates fi st bi hst) s hs

theorem childScan_prov (dominates : Nat → Nat → Bool) {m0 : Module} {AL AS AB : Nat → Prop}
    {base : Nat} (fi iid : Nat) (s : State) (ci : Nat)
    (hpc : ∀ jid ∈ blockIds m0 fi ci, ParentChild m0 iid jid)
    (h : Prov m0 AL AS AB base s) : Prov m0 AL AS AB base (childScan dominates fi iid s ci) := by
  unfold childScan
  refine foldl_inv (Prov m0 AL AS AB base) _ _
    (fun st jid hjid hst => scanStep_prov dominates Site.domTreeScan iid st jid
      (fun j i v n e1 e2 => ⟨i, rfl, ?_⟩) hst) s h
  show ParentChild m0 i.id j.id
  rw [e1, e2]
  exact hpc jid (h.desc.inBlock hjid)

theorem nodeStep_prov (dominates : Nat → Nat → Bool) {m0 : Module} {AL AS : Nat → Prop}
    {base : Nat} {fi bp : Nat} {children : List Nat} {f0 : Function}
    (hf0 : m0.get? fi = some f0) (hnode : (bp, children) ∈ f0.domTree) (s : State) (iid : Nat)
    (hiid : iid ∈ blockIds m0 fi bp) (h : Prov m0 AL AS (InBlock m0 fi bp) base s) :
    Prov m0 AL AS (InBlock m0 fi bp) base (nodeStep dominates fi children s iid) := by
  unfold nodeStep
  cases hi : getInst s.m iid with
  | none => exact h
  | some i =>
    simp only
    split_ifs with h1 h3
    · exact ⟨h.desc, h.le, h.loads, h.stores,
        fun id hid => (mem_setInsert hid).elim (fun e => e ▸ hiid) (h.both id), h.log⟩
    · exact foldl_inv (Prov m0 AL AS (InBlock m0 fi bp) base) _ _
        (fun st ci hci hst => childScan_prov dominates fi iid st ci
          (fun jid hjid => ⟨fi, f0, bp, children, ci, hf0, hnode, hci, hiid, hjid⟩) hst) s h
    · exact h

theorem cseNode_prov (dominates : Nat → Nat → Bool) {m0 : Module} {base : Nat} {fi : Nat}
    {f0 : Function} (hf0 : m0.get? fi = some f0) (s : State) (node : Nat × List Nat)
    (hnode : node ∈ f0.domTree) (h : Prov m0 Nowhere Nowhere Nowhere base s) :
    Prov m0 Nowhere Nowhere Nowhere base (cseNode dominates fi s node) := by
  unfold cseNode
  split_ifs
  · exact h
  · have h0 : Prov m0 Nowhere Nowhere (InBlock m0 fi node.1) base s :=
      h.weaken (fun _ hx => hx) (fun _ hx => hx) (fun _ hx => False.elim hx)
    have h1 := foldl_inv (Prov m0 Nowhere Nowhere (InBlock m0 fi node.1) base) _ _
      (fun st iid hiid hst => @nodeStep_prov dominates m0 Nowhere Nowhere base fi node.1 node.2
        f0 hf0 hnode st iid (h.desc.inBlock hiid) hst) s h0
    exact process_store_load_worklist_prov dominates _ (fun _ hx => hx) h1

theorem cseDomWalk_prov (dominates : Nat → Nat → Bool) {m0 : Module} {base : Nat} (s : State)
    (h : Prov m0 Nowhere Nowhere Nowhere base s) :
    Prov m0 Nowhere Nowhere Nowhere base (cseDomWalk dominates s) := by
  unfold cseDomWalk
  refine foldl_inv (Prov m0 Nowhere Nowhere Nowhere base) _ _ (fun s fi _ hs => ?_) s h
  unfold cseDomFunction
  cases hf : s.m.get? fi with
  | none => exact hs
  | some f =>
    obtain ⟨f0, hf0, hdt⟩ := hs.desc.domTree_of hf
    simp only
    split_ifs
    · exact hs
    · exact foldl_inv (Prov m0 Nowhere Nowhere Nowhere base) _ _
        (fun st node hnode hst => cseNode_prov dominates hf0 st node (hdt ▸ hnode) hst) s hs

theorem Prov.fresh (s : State) (h1 : s.load_worklist = []) (h2 : s.store_worklist = [])
    (h3 : s.store_load_worklist = []) : Prov s.m Nowhere Nowhere Nowhere s.log.length s := by
  refine ⟨Descends.self s.m, le_refl _, fun id hid => ?_, fun id hid => ?_, fun id hid => ?_,
    fun e he => ?_⟩
  · rw [h1] at hid; cases hid
  · rw [h2] at hid; cases hid
  · rw [h3] at hid; cases hid
  · rw [List.drop_length] at he; cases he

theorem Prov.events {m0 : Module} {AL AS AB : Nat → Prop} {s s2 : State}
    (h : Prov m0 AL AS AB s.log.length s2) {new : List Event} (hlog : s2.log = s.log ++ new) :
    ∀ e ∈ new, Local m0 e := by
  intro e he
  refine h.log e ?_
  rw [hlog, List.drop_left]
  exact he

/-- From a state with empty worklists, every erase of
`CommonSubexpressionElimination` is local, and the worklists are empty again
at the end. -/
theorem CommonSubexpressionElimination_prov (dominates : Nat → Nat → Bool) (s : State)
    (h1 : s.load_worklist = []) (h2 : s.store_worklist = [])
    (h3 : s.store_load_worklist = []) :
    Prov s.m Nowhere Nowhere Nowhere s.log.length
      (CommonSubexpressionElimination dominates s) := by
  unfold CommonSubexpressionElimination
  refine cseDomWalk_prov dominates _ ?_
  have h := csePerBlock_prov dominates s (Prov.fresh s h1 h2 h3)
  exact ⟨h.desc, h.le, h.loads, h.stores, h.both, h.log⟩

theorem frame_mayHaveSideEffects {x y : Inst} (h : x.frame = y.frame) :
    x.mayHaveSideEffects = y.mayHaveSideEffects := by
  show x.frame.mayHaveSideEffects = y.frame.mayHaveSideEffects
  rw [h]

theorem notRemovable_sideEffects {j : Inst} (h : j.notRemovable = false) :
    j.mayHaveSideEffects = false := by
  unfold Inst.notRemovable at h
  simp only [Bool.or_eq_false_iff] at h
  exact h.1.2

theorem forwardCond_load {m : Module} {i j : Inst} (h : forwardCond m i j = true) :
    j.opcode = Opcode.Load := by
  unfold forwardCond at h
  simp only [Bool.and_eq_true, beq_iff_eq] at h
  exact h.1.1.1.2

/-- No erase of `CommonSubexpressionElimination` removes a store that reports
side effects. -/
theorem Guard.cse_keeps_store {dominates : Nat → Nat → Bool} {m : Module} {site : Site}
    {j : Inst} {i : Option Inst} {v : Option Val}
    (hg : Guard (Pass.cse dominates) m site j i v) (hop : j.opcode = Opcode.Store)
    (hse : j.mayHaveSideEffects = true) : False := by
  obtain ⟨_, i, _, _, _, _, hc⟩ := hg.cse
  rcases hc with ⟨_, h1, h2, _⟩ | ⟨_, _, h, _⟩ | ⟨_, _, h, _⟩ | ⟨_, _, _, _, h, _⟩
  · have h3 := cse_check_opcode_cseOpcode h1
    rw [sameShape_opcode h2, hop] at h3
    exact absurd h3 (by decide)
  all_goals
    rw [notRemovable_sideEffects h] at hse
    exact absurd hse (by decide)

theorem Local.of_storeFlush {m0 : Module} {e : Event} (h : Local m0 e)
    (hs : e.site = Site.storeFlush) :
    ∃ i, e.survivor = some i ∧ SameBlock m0 i.id e.erased.id ∧
      HasOpcode m0 Opcode.Store i.id ∧ HasOpcode m0 Opcode.Store e.erased.id := by
  obtain ⟨i, hi, hm⟩ := h
  rw [hs] at hm
  exact ⟨i, hi, hm⟩

theorem Local.of_domTreeScan {m0 : Module} {e : Event} (h : Local m0 e)
    (hs : e.site = Site.domTreeScan) :
    ∃ i, e.survivor = some i ∧ ParentChild m0 i.id e.erased.id := by
  obtain ⟨i, hi, hm⟩ := h
  rw [hs] at hm
  exact ⟨i, hi, hm⟩

theorem Local.sameBlock {m0 : Module} {e : Event} (h : Local m0 e)
    (hs : e.site ≠ Site.domTreeScan) :
    ∃ i, e.survivor = some i ∧ SameBlock m0 i.id e.erased.id := by
  obtain ⟨i, hi, hm⟩ := h
  refine ⟨i, hi, ?_⟩
  cases hs2 : e.site <;> rw [hs2] at hm
  · exact hm
  · exact hm
  · exact hm
  · exact absurd hs2 hs
  · exact hm.1
  · exact hm.1
  · exact hm

/-- C11: the erase of `process_store_worklist` (lines 247 to 251, counted by
`CSEStElim`, "CSE redundant stores") is never reached for a store that writes
memory, because the guard of line 245 asks that `j` have no side effects. From
a state with empty worklists, on a module with unique instruction addresses in
which every store reports side effects, the per-block phase erases no store:
`CSEStElim` is unchanged, every store is still in the module, and no logged
erase is an erase of the store flush or of a store. -/
theorem C11_side_effect_stores_kept (dominates : Nat → Nat → Bool) (s : State)
    (h1 : s.load_worklist = []) (h2 : s.store_worklist = [])
    (h3 : s.store_load_worklist = [])
    (hids : ((allInsts s.m).map Inst.id).Nodup)
    (hst : ∀ x ∈ allInsts s.m, x.opcode = Opcode.Store → x.mayHaveSideEffects = true) :
    (csePerBlock dominates s).stats.CSEStElim = s.stats.CSEStElim ∧
    (∀ x ∈ allInsts s.m, x.opcode = Opcode.Store →
      ∃ x2 ∈ allInsts (csePerBlock dominates s).m, x2.frame = x.frame) ∧
    ∃ new, (csePerBlock dominates s).log = s.log ++ new ∧
      ∀ e ∈ new, e.site ≠ Site.storeFlush ∧ e.erased.opcode ≠ Opcode.Store := by
  obtain ⟨new, g, hsum⟩ := (CommonSubexpressionElimination_trace dominates s).1.summary
  have hloc := (csePerBlock_prov dominates s (Prov.fresh s h1 h2 h3)).events hsum.log
  have horig : ∀ e ∈ new, ∃ x0 ∈ allInsts s.m, e.erased.frame = x0.frame ∧
      (e.erased.opcode = Opcode.Store → False) := by
    intro e he
    obtain ⟨me, hdesc, hg⟩ := hsum.guard e he
    obtain ⟨x0, hx0, hfr⟩ := hdesc.mem (getInst_some hg.1).1
    refine ⟨x0, hx0, hfr, fun hop => hg.cse_keeps_store hop ?_⟩
    rw [frame_mayHaveSideEffects hfr]
    exact hst x0 hx0 (by rw [← frame_opcode hfr]; exact hop)
  have hno : ∀ e ∈ new, e.site ≠ Site.storeFlush := by
    intro e he hsite
    obtain ⟨x0, hx0, hfr, hcon⟩ := horig e he
    obtain ⟨_, _, _, _, x, hx, hid, hop⟩ := (hloc e he).of_storeFlush hsite
    have hxx : x = x0 := eq_of_nodup_ids hids hx hx0 (hid.trans (frame_id hfr))
    exact hcon (by rw [frame_opcode hfr, ← hxx]; exact hop)
  refine ⟨?_, ?_, new, hsum.log, fun e he => ⟨hno e he, ?_⟩⟩
  · rw [hsum.stats, foldl_bump]
    show s.stats.CSEStElim + new.countP (fun e => e.site == Site.storeFlush) = s.stats.CSEStElim
    have : new.countP (fun e => e.site == Site.storeFlush) = 0 := by
      rw [List.countP_eq_zero]
      intro e he
      simpa using hno e he
    omega
  · intro x hx hop
    refine ⟨g x, ?_, hsum.keep x⟩
    rw [hsum.m, allInsts_filterInsts, allInsts_mapInsts]
    refine List.mem_filter.mpr ⟨List.mem_map_of_mem g hx, ?_⟩
    simp only [decide_eq_true_eq, List.mem_map, not_exists, not_and]
    intro e he hid
    obtain ⟨x0, hx0, hfr, hcon⟩ := horig e he
    have hxx : x0 = x := eq_of_nodup_ids hids hx0 hx
      ((frame_id hfr).symm.trans (hid.trans (frame_id (hsum.keep x))))
    exact hcon (by rw [frame_opcode hfr, hxx]; exact hop)
  · obtain ⟨x0, hx0, hfr, hcon⟩ := horig e he
    exact hcon

set_option maxRecDepth 100000 in
/-- Witness of C11: the block `store v, p; store w, p; ret` of the scenario,
under the oracle that follows address order. -/
theorem C11_side_effect_stores_kept_witness :
    (csePerBlock domByAddress (State.init c11Module)).stats.CSEStElim =
        (State.init c11Module).stats.CSEStElim ∧
    (∀ x ∈ allInsts (State.init c11Module).m, x.opcode = Opcode.Store →
      ∃ x2 ∈ allInsts (csePerBlock domByAddress (State.init c11Module)).m,
        x2.frame = x.frame) ∧
    ∃ new, (csePerBlock domByAddress (State.init c11Module)).log =
        (State.init c11Module).log ++ new ∧
      ∀ e ∈ new, e.site ≠ Site.storeFlush ∧ e.erased.opcode ≠ Opcode.Store :=
  C11_side_effect_stores_kept domByAddress (State.init c11Module) rfl rfl rfl
    (by decide) (by decide)

theorem Prov.idle {m0 : Module} {AL AS : Nat → Prop} {base : Nat} {s : State}
    (h : Prov m0 AL AS Nowhere base s) : s.store_load_worklist = [] :=
  List.eq_nil_iff_forall_not_mem.mpr (fun id hid => h.both id hid)

set_option maxRecDepth 100000 in
/-- Counterexample to C13: the store of `P` dominates the load of `C`, the
load passes the test of forwarding against the store, no other store exists,
and `CommonSubexpressionElimination` leaves the module as it was, with
`CSEStore2Load` at 0. -/
theorem C13_counterexample :
    (domByAddress 1 3 = true ∧
      forwardCond c13Module (Inst.store 1 (Val.ext 10 ptrTy) (Val.ext 12 ptrTy) false)
        (Inst.load 3 ptrTy (Val.ext 12 ptrTy) false) = true ∧
      (Inst.load 3 ptrTy (Val.ext 12 ptrTy) false).notRemovable = false) ∧
    (CommonSubexpressionElimination domByAddress (State.init c13Module)).m = c13Module ∧
    (CommonSubexpressionElimination domByAddress (State.init c13Module)).stats.CSEStore2Load
      = 0 := by
  decide

/-- C13, as the code has it. Store-to-load forwarding stays inside a block:
the worklist is filled with the loads and stores of one dominator-tree node
and `process_store_load_worklist` processes and empties it at the end of that
node. From a state with empty worklists, every load that forwarding erases
lies in the block of the store whose stored value replaces it, and the
worklist is empty when `CommonSubexpressionElimination` returns. -/
theorem C13_forwarding_stays_in_block (dominates : Nat → Nat → Bool) (s : State)
    (h1 : s.load_worklist = []) (h2 : s.store_worklist = [])
    (h3 : s.store_load_worklist = []) :
    (∃ new, (CommonSubexpressionElimination dominates s).log = s.log ++ new ∧
      ∀ e ∈ new, e.site = Site.storeLoadFlush →
        ∃ i, e.survivor = some i ∧ i.opcode = Opcode.Store ∧
          e.erased.opcode = Opcode.Load ∧ e.replacement = i.getOperand 0 ∧
          SameBlock s.m i.id e.erased.id) ∧
    (CommonSubexpressionElimination dominates s).store_load_worklist = [] := by
  obtain ⟨new, g, hlog, _, _, _, hguard⟩ := CommonSubexpressionElimination_summary dominates s
  have hp := CommonSubexpressionElimination_prov dominates s h1 h2 h3
  refine ⟨⟨new, hlog, fun e he hsite => ?_⟩, hp.idle⟩
  obtain ⟨i, hi, hsb⟩ := (hp.events hlog e he).sameBlock (by rw [hsite]; decide)
  obtain ⟨m, _, hg⟩ := hguard e he
  obtain ⟨_, i0, hi0, _, _, _, hcase⟩ := hg.cse
  have hii : i0 = i := Option.some.inj (hi0.symm.trans hi)
  subst hii
  rcases hcase with ⟨h | h, _⟩ | ⟨h, _⟩ | ⟨h, _⟩ | ⟨_, hop, _, hfw, _, hv⟩
  · rw [hsite] at h; exact absurd h (by decide)
  · rw [hsite] at h; exact absurd h (by decide)
  · rw [hsite] at h; exact absurd h (by decide)
  · rw [hsite] at h; exact absurd h (by decide)
  · exact ⟨i0, hi, hop, forwardCond_load hfw, hv, hsb⟩

/-- Witness of C13 as the code has it: a run on the module of the scenario. -/
theorem C13_forwarding_stays_in_block_witness :
    (∃ new, (CommonSubexpressionElimination domByAddress (State.init c13Module)).log =
        (State.init c13Module).log ++ new ∧
      ∀ e ∈ new, e.site = Site.storeLoadFlush →
        ∃ i, e.survivor = some i ∧ i.opcode = Opcode.Store ∧
          e.erased.opcode = Opcode.Load ∧ e.replacement = i.getOperand 0 ∧
          SameBlock (State.init c13Module).m i.id e.erased.id) ∧
    (CommonSubexpressionElimination domByAddress (State.init c13Module)).store_load_worklist
      = [] :=
  C13_forwarding_stays_in_block domByAddress (State.init c13Module) rfl rfl rfl

set_option maxRecDepth 100000 in
/-- Counterexample to C14: on the chain `P -> C -> G` the copy of `C` is
erased and its use redirected to the instruction of `P`, while the copy of `G`
and its use are still there after `CommonSubexpressionElimination`. -/
theorem C14_counterexample :
    (CommonSubexpressionElimination domByAddress (State.init c14Chain)).m =
      [⟨[[Inst.plain 1 Opcode.Mul i32 [Val.ext 10 i32, Val.ext 11 i32],
          ⟨2, Opcode.Br, voidTy, [], false, false, true, false, false, true⟩],
        [Inst.call 4 [Val.inst 1],
          ⟨5, Opcode.Br, voidTy, [], false, false, true, false, false, true⟩],
        [Inst.plain 6 Opcode.Mul i32 [Val.ext 10 i32, Val.ext 11 i32],
          Inst.ret 7 (Val.inst 6)]],
      [(0, [1]), (1, [2]), (2, [])]⟩] := by
  decide

set_option maxRecDepth 100000 in
/-- C14, as the code has it. The walk compares the instructions of a node
with those of its immediate children only. From a state with empty worklists,
every erase of the scan over a child merges an instruction of a child's block
into an instruction of the block of its dominator-tree parent, to which the
uses go, and every other erase merges two instructions of one block. On the
chain `P -> C -> G` the only erase is that of the copy of `C`, merged into the
instruction of `P`. -/
theorem C14_merges_from_immediate_parent (dominates : Nat → Nat → Bool) (s : State)
    (h1 : s.load_worklist = []) (h2 : s.store_worklist = [])
    (h3 : s.store_load_worklist = []) :
    (∃ new, (CommonSubexpressionElimination dominates s).log = s.log ++ new ∧
      ∀ e ∈ new, ∃ i, e.survivor = some i ∧
        (e.site = Site.domTreeScan → ParentChild s.m i.id e.erased.id ∧
          cse_check_opcode i = true ∧ e.replacement = some (Val.inst i.id)) ∧
        (e.site ≠ Site.domTreeScan → SameBlock s.m i.id e.erased.id)) ∧
    (CommonSubexpressionElimination domByAddress (State.init c14Chain)).log.map
        (fun e => (e.site, e.erased.id, e.replacement)) =
      [(Site.domTreeScan, 3, some (Val.inst 1))] := by
  refine ⟨?_, by decide⟩
  obtain ⟨new, g, hlog, _, _, _, hguard⟩ := CommonSubexpressionElimination_summary dominates s
  have hp := CommonSubexpressionElimination_prov dominates s h1 h2 h3
  refine ⟨new, hlog, fun e he => ?_⟩
  obtain ⟨m, _, hg⟩ := hguard e he
  obtain ⟨_, i0, hi0, _, _, _, hcase⟩ := hg.cse
  refine ⟨i0, hi0, fun hsite => ?_, fun hsite => ?_⟩
  · obtain ⟨i, hi, hpc⟩ := (hp.events hlog e he).of_domTreeScan hsite
    have hii : i0 = i := Option.some.inj (hi0.symm.trans hi)
    subst hii
    rcases hcase with ⟨_, hc, _, _, hv⟩ | ⟨h, _⟩ | ⟨h, _⟩ | ⟨h, _⟩
    · exact ⟨hpc, hc, hv⟩
    · rw [hsite] at h; exact absurd h (by decide)
    · rw [hsite] at h; exact absurd h (by decide)
    · rw [hsite] at h; exact absurd h (by decide)
  · obtain ⟨i, hi, hsb⟩ := (hp.events hlog e he).sameBlock hsite
    have hii : i0 = i := Option.some.inj (hi0.symm.trans hi)
    subst hii
    exact hsb

/-- Witness of C14 as the code has it: a run on the chain. -/
theorem C14_merges_from_immediate_parent_witness :
    (∃ new, (CommonSubexpressionElimination domByAddress (State.init c14Chain)).log =
        (State.init c14Chain).log ++ new ∧
      ∀ e ∈ new, ∃ i, e.survivor = some i ∧
        (e.site = Site.domTreeScan → ParentChild (State.init c14Chain).m i.id e.erased.id ∧
          cse_check_opcode i = true ∧ e.replacement = some (Val.inst i.id)) ∧
        (e.site ≠ Site.domTreeScan → SameBlock (State.init c14Chain).m i.id e.erased.id)) ∧
    (CommonSubexpressionElimination domByAddress (State.init c14Chain)).log.map
        (fun e => (e.site, e.erased.id, e.replacement)) =
      [(Site.domTreeScan, 3, some (Val.inst 1))] :=
  C14_merges_from_immediate_parent domByAddress (State.init c14Chain) rfl rfl rfl

/-! ## The dead-code pass as a single scan -/

theorem dceStep_shrunk {m0 : Module} {E0 : List Nat} (s : State) (iid : Nat)
    (h : Shrunk m0 E0 s) : Shrunk m0 E0 (dceStep noSimplify s iid) := by
  unfold dceStep
  cases hi : getInst s.m iid with
  | none => exact h
  | some i =>
    simp only [noSimplify]
    split_ifs
    · obtain ⟨E, hE, hm⟩ := h
      refine ⟨i.id :: E, fun id hid => List.mem_cons_of_mem _ (hE id hid), ?_⟩
      show eraseFromParent s.m i.id = _
      rw [hm]
      unfold eraseFromParent
      rw [filterInsts_filterInsts]
      refine filterInsts_congr _ _ (fun x => ?_) _
      rw [Bool.eq_iff_iff]
      simp only [Bool.and_eq_true, decide_eq_true_eq, Bool.not_eq_true', beq_eq_false_iff_ne,
        ne_eq, List.mem_cons, not_or]
      tauto
    · exact h

theorem getInst_shrunk_none {m0 : Module} {E0 : List Nat} {s : State} (h : Shrunk m0 E0 s)
    {iid : Nat} (hiid : iid ∈ E0) : getInst s.m iid = none := by
  obtain ⟨E, hE, hm⟩ := h
  unfold getInst
  rw [List.find?_eq_none]
  intro x hx
  rw [hm, allInsts_filterInsts] at hx
  have := (List.mem_filter.mp hx).2
  simp only [decide_eq_true_eq] at this
  simp only [beq_iff_eq]
  intro hid
  exact this (hid ▸ hE iid hiid)

theorem dceStep_skip (simplify : Module → Inst → Option Val) {m0 : Module} {E0 : List Nat}
    (s : State) (iid : Nat) (h : Shrunk m0 E0 s) (hiid : iid ∈ E0) :
    dceStep simplify s iid = s := by
  unfold dceStep
  rw [getInst_shrunk_none h hiid]

theorem foldl_filter_skip {α : Type} (I : State → Prop) (f : State → α → State)
    (p : α → Bool) (hI : ∀ s a, I s → I (f s a))
    (hskip : ∀ s a, I s → p a = false → f s a = s) (l : List α) (s : State) (h : I s) :
    (l.filter p).foldl f s = l.foldl f s := by
  induction l generalizing s with
  | nil => rfl
  | cons a l ih =>
    cases hp : p a with
    | true =>
      rw [List.filter_cons_of_pos hp, List.foldl_cons, List.foldl_cons]
      exact ih _ (hI s a h)
    | false =>
      rw [List.filter_cons_of_neg (by simp [hp]), List.foldl_cons, hskip s a h hp]
      exact ih s h

theorem blockIds_shrunk {m0 : Module} {E : List Nat} {m : Module}
    (hm : m = filterInsts (fun x => decide (x.id ∉ E)) m0) (fi bi : Nat) :
    blockIds m fi bi = (blockIds m0 fi bi).filter (fun id => decide (id ∉ E)) := by
  have h := getBlock_filter_map (fun x => decide (x.id ∉ E)) (fun x => x) m0 fi bi
  rw [mapInsts_id, ← hm, List.map_id'] at h
  unfold blockIds
  rw [h, List.filter_map]
  rfl

theorem dceBlock_flat {m0 : Module} (fi : Nat) (s : State) (bi : Nat) (h : Shrunk m0 [] s) :
    dceBlock noSimplify fi s bi = (blockIds m0 fi bi).foldl (dceStep noSimplify) s := by
  obtain ⟨E, _, hm⟩ := h
  unfold dceBlock
  rw [blockIds_shrunk hm]
  refine foldl_filter_skip (Shrunk m0 E) _ _ (fun st a hst => dceStep_shrunk st a hst)
    (fun st a hst hp => dceStep_skip noSimplify st a hst ?_) _ s ⟨E, fun _ h => h, hm⟩
  simpa using hp

theorem foldl_range_inv {β : Type} (I : State → Prop) (L : List β) (G : State → Nat → State)
    (F : State → β → State) (hI : ∀ s x, I s → I (F s x))
    (h : ∀ s i x, L.get? i = some x → I s → G s i = F s x) (s : State) (hs : I s) :
    (List.range L.length).foldl G s = L.foldl F s := by
  induction L using List.reverseRecOn with
  | nil => rfl
  | append_singleton L x ih =>
    rw [List.length_append, List.length_singleton, List.range_succ, List.foldl_append,
      List.foldl_append, List.foldl_cons, List.foldl_nil, List.foldl_cons, List.foldl_nil]
    have ih2 := ih (fun s i y hy hs => h s i y (by
      rw [List.get?_eq_getElem?] at hy ⊢
      rw [List.getElem?_append_left (List.getElem?_eq_some_iff.mp hy).1]
      exact hy) hs)
    rw [ih2]
    refine h _ _ _ ?_ (foldl_inv I F L (fun s a _ hs => hI s a hs) s hs)
    rw [List.get?_eq_getElem?]
    simp

theorem foldl_flatten_ids {β : Type} (k : β → Nat) (f : State → Nat → State) (L : List (List β))
    (s : State) :
    L.foldl (fun s b => (b.map k).foldl f s) s = (L.flatten.map k).foldl f s := by
  induction L generalizing s with
  | nil => rfl
  | cons b L ih =>
    rw [List.foldl_cons, List.flatten_cons, List.map_append, List.foldl_append]
    exact ih _

/-- With a simplification oracle that returns nothing, the nested loops of
`RunDeadCodeElimination` visit the addresses of the instructions the module
had at the start, in order, each once. -/
theorem RunDeadCodeElimination_flat (s : State) :
    RunDeadCodeElimination noSimplify s =
      ((allInsts s.m).map Inst.id).foldl (dceStep noSimplify) s := by
  have hI : ∀ (l : List Nat) (st : State), Shrunk s.m [] st →
      Shrunk s.m [] (l.foldl (dceStep noSimplify) st) := fun l st hst =>
    foldl_inv (Shrunk s.m []) _ l (fun st a _ h => dceStep_shrunk st a h) st hst
  have h0 : Shrunk s.m [] s := ⟨[], fun _ h => h, by
    simp only [List.not_mem_nil, not_false_eq_true, decide_True]
    rw [filterInsts_true]⟩
  unfold RunDeadCodeElimination
  rw [foldl_range_inv (Shrunk s.m []) s.m (dceFunction noSimplify)
    (fun st f0 => (f0.insts.map Inst.id).foldl (dceStep noSimplify) st)
    (fun st f0 hst => hI _ st hst) ?_ s h0]
  · unfold allInsts
    rw [← foldl_flatten_ids Inst.id (dceStep noSimplify) (s.m.map Function.insts) s,
      List.foldl_map]
  · intro st fi f0 hf0 hst
    obtain ⟨E, _, hm⟩ := hst
    have hget : st.m.get? fi =
        some ⟨f0.blocks.map (fun b => b.filter (fun x => decide (x.id ∉ E))), f0.domTree⟩ := by
      rw [hm]
      unfold filterInsts
      rw [List.get?_eq_getElem?, List.getElem?_map, ← List.get?_eq_getElem?, hf0]
      rfl
    unfold dceFunction
    rw [hget]
    simp only [List.length_map]
    rw [foldl_range_inv (Shrunk s.m []) f0.blocks (dceBlock noSimplify fi)
      (fun st b => (b.map Inst.id).foldl (dceStep noSimplify) st)
      (fun st b hst => hI _ st hst) ?_ st ⟨E, fun _ h => absurd h (List.not_mem_nil _), hm⟩]
    · exact foldl_flatten_ids Inst.id (dceStep noSimplify) f0.blocks st
    · intro st2 bi b hb hst2
      rw [dceBlock_flat fi st2 bi hst2]
      have : blockIds s.m fi bi = b.map Inst.id := by
        unfold blockIds getBlock
        rw [hf0]
        show List.map Inst.id ((f0.blocks.get? bi).getD []) = _
        rw [hb]
        rfl
      rw [this]

theorem scanVisit_offset (l : List Inst) (m : Module) (c d : Nat) :
    l.foldl scanVisit (m, c + d) =
      ((l.foldl scanVisit (m, c)).1, (l.foldl scanVisit (m, c)).2 + d) := by
  induction l generalizing m c with
  | nil => rfl
  | cons x l ih =>
    rw [List.foldl_cons, List.foldl_cons]
    unfold scanVisit
    by_cases h : isDead m x = true
    · simp only [h, if_true]
      have := ih (eraseFromParent m x.id) (c + 1)
      rw [show c + d + 1 = c + 1 + d by omega]
      exact this
    · simp only [h]
      exact ih m c

theorem nodup_ids_filter {m0 : Module} (hids : ((allInsts m0).map Inst.id).Nodup)
    (p : Inst → Bool) : ((allInsts (filterInsts p m0)).map Inst.id).Nodup := by
  rw [allInsts_filterInsts]
  exact hids.sublist ((List.filter_sublist _).map Inst.id)

theorem dceStep_scan (m0 : Module) (hids : ((allInsts m0).map Inst.id).Nodup) (l : List Inst) :
    ∀ (s : State) (E : List Nat), (l.map Inst.id).Nodup →
      (∀ x ∈ l, x ∈ allInsts m0 ∧ x.id ∉ E) →
      s.m = filterInsts (fun x => decide (x.id ∉ E)) m0 →
      ((l.map Inst.id).foldl (dceStep noSimplify) s).m =
          (l.foldl scanVisit (s.m, s.stats.CSEDead)).1 ∧
        ((l.map Inst.id).foldl (dceStep noSimplify) s).stats =
          ⟨(l.foldl scanVisit (s.m, s.stats.CSEDead)).2, s.stats.CSEElim, s.stats.CSESimplify,
            s.stats.CSELdElim, s.stats.CSEStore2Load, s.stats.CSEStElim⟩ := by
  induction l with
  | nil => intro s E _ _ _; exact ⟨rfl, rfl⟩
  | cons x l ih =>
    intro s E hnd hl hm
    have hx := hl x (List.mem_cons_self x l)
    have hxs : x ∈ allInsts s.m := by
      rw [hm, allInsts_filterInsts]
      exact List.mem_filter.mpr ⟨hx.1, by simpa using hx.2⟩
    have hget : getInst s.m x.id = some x :=
      getInst_of_mem (by rw [hm]; exact nodup_ids_filter hids _) hxs
    rw [List.map_cons, List.nodup_cons] at hnd
    rw [List.map_cons, List.foldl_cons, List.foldl_cons]
    by_cases hd : isDead s.m x = true
    · have e1 : dceStep noSimplify s x.id =
          ({ s with stats := { s.stats with CSEDead := s.stats.CSEDead + 1 } } : State).erase
            Site.dead x none none := by
        unfold dceStep
        rw [hget]
        simp only [hd, if_true]
      have e2 : scanVisit (s.m, s.stats.CSEDead) x =
          (eraseFromParent s.m x.id, s.stats.CSEDead + 1) := by
        unfold scanVisit
        simp only [hd, if_true]
      rw [e1, e2]
      refine ih _ (x.id :: E) hnd.2 (fun y hy => ⟨(hl y (List.mem_cons_of_mem x hy)).1, ?_⟩) ?_
      · intro hmem
        rcases List.mem_cons.mp hmem with h | h
        · exact hnd.1 (h ▸ List.mem_map_of_mem Inst.id hy)
        · exact (hl y (List.mem_cons_of_mem x hy)).2 h
      · show eraseFromParent s.m x.id = _
        rw [hm]
        unfold eraseFromParent
        rw [filterInsts_filterInsts]
        refine filterInsts_congr _ _ (fun y => ?_) _
        rw [Bool.eq_iff_iff]
        simp only [Bool.and_eq_true, decide_eq_true_eq, Bool.not_eq_true', beq_eq_false_iff_ne,
          ne_eq, List.mem_cons, not_or]
        tauto
    · have e1 : dceStep noSimplify s x.id = s := by
        unfold dceStep
        rw [hget]
        simp only [hd, noSimplify]
        rfl
      have e2 : scanVisit (s.m, s.stats.CSEDead) x = (s.m, s.stats.CSEDead) := by
        unfold scanVisit
        simp only [hd]
        rfl
      rw [e1, e2]
      exact ih s E hnd.2 (fun y hy => hl y (List.mem_cons_of_mem x hy)) hm

/-- C18. With a simplification oracle that returns nothing, on a module with
unique instruction addresses, `RunDeadCodeElimination` is the single in-order
scan: the module it leaves is the one `singleScan` leaves, in which each
instruction, visited once in block order, is removed exactly when `isDead`
holds for it in the module of that moment; the module is the original one
without the instructions at some addresses, the survivors in their order;
`CSEDead` rises by the number of instructions removed and the other counters
are unchanged. For the block `a = add x, y; b = add a, z; ret w` the pass erases
`b` only and `CSEDead` rises by 1. -/
theorem C18_dce_single_scan (s : State) (hids : ((allInsts s.m).map Inst.id).Nodup) :
    (RunDeadCodeElimination noSimplify s).m = (singleScan s.m).1 ∧
    (RunDeadCodeElimination noSimplify s).stats =
      ⟨s.stats.CSEDead + (singleScan s.m).2, s.stats.CSEElim, s.stats.CSESimplify,
        s.stats.CSELdElim, s.stats.CSEStore2Load, s.stats.CSEStElim⟩ ∧
    (∃ E : List Nat, (RunDeadCodeElimination noSimplify s).m =
      filterInsts (fun x => decide (x.id ∉ E)) s.m) ∧
    (RunDeadCodeElimination noSimplify (State.init c8Module)).m =
      [⟨[[Inst.plain 1 Opcode.Add i32 [Val.ext 10 i32, Val.ext 11 i32],
          Inst.ret 3 (Val.ext 13 i32)]], [(0, [])]⟩] ∧
    (RunDeadCodeElimination noSimplify (State.init c8Module)).stats.CSEDead = 1 := by
  have h0 : s.m = filterInsts (fun x => decide (x.id ∉ ([] : List Nat))) s.m := by
    simp only [List.not_mem_nil, not_false_eq_true, decide_True]
    rw [filterInsts_true]
  have hscan := dceStep_scan s.m hids (allInsts s.m) s [] hids
    (fun x hx => ⟨hx, List.not_mem_nil _⟩) h0
  have hoff := scanVisit_offset (allInsts s.m) s.m 0 s.stats.CSEDead
  rw [Nat.zero_add] at hoff
  rw [← RunDeadCodeElimination_flat, hoff] at hscan
  refine ⟨hscan.1, ?_, ?_, by decide, by decide⟩
  · rw [hscan.2]
    show Stats.mk _ _ _ _ _ _ = Stats.mk _ _ _ _ _ _
    rw [Nat.add_comm]
    rfl
  · rw [RunDeadCodeElimination_flat]
    obtain ⟨E, _, hE⟩ := foldl_inv (Shrunk s.m []) (dceStep noSimplify) _
      (fun st a _ h => dceStep_shrunk st a h) s ⟨[], fun _ h => h, h0⟩
    exact ⟨E, hE⟩

/-- Witness of C18: the pass on the block `a = add x, y; b = add a, z; ret w`. -/
theorem C18_dce_single_scan_witness :
    (RunDeadCodeElimination noSimplify (State.init c8Module)).m =
      (singleScan (State.init c8Module).m).1 ∧
    (RunDeadCodeElimination noSimplify (State.init c8Module)).stats =
      ⟨(State.init c8Module).stats.CSEDead + (singleScan (State.init c8Module).m).2,
        (State.init c8Module).stats.CSEElim, (State.init c8Module).stats.CSESimplify,
        (State.init c8Module).stats.CSELdElim, (State.init c8Module).stats.CSEStore2Load,
        (State.init c8Module).stats.CSEStElim⟩ ∧
    (∃ E : List Nat, (RunDeadCodeElimination noSimplify (State.init c8Module)).m =
      filterInsts (fun x => decide (x.id ∉ E)) (State.init c8Module).m) ∧
    (RunDeadCodeElimination noSimplify (State.init c8Module)).m =
      [⟨[[Inst.plain 1 Opcode.Add i32 [Val.ext 10 i32, Val.ext 11 i32],
          Inst.ret 3 (Val.ext 13 i32)]], [(0, [])]⟩] ∧
    (RunDeadCodeElimination noSimplify (State.init c8Module)).stats.CSEDead = 1 :=
  C18_dce_single_scan (State.init c8Module) (by decide)

/-! ## Blocks of a module with unique addresses -/

theorem mem_getBlock_iff {m : Module} {fi bi : Nat} {x : Inst} :
    x ∈ getBlock m fi bi ↔ ∃ f b, m[fi]? = some f ∧ f.blocks[bi]? = some b ∧ x ∈ b := by
  unfold getBlock
  rw [List.get?_eq_getElem?]
  cases hf : m[fi]? with
  | none => simp
  | some f =>
    simp only [List.get?_eq_getElem?]
    cases hb : f.blocks[bi]? with
    | none => simp [hb]
    | some b => simp [hb]

theorem disjoint_of_nodup_flatten {α : Type} {L : List (List α)} (h : L.flatten.Nodup)
    {i j : Nat} {a b : List α} (hi : L[i]? = some a) (hj : L[j]? = some b) {x : α}
    (ha : x ∈ a) (hb : x ∈ b) : i = j := by
  have hp := (List.nodup_flatten.mp h).2
  rw [List.pairwise_iff_getElem] at hp
  obtain ⟨hi1, hi2⟩ := List.getElem?_eq_some_iff.mp hi
  obtain ⟨hj1, hj2⟩ := List.getElem?_eq_some_iff.mp hj
  rcases Nat.lt_trichotomy i j with hlt | heq | hgt
  · exact absurd hb (by
      have := hp i j hi1 hj1 hlt
      rw [hi2, hj2] at this
      exact fun hb => this ha hb)
  · exact heq
  · exact absurd ha (by
      have := hp j i hj1 hi1 hgt
      rw [hi2, hj2] at this
      exact fun ha => this hb ha)

theorem block_index_unique {m : Module} (hids : ((allInsts m).map Inst.id).Nodup)
    {f1 b1 f2 b2 : Nat} {x : Inst} (h1 : x ∈ getBlock m f1 b1) (h2 : x ∈ getBlock m f2 b2) :
    f1 = f2 ∧ b1 = b2 := by
  have hn : (allInsts m).Nodup := List.Nodup.of_map _ hids
  obtain ⟨F1, B1, hF1, hB1, hx1⟩ := mem_getBlock_iff.mp h1
  obtain ⟨F2, B2, hF2, hB2, hx2⟩ := mem_getBlock_iff.mp h2
  unfold allInsts at hn
  have e1 : (m.map Function.insts)[f1]? = some F1.insts := by
    rw [List.getElem?_map, hF1]; rfl
  have e2 : (m.map Function.insts)[f2]? = some F2.insts := by
    rw [List.getElem?_map, hF2]; rfl
  have m1 : x ∈ F1.insts := List.mem_flatten.mpr ⟨B1, List.getElem?_mem hB1, hx1⟩
  have m2 : x ∈ F2.insts := List.mem_flatten.mpr ⟨B2, List.getElem?_mem hB2, hx2⟩
  have hf : f1 = f2 := disjoint_of_nodup_flatten hn e1 e2 m1 m2
  subst hf
  have hFF : F1 = F2 := Option.some.inj (hF1.symm.trans hF2)
  subst hFF
  refine ⟨rfl, ?_⟩
  have hn1 : F1.insts.Nodup :=
    (List.nodup_flatten.mp hn).1 _ (List.getElem?_mem e1)
  exact disjoint_of_nodup_flatten hn1 hB1 hB2 hx1 hx2

theorem Descends.nodup {m0 m : Module} (h : Descends m0 m)
    (hids : ((allInsts m0).map Inst.id).Nodup) : ((allInsts m).map Inst.id).Nodup := by
  obtain ⟨ids, g, hg, rfl⟩ := h
  rw [allInsts_filterInsts, allInsts_mapInsts]
  refine List.Nodup.sublist ((List.filter_sublist _).map Inst.id) ?_
  rw [List.map_map]
  have : (Inst.id ∘ g) = Inst.id := funext (fun x => frame_id (hg x))
  rw [this]
  exact hids

theorem mem_eraseBlock {jid : Nat} {v : Option Val} {C : Block} {y : Inst}
    (hy : y ∈ eraseBlock jid v C) : ∃ x ∈ C, y = redirect jid v x ∧ x.id ≠ jid := by
  unfold eraseBlock at hy
  obtain ⟨hy1, hy2⟩ := List.mem_filter.mp hy
  obtain ⟨x, hx, rfl⟩ := List.mem_map.mp hy1
  refine ⟨x, hx, rfl, ?_⟩
  rw [frame_id (redirect_frame jid v x)] at hy2
  simpa using hy2

theorem Tidy.eraseBlock {dominates : Nat → Nat → Bool} {ids0 : List Nat} {C : Block}
    {jid iid : Nat} (h : Tidy dominates ids0 C)
    (htr : ∀ a b c, dominates a b = true → dominates b c = true → dominates a c = true)
    (hij : jid ∈ ids0 → iid ∈ ids0 ∧ dominates iid jid = true) :
    Tidy dominates ids0 (eraseBlock jid (some (Val.inst iid)) C) := by
  intro y hy hop k hk
  obtain ⟨x, hx, rfl, _⟩ := mem_eraseBlock hy
  have hk2 : Val.inst k ∈ x.operands.map (substVal jid (Val.inst iid)) := hk
  obtain ⟨o, ho, hok⟩ := List.mem_map.mp hk2
  show k ∈ ids0 ∧ dominates k x.id = true
  unfold substVal at hok
  split_ifs at hok with e
  · have hkk : iid = k := Val.inst.inj hok
    subst hkk
    obtain ⟨h1, h2⟩ := h x hx hop jid (e ▸ ho)
    obtain ⟨h3, h4⟩ := hij h1
    exact ⟨h3, htr _ _ _ h4 h2⟩
  · exact h x hx hop k (hok ▸ ho)

theorem getInst_none_ne {m : Module} {id : Nat} (h : getInst m id = none) {x : Inst}
    (hx : x ∈ allInsts m) : x.id ≠ id := by
  unfold getInst at h
  rw [List.find?_eq_none] at h
  simpa using h x hx

theorem foldl_prefix_inv {α : Type} (Inv : List α → State → Prop) (f : State → α → State)
    (L : List α)
    (hstep : ∀ pre a post s, L = pre ++ a :: post → Inv pre s → Inv (pre ++ [a]) (f s a))
    (s : State) (h0 : Inv [] s) : Inv L (L.foldl f s) := by
  have key : ∀ (rest pre : List α) (s : State), L = pre ++ rest → Inv pre s →
      Inv L (rest.foldl f s) := by
    intro rest
    induction rest with
    | nil =>
      intro pre s hL h
      rw [List.append_nil] at hL
      rw [hL]; exact h
    | cons a rest ih =>
      intro pre s hL h
      rw [List.foldl_cons]
      exact ih (pre ++ [a]) (f s a) (by rw [hL, List.append_assoc]; rfl)
        (hstep pre a rest s hL h)
  exact key L [] s rfl h0

theorem cseBlock_trace (dominates : Nat → Nat → Bool) (fi : Nat) (s : State) (bi : Nat) :
    Trace (Pass.cse dominates) s (cseBlock dominates fi s bi) := by
  unfold cseBlock
  split_ifs
  · exact Trace.refl s
  · exact ((Trace.foldl _ (blockStep_trace dominates fi bi) _ s).trans
      (process_load_worklist_trace dominates _)).trans (process_store_worklist_trace dominates _)

theorem foldl_fixed {α : Type} (f : State → α → State) (l : List α) (s : State)
    (h : ∀ a ∈ l, f s a = s) : l.foldl f s = s := by
  induction l with
  | nil => rfl
  | cons a l ih =>
    rw [List.foldl_cons, h a (List.mem_cons_self a l)]
    exact ih (fun b hb => h b (List.mem_cons_of_mem a hb))

theorem notRemovable_of_sideEffects {j : Inst} (h : j.mayHaveSideEffects = true) :
    j.notRemovable = true := by
  unfold Inst.notRemovable
  simp [h]

theorem storeInner_fixed (dominates : Nat → Nat → Bool) (iid : Nat) (s : State) (jid : Nat)
    (h : ∀ j, getInst s.m jid = some j → j.mayHaveSideEffects = true) :
    storeInner dominates iid s jid = s := by
  unfold storeInner
  cases getInst s.m iid with
  | none => rfl
  | some i =>
    cases hj : getInst s.m jid with
    | none => rfl
    | some j =>
      simp only
      split_ifs with h1 h2 h3
      · rw [notRemovable_of_sideEffects (h j hj)] at h3
        exact absurd h3 (by decide)
      all_goals rfl

theorem process_store_worklist_flushlog (dominates : Nat → Nat → Bool) {base : Nat} (s : State)
    (h : StoreFlushLog base s) : StoreFlushLog base (process_store_worklist dominates s) := by
  unfold process_store_worklist
  have h1 : StoreFlushLog base (s.store_worklist.reverse.foldl (storeOuter dominates) s) := by
    refine foldl_inv (StoreFlushLog base) _ _ (fun st p _ hst => ?_) s h
    unfold storeOuter
    split_ifs
    · refine foldl_inv (StoreFlushLog base) _ _ (fun st2 jid _ hst2 => ?_) st hst
      unfold storeInner
      cases getInst st2.m p with
      | none => exact hst2
      | some i =>
        cases getInst st2.m jid with
        | none => exact hst2
        | some j =>
          simp only
          split_ifs with c1 c2 c3
          · refine ⟨?_, ?_⟩
            · show base ≤ (st2.erase Site.storeFlush j (some i) (some (Val.inst p))).log.length
              rw [erase_log, List.length_append]
              have := hst2.1
              omega
            · intro e he
              have he2 : e ∈ (st2.erase Site.storeFlush j (some i)
                  (some (Val.inst p))).log.drop base := he
              rw [erase_log, List.drop_append_of_le_length hst2.1] at he2
              rcases List.mem_append.mp he2 with he2 | he2
              · exact hst2.2 e he2
              · simp only [List.mem_singleton] at he2
                subst he2
                exact ⟨rfl, by simpa using c3⟩
          all_goals exact hst2
    · exact hst
  exact h1

/-- C21. From any state, every erase that `process_store_worklist` logs is
an erase of the store flush of an instruction that reports no side effects,
and `CSEStElim` rises by the number of these erases. When every instruction
that `store_worklist` holds (it holds stores) reports side effects, the
function changes nothing but the worklist, which it empties: no instruction is
erased, no operand is rewritten and the counters keep their values. -/
theorem C21_store_flush_frame (dominates : Nat → Nat → Bool) (s : State)
    (h : ∀ jid ∈ s.store_worklist, ∀ j, getInst s.m jid = some j →
      j.mayHaveSideEffects = true) :
    process_store_worklist dominates s = { s with store_worklist := [] } ∧
    ∀ s0 : State, ∃ new, (process_store_worklist dominates s0).log = s0.log ++ new ∧
      (∀ e ∈ new, e.site = Site.storeFlush ∧ e.erased.mayHaveSideEffects = false) ∧
      (process_store_worklist dominates s0).stats.CSEStElim =
        s0.stats.CSEStElim + new.length := by
  constructor
  · have key : s.store_worklist.reverse.foldl (storeOuter dominates) s = s := by
      refine foldl_fixed _ _ s (fun p _ => ?_)
      unfold storeOuter
      split_ifs
      · refine foldl_fixed _ _ s (fun jid hjid => ?_)
        exact storeInner_fixed dominates p s jid
          (h jid (List.mem_reverse.mp (mem_fromMember hjid)))
      · rfl
    unfold process_store_worklist
    rw [key]
  · intro s0
    obtain ⟨new, g, hsum⟩ := (process_store_worklist_trace dominates s0).summary
    have hfl := process_store_worklist_flushlog dominates s0
      (⟨le_refl _, fun e he => by rw [List.drop_length] at he; cases he⟩ :
        StoreFlushLog s0.log.length s0)
    have hall : ∀ e ∈ new, e.site = Site.storeFlush ∧ e.erased.notRemovable = false := by
      intro e he
      refine hfl.2 e ?_
      rw [hsum.log, List.drop_left]
      exact he
    refine ⟨new, hsum.log, fun e he => ⟨(hall e he).1,
      notRemovable_sideEffects (hall e he).2⟩, ?_⟩
    rw [hsum.stats, foldl_bump]
    show s0.stats.CSEStElim + new.countP (fun e => e.site == Site.storeFlush) = _
    have : new.countP (fun e => e.site == Site.storeFlush) = new.length := by
      rw [List.countP_eq_length]
      intro e he
      simp [(hall e he).1]
    rw [this]

/-- Witness of C21: the two stores of `store v, p; store w, p; ret` in the
worklist, under the oracle that follows address order. -/
theorem C21_store_flush_frame_witness :
    process_store_worklist domByAddress c21State = { c21State with store_worklist := [] } ∧
    ∀ s0 : State, ∃ new, (process_store_worklist domByAddress s0).log = s0.log ++ new ∧
      (∀ e ∈ new, e.site = Site.storeFlush ∧ e.erased.mayHaveSideEffects = false) ∧
      (process_store_worklist domByAddress s0).stats.CSEStElim =
        s0.stats.CSEStElim + new.length :=
  C21_store_flush_frame domByAddress c21State (by
    intro jid hjid j hj
    have h1 : getInst c21State.m 1 =
        some (Inst.store 1 (Val.ext 10 i32) (Val.ext 12 ptrTy) false) := by decide
    have h2 : getInst c21State.m 2 =
        some (Inst.store 2 (Val.ext 11 i32) (Val.ext 12 ptrTy) false) := by decide
    have hmem : jid = 1 ∨ jid = 2 := by
      have : jid ∈ [1, 2] := hjid
      simpa using this
    rcases hmem with e | e
    · subst e
      rw [h1] at hj
      cases hj
      rfl
    · subst e
      rw [h2] at hj
      cases hj
      rfl)

/-! ## Stretches of a block between memory accesses -/

theorem Since.mem_pre {m0 : Module} {o : Opcode} {pre : List Nat} {id : Nat}
    (h : Since m0 o pre id) : id ∈ pre := by
  obtain ⟨p1, p2, rfl, _⟩ := h
  exact List.mem_append_right _ (List.mem_cons_self _ _)

theorem Since.extend {m0 : Module} {o : Opcode} {pre : List Nat} {id z : Nat}
    (h : Since m0 o pre id) (hz : ¬ HasOpcode m0 o z) : Since m0 o (pre ++ [z]) id := by
  obtain ⟨p1, p2, rfl, hno⟩ := h
  refine ⟨p1, p2 ++ [z], by simp, fun k hk => ?_⟩
  rcases List.mem_append.mp hk with hk | hk
  · exact hno k hk
  · simp only [List.mem_singleton] at hk
    rw [hk]; exact hz

theorem Since.last (m0 : Module) (o : Opcode) (pre : List Nat) (z : Nat) :
    Since m0 o (pre ++ [z]) z :=
  ⟨pre, [], rfl, fun k hk => by cases hk⟩

theorem between_of_since {m0 : Module} {o : Opcode} {L pre rest : List Nat} {a b : Nat}
    (hn : L.Nodup) (hL : L = pre ++ rest) (ha : Since m0 o pre a) (hb : b ∈ pre)
    {p mid q : List Nat} (hd : L = p ++ a :: (mid ++ b :: q)) :
    ∀ k ∈ mid, ¬ HasOpcode m0 o k := by
  obtain ⟨p1, p2, hpre, hno⟩ := ha
  have hL2 : L = p1 ++ a :: (p2 ++ rest) := by rw [hL, hpre]; simp
  have hn2 := hn
  rw [hL2, List.nodup_middle, List.nodup_cons] at hn2
  have ha1 : a ∉ p1 := fun h => hn2.1 (List.mem_append_left _ h)
  have ha2 : a ∉ p2 ++ rest := fun h => hn2.1 (List.mem_append_right _ h)
  have heq := (List.append_cons_inj_of_not_mem ha1 ha2).mp (hL2.symm.trans hd)
  obtain ⟨hp, _, htail⟩ := heq
  have hn3 : (p2 ++ rest).Nodup := (List.nodup_append.mp hn2.2).2.1
  have hbne : b ≠ a := by
    intro e
    apply ha2
    rw [htail, ← e]
    exact List.mem_append_right _ (List.mem_cons_self _ _)
  have hbp1 : b ∉ p1 := by
    intro h
    have hdis := (List.nodup_append.mp hn2.2).2.2
    exact hdis h (by rw [htail]; exact List.mem_append_right _ (List.mem_cons_self _ _))
  have hbp2 : b ∈ p2 := by
    rw [hpre] at hb
    rcases List.mem_append.mp hb with h | h
    · exact absurd h hbp1
    · rcases List.mem_cons.mp h with h | h
      · exact absurd h hbne
      · exact h
  obtain ⟨m1, m2, hm⟩ := List.append_of_mem hbp2
  have hn4 := hn3
  rw [hm, List.append_assoc, List.cons_append, List.nodup_middle, List.nodup_cons] at hn4
  have hb1 : b ∉ m1 := fun h => hn4.1 (List.mem_append_left _ h)
  have hb2 : b ∉ m2 ++ rest := fun h => hn4.1 (List.mem_append_right _ h)
  have heq2 := (List.append_cons_inj_of_not_mem hb1 hb2).mp
    (show m1 ++ b :: (m2 ++ rest) = mid ++ b :: q by
      rw [← htail, hm]; simp)
  intro k hk
  refine hno k ?_
  rw [hm, heq2.1]
  exact List.mem_append_left _ hk

theorem apart_of_sameSeg {m0 : Module} {o : Opcode} {L : List Nat} {a b : Nat}
    (hn : L.Nodup) (h : SameSeg m0 o L a b) {p mid q : List Nat} {x y : Nat}
    (hd : L = p ++ x :: (mid ++ y :: q)) (hxy : x = a ∧ y = b ∨ x = b ∧ y = a) :
    ∀ k ∈ mid, ¬ HasOpcode m0 o k := by
  obtain ⟨pre, rest, hL, ha, hb⟩ := h
  rcases hxy with ⟨rfl, rfl⟩ | ⟨rfl, rfl⟩
  · exact between_of_since hn hL ha hb.mem_pre hd
  · exact between_of_since hn hL hb ha.mem_pre hd

theorem getBlock_sublist (m : Module) (fi bi : Nat) :
    (getBlock m fi bi).Sublist (allInsts m) := by
  unfold getBlock
  rw [List.get?_eq_getElem?]
  cases hf : m[fi]? with
  | none => exact List.nil_sublist _
  | some f =>
    simp only [List.get?_eq_getElem?]
    cases hb : f.blocks[bi]? with
    | none => exact List.nil_sublist _
    | some b =>
      simp only [Option.getD_some]
      have h1 : b.Sublist f.insts := List.sublist_flatten_of_mem (List.getElem?_mem hb)
      have h2 : f.insts.Sublist (allInsts m) :=
        List.sublist_flatten_of_mem (List.mem_map_of_mem Function.insts (List.getElem?_mem hf))
      exact h1.trans h2

theorem blockIds_nodup {m : Module} (hids : ((allInsts m).map Inst.id).Nodup) (fi bi : Nat) :
    (blockIds m fi bi).Nodup :=
  List.Nodup.sublist ((getBlock_sublist m fi bi).map Inst.id) hids

/-- The opcode of an instruction of a descendant of `m0` is the opcode its
address has in `m0`. -/
theorem static_opcode {m0 m : Module} (hids : ((allInsts m0).map Inst.id).Nodup)
    (hd : Descends m0 m) {id : Nat} {x : Inst} (hx : getInst m id = some x) {o : Opcode}
    (ho : HasOpcode m0 o id) : x.opcode = o := by
  obtain ⟨hmem, hid⟩ := getInst_some hx
  obtain ⟨x0, hx0, hfr⟩ := hd.mem hmem
  obtain ⟨y0, hy0, hyid, hyo⟩ := ho
  have hxy : x0 = y0 := eq_of_nodup_ids hids hx0 hy0
    ((frame_id hfr).symm.trans (hid.trans hyid.symm))
  rw [frame_opcode hfr, hxy]
  exact hyo

theorem WInv.afterEvent {m0 : Module} {fi bi : Nat} {L : List Nat} {AL AS : Nat → Prop}
    {rest : List Nat} {base : Nat} {s s2 : State} {site : Site} {j : Inst} {i : Option Inst}
    {w : Val} (h : WInv m0 fi bi L AL AS rest base s)
    (hm : s2.m = (s.erase site j i (some w)).m) (hl : s2.log = (s.erase site j i (some w)).log)
    (h1 : ∀ id ∈ s2.load_worklist, id ∈ s.load_worklist)
    (h2 : ∀ id ∈ s2.store_worklist, id ∈ s.store_worklist)
    (hrest : ∀ id ∈ rest, (HasOpcode m0 Opcode.Load id ∨ HasOpcode m0 Opcode.Store id) →
      id ≠ j.id)
    (hev : ∀ n, SegEvent m0 L ⟨site, j, i, some w, n⟩) :
    WInv m0 fi bi L AL AS rest base s2 := by
  refine ⟨?_, by rw [hl, erase_log, List.length_append]; have := h.le; omega, ?_,
    fun id hid => h.loads id (h1 id hid), fun id hid => h.stores id (h2 id hid), ?_, ?_⟩
  · rw [hm]; exact h.desc.compose (descends_erase s site j i (some w))
  · intro id hid
    rw [hm] at hid
    exact h.sub id ((descends_erase s site j i (some w)).inBlock hid)
  · intro id hid hop
    rw [hm, getInst_erase_ne s site j i w id (hrest id hid hop)]
    have := h.alive id hid hop
    cases hg : getInst s.m id with
    | none => exact absurd hg this
    | some x => simp
  · intro e he
    rw [hl, erase_log, List.drop_append_of_le_length h.le] at he
    rcases List.mem_append.mp he with he | he
    · exact h.log e he
    · simp only [List.mem_singleton] at he
      subst he
      exact hev _

theorem WInv.relax {m0 : Module} {fi bi : Nat} {L : List Nat} {AL AS AL2 AS2 : Nat → Prop}
    {rest rest2 : List Nat} {base : Nat} {s : State} (h : WInv m0 fi bi L AL AS rest base s)
    (h1 : ∀ id, AL id → AL2 id) (h2 : ∀ id, AS id → AS2 id) (h3 : ∀ id ∈ rest2, id ∈ rest) :
    WInv m0 fi bi L AL2 AS2 rest2 base s :=
  ⟨h.desc, h.le, h.sub, fun id hid => h1 id (h.loads id hid),
    fun id hid => h2 id (h.stores id hid), fun id hid => h.alive id (h3 id hid), h.log⟩

theorem scanStep_seg (dominates : Nat → Nat → Bool) {m0 : Module} {fi bi : Nat} {L : List Nat}
    {AL AS : Nat → Prop} {rest : List Nat} {base : Nat}
    (hids : ((allInsts m0).map Inst.id).Nodup) (iid : Nat) (s : State) (jid : Nat)
    (hiL : iid ∈ L) (hjL : jid ∈ L)
    (hi : ∃ i, getInst s.m iid = some i ∧ cse_check_opcode i = true)
    (h : WInv m0 fi bi L AL AS rest base s) :
    WInv m0 fi bi L AL AS rest base (scanStep dominates Site.blockScan iid s jid) := by
  obtain ⟨i, hii, hchk⟩ := hi
  unfold scanStep
  rw [hii]
  cases hjj : getInst s.m jid with
  | none => exact h
  | some j =>
    simp only
    split_ifs with c1 c2 c3
    · have hop : cseOpcode j.opcode = true := by
        rw [← sameShape_opcode c1]; exact cse_check_opcode_cseOpcode hchk
      have hjid : j.id = jid := (getInst_some hjj).2
      refine @WInv.afterEvent m0 fi bi L AL AS rest base s _ Site.blockScan j (some i)
        (Val.inst iid) h rfl rfl (fun _ hx => hx) (fun _ hx => hx) ?_ (fun n => ?_)
      · intro id _ hmem e
        rw [e, hjid] at hmem
        rcases hmem with hm | hm
        · rw [static_opcode hids h.desc hjj hm] at hop
          exact absurd hop (by decide)
        · rw [static_opcode hids h.desc hjj hm] at hop
          exact absurd hop (by decide)
      · refine ⟨i, rfl, ?_, ?_, fun e => ?_, fun e => ?_⟩
        · rw [(getInst_some hii).2]; exact hiL
        · show j.id ∈ L
          rw [hjid]; exact hjL
        · have e2 : j.opcode = Opcode.Load := e
          rw [e2] at hop
          exact absurd hop (by decide)
        · have e2 : j.opcode = Opcode.Store := e
          rw [e2] at hop
          exact absurd hop (by decide)
    all_goals exact h

theorem loadInner_seg (dominates : Nat → Nat → Bool) {m0 : Module} {fi bi : Nat} {L : List Nat}
    {AL AS : Nat → Prop} {rest : List Nat} {base : Nat}
    (hids : ((allInsts m0).map Inst.id).Nodup) {pre tail : List Nat} (hL : L = pre ++ tail)
    (hdisj : ∀ id ∈ rest, id ∉ pre) (iid : Nat) (s : State) (jid : Nat)
    (hi : LoadSeg m0 pre iid) (hj : LoadSeg m0 pre jid)
    (h : WInv m0 fi bi L AL AS rest base s) :
    WInv m0 fi bi L AL AS rest base (loadInner dominates iid s jid) := by
  unfold loadInner
  cases hii : getInst s.m iid with
  | none => exact h
  | some i =>
    cases hjj : getInst s.m jid with
    | none => exact h
    | some j =>
      have hiid : i.id = iid := (getInst_some hii).2
      have hjid : j.id = jid := (getInst_some hjj).2
      simp only
      split_ifs
      · refine @WInv.afterEvent m0 fi bi L AL AS rest base s _ Site.loadFlush j (some i)
          (Val.inst iid) h rfl rfl (fun _ hx => mem_setErase hx) (fun _ hx => hx) ?_
          (fun n => ?_)
        · intro id hid _ e
          rw [e, hjid] at hid
          exact hdisj jid hid hj.2.mem_pre
        · refine ⟨i, rfl, ?_, ?_, fun _ => ⟨static_opcode hids h.desc hii hi.1, ?_⟩,
            fun e => ?_⟩
          · rw [hiid, hL]; exact List.mem_append_left _ hi.2.mem_pre
          · show j.id ∈ L
            rw [hjid, hL]; exact List.mem_append_left _ hj.2.mem_pre
          · show SameSeg m0 Opcode.Store L i.id j.id
            rw [hiid, hjid]
            exact ⟨pre, tail, hL, hi.2, hj.2⟩
          · have e2 : j.opcode = Opcode.Store := e
            rw [static_opcode hids h.desc hjj hj.1] at e2
            exact absurd e2 (by decide)
      all_goals exact h

theorem process_load_worklist_seg (dominates : Nat → Nat → Bool) {m0 : Module} {fi bi : Nat}
    {L : List Nat} {AL AS : Nat → Prop} {rest : List Nat} {base : Nat}
    (hids : ((allInsts m0).map Inst.id).Nodup) {pre tail : List Nat} (hL : L = pre ++ tail)
    (hdisj : ∀ id ∈ rest, id ∉ pre) (s : State) (hAL : ∀ id, AL id → LoadSeg m0 pre id)
    (h : WInv m0 fi bi L AL AS rest base s) :
    WInv m0 fi bi L Nowhere AS rest base (process_load_worklist dominates s) := by
  unfold process_load_worklist
  have h1 : WInv m0 fi bi L AL AS rest base (s.load_worklist.foldl (loadOuter dominates) s) := by
    refine foldl_inv (WInv m0 fi bi L AL AS rest base) _ _ (fun st p _ hst => ?_) s h
    unfold loadOuter
    split_ifs with hp
    · exact foldl_inv (WInv m0 fi bi L AL AS rest base) _ _
        (fun st2 jid hjid hst2 => loadInner_seg dominates hids hL hdisj p st2 jid
          (hAL p (hst.loads p hp)) (hAL jid (hst.loads jid (mem_fromMember hjid))) hst2) st hst
    · exact hst
  exact ⟨h1.desc, h1.le, h1.sub, fun _ hx => (by cases hx), h1.stores, h1.alive, h1.log⟩

theorem storeInner_seg (dominates : Nat → Nat → Bool) {m0 : Module} {fi bi : Nat}
    {L : List Nat} {AL AS : Nat → Prop} {rest : List Nat} {base : Nat}
    (hids : ((allInsts m0).map Inst.id).Nodup) {pre tail : List Nat} (hL : L = pre ++ tail)
    (hdisj : ∀ id ∈ rest, id ∉ pre) (iid : Nat) (s : State) (jid : Nat)
    (hi : StoreSeg m0 pre iid) (hj : StoreSeg m0 pre jid)
    (h : WInv m0 fi bi L AL AS rest base s) :
    WInv m0 fi bi L AL AS rest base (storeInner dominates iid s jid) := by
  unfold storeInner
  cases hii : getInst s.m iid with
  | none => exact h
  | some i =>
    cases hjj : getInst s.m jid with
    | none => exact h
    | some j =>
      have hiid : i.id = iid := (getInst_some hii).2
      have hjid : j.id = jid := (getInst_some hjj).2
      simp only
      split_ifs
      · refine @WInv.afterEvent m0 fi bi L AL AS rest base s _ Site.storeFlush j (some i)
          (Val.inst iid) h rfl rfl (fun _ hx => hx) (fun _ hx => mem_setErase hx) ?_
          (fun n => ?_)
        · intro id hid _ e
          rw [e, hjid] at hid
          exact hdisj jid hid hj.2.mem_pre
        · refine ⟨i, rfl, ?_, ?_, fun e => ?_,
            fun _ => ⟨static_opcode hids h.desc hii hi.1, ?_⟩⟩
          · rw [hiid, hL]; exact List.mem_append_left _ hi.2.mem_pre
          · show j.id ∈ L
            rw [hjid, hL]; exact List.mem_append_left _ hj.2.mem_pre
          · have e2 : j.opcode = Opcode.Load := e
            rw [static_opcode hids h.desc hjj hj.1] at e2
            exact absurd e2 (by decide)
          · show SameSeg m0 Opcode.Load L i.id j.id
            rw [hiid, hjid]
            exact ⟨pre, tail, hL, hi.2, hj.2⟩
      all_goals exact h

theorem process_store_worklist_seg (dominates : Nat → Nat → Bool) {m0 : Module} {fi bi : Nat}
    {L : List Nat} {AL AS : Nat → Prop} {rest : List Nat} {base : Nat}
    (hids : ((allInsts m0).map Inst.id).Nodup) {pre tail : List Nat} (hL : L = pre ++ tail)
    (hdisj : ∀ id ∈ rest, id ∉ pre) (s : State) (hAS : ∀ id, AS id → StoreSeg m0 pre id)
    (h : WInv m0 fi bi L AL AS rest base s) :
    WInv m0 fi bi L AL Nowhere rest base (process_store_worklist dominates s) := by
  unfold process_store_worklist
  have h1 : WInv m0 fi bi L AL AS rest base
      (s.store_worklist.reverse.foldl (storeOuter dominates) s) := by
    refine foldl_inv (WInv m0 fi bi L AL AS rest base) _ _ (fun st p _ hst => ?_) s h
    unfold storeOuter
    split_ifs with hp
    · exact foldl_inv (WInv m0 fi bi L AL AS rest base) _ _
        (fun st2 jid hjid hst2 => storeInner_seg dominates hids hL hdisj p st2 jid
          (hAS p (hst.stores p hp))
          (hAS jid (hst.stores jid (List.mem_reverse.mp (mem_fromMember hjid)))) hst2) st hst
    · exact hst
  exact ⟨h1.desc, h1.le, h1.sub, h1.loads, fun _ hx => (by cases hx), h1.alive, h1.log⟩

theorem getInst_ne_none_of_mem {m : Module} {x : Inst} (hx : x ∈ allInsts m) :
    getInst m x.id ≠ none := by
  intro h
  exact getInst_none_ne h hx rfl

theorem blockStep_seg (dominates : Nat → Nat → Bool) {m0 : Module} {fi bi : Nat} {L : List Nat}
    {base : Nat} (hids : ((allInsts m0).map Inst.id).Nodup) (hn : L.Nodup)
    {pre rest : List Nat} {iid : Nat} (hL : L = pre ++ iid :: rest) (s : State)
    (h : WInv m0 fi bi L (LoadSeg m0 pre) (StoreSeg m0 pre) (iid :: rest) base s) :
    WInv m0 fi bi L (LoadSeg m0 (pre ++ [iid])) (StoreSeg m0 (pre ++ [iid])) rest base
      (blockStep dominates fi bi s iid) := by
  have hdisj : ∀ id ∈ rest, id ∉ pre := by
    intro id hid hpre
    rw [hL] at hn
    exact (List.nodup_append.mp hn).2.2 hpre (List.mem_cons_of_mem _ hid)
  have hiL : iid ∈ L := by
    rw [hL]; exact List.mem_append_right _ (List.mem_cons_self _ _)
  have hsub : ∀ id ∈ rest, id ∈ iid :: rest := fun id hid => List.mem_cons_of_mem _ hid
  have pass : ¬ HasOpcode m0 Opcode.Load iid → ¬ HasOpcode m0 Opcode.Store iid →
      WInv m0 fi bi L (LoadSeg m0 (pre ++ [iid])) (StoreSeg m0 (pre ++ [iid])) rest base s :=
    fun hl hs => h.relax (fun id hid => ⟨hid.1, hid.2.extend hs⟩)
      (fun id hid => ⟨hid.1, hid.2.extend hl⟩) hsub
  unfold blockStep
  cases hi : getInst s.m iid with
  | none =>
    exact pass (fun hl => h.alive iid (List.mem_cons_self _ _) (Or.inl hl) hi)
      (fun hs => h.alive iid (List.mem_cons_self _ _) (Or.inr hs) hi)
  | some i =>
    have hstat : ∀ o, HasOpcode m0 o iid → i.opcode = o :=
      fun o ho => static_opcode hids h.desc hi ho
    have hop := h.desc.hasOpcode hi
    simp only
    split_ifs with c1 c2 c3
    · rw [c1] at hop
      have hs : ¬ HasOpcode m0 Opcode.Store iid := fun ho => by
        have := hstat _ ho
        rw [c1] at this
        exact absurd this (by decide)
      have hin : WInv m0 fi bi L (LoadSeg m0 (pre ++ [iid])) (StoreSeg m0 pre) rest base
          { s with load_worklist := setInsert iid s.load_worklist } :=
        ⟨h.desc, h.le, h.sub, fun id hid => (mem_setInsert hid).elim
          (fun e => (by rw [e]; exact ⟨hop, Since.last m0 Opcode.Store pre iid⟩))
          (fun hold => ⟨(h.loads id hold).1, (h.loads id hold).2.extend hs⟩),
          h.stores, fun id hid => h.alive id (hsub id hid), h.log⟩
      exact (process_store_worklist_seg dominates hids hL hdisj _ (fun _ hx => hx) hin).relax
        (fun _ hx => hx) (fun _ hx => False.elim hx) (fun _ hx => hx)
    · rw [c2] at hop
      have hl : ¬ HasOpcode m0 Opcode.Load iid := fun ho => by
        have := hstat _ ho
        rw [c2] at this
        exact absurd this (by decide)
      have hin : WInv m0 fi bi L (LoadSeg m0 pre) (StoreSeg m0 (pre ++ [iid])) rest base
          { s with store_worklist := setInsert iid s.store_worklist } :=
        ⟨h.desc, h.le, h.sub, h.loads, fun id hid => (mem_setInsert hid).elim
          (fun e => (by rw [e]; exact ⟨hop, Since.last m0 Opcode.Load pre iid⟩))
          (fun hold => ⟨(h.stores id hold).1, (h.stores id hold).2.extend hl⟩),
          fun id hid => h.alive id (hsub id hid), h.log⟩
      exact (process_load_worklist_seg dominates hids hL hdisj _ (fun _ hx => hx) hin).relax
        (fun _ hx => False.elim hx) (fun _ hx => hx) (fun _ hx => hx)
    · have h2 := pass (fun ho => c1 (hstat _ ho)) (fun ho => c2 (hstat _ ho))
      exact (foldl_inv (fun st => WInv m0 fi bi L (LoadSeg m0 (pre ++ [iid]))
          (StoreSeg m0 (pre ++ [iid])) rest base st ∧
          ∃ i, getInst st.m iid = some i ∧ cse_check_opcode i = true) _ _
        (fun st jid hjid hst => ⟨scanStep_seg dominates hids iid st jid hiL
            (h.sub jid (mem_idsFrom hjid)) hst.2 hst.1,
          (scanStep_trace dominates Site.blockScan (Or.inl rfl) iid st jid hst.2).2⟩)
        s ⟨h2, i, hi, c3⟩).1
    · exact pass (fun ho => c1 (hstat _ ho)) (fun ho => c2 (hstat _ ho))

/-- The per-block phase on one block, from a state with empty load and store
worklists: every erase it logs is an erase on the addresses the block had,
and the two worklists are empty again. -/
theorem cseBlock_seg (dominates : Nat → Nat → Bool) {m0 : Module}
    (hids : ((allInsts m0).map Inst.id).Nodup) (fi : Nat) (s : State) (bi : Nat)
    (hd : Descends m0 s.m) (h1 : s.load_worklist = []) (h2 : s.store_worklist = []) :
    WInv m0 fi bi (blockIds s.m fi bi) Nowhere Nowhere [] s.log.length
      (cseBlock dominates fi s bi) := by
  have hn : (blockIds s.m fi bi).Nodup := blockIds_nodup (hd.nodup hids) fi bi
  have h0 : ∀ (AL AS : Nat → Prop) (rest : List Nat), (∀ id ∈ rest, id ∈ blockIds s.m fi bi) →
      WInv m0 fi bi (blockIds s.m fi bi) AL AS rest s.log.length s := by
    intro AL AS rest hrest
    refine ⟨hd, le_refl _, fun _ hx => hx, fun id hid => ?_, fun id hid => ?_,
      fun id hid _ => ?_, fun e he => ?_⟩
    · rw [h1] at hid; cases hid
    · rw [h2] at hid; cases hid
    · obtain ⟨x, hx, hxid⟩ := List.mem_map.mp (hrest id hid)
      rw [← hxid]
      exact getInst_ne_none_of_mem (mem_allInsts_of_getBlock hx)
    · rw [List.drop_length] at he; cases he
  unfold cseBlock
  split_ifs
  · exact h0 Nowhere Nowhere [] (fun _ hx => by cases hx)
  · have hfold := foldl_prefix_inv
      (fun pre st => ∀ rest, blockIds s.m fi bi = pre ++ rest →
        WInv m0 fi bi (blockIds s.m fi bi) (LoadSeg m0 pre) (StoreSeg m0 pre) rest
          s.log.length st)
      (blockStep dominates fi bi) (blockIds s.m fi bi)
      (fun pre a post st hL hst rest hrest => by
        have hr : rest = post := by
          rw [hL, List.append_assoc] at hrest
          exact (List.cons.inj (List.append_cancel_left hrest)).2.symm
        rw [hr]
        exact blockStep_seg dominates hids hn hL st (hst (a :: post) hL))
      s (fun rest hrest => h0 _ _ rest (fun id hid => by
        rw [hrest]; exact hid))
    have hend := hfold [] (List.append_nil _).symm
    have hL : blockIds s.m fi bi = blockIds s.m fi bi ++ [] := (List.append_nil _).symm
    exact process_store_worklist_seg dominates hids hL (fun _ hx => by cases hx) _
      (fun _ hx => hx)
      (process_load_worklist_seg dominates hids hL (fun _ hx => by cases hx) _
        (fun _ hx => hx) hend)

theorem blockIds_unique {m : Module} (hids : ((allInsts m).map Inst.id).Nodup)
    {f1 b1 f2 b2 id : Nat} (h1 : id ∈ blockIds m f1 b1) (h2 : id ∈ blockIds m f2 b2) :
    f1 = f2 ∧ b1 = b2 := by
  unfold blockIds at h1 h2
  obtain ⟨x, hx, hxid⟩ := List.mem_map.mp h1
  obtain ⟨y, hy, hyid⟩ := List.mem_map.mp h2
  have hxy : x = y := eq_of_nodup_ids hids (mem_allInsts_of_getBlock hx)
    (mem_allInsts_of_getBlock hy) (hxid.trans hyid.symm)
  subst hxy
  exact block_index_unique hids hx hy

theorem PhaseSeg.mono {m0 : Module} {base : Nat} {done done2 : Nat → Nat → Prop} {st : State}
    (h : PhaseSeg m0 base done st) (hm : ∀ f b, done f b → done2 f b) :
    PhaseSeg m0 base done2 st :=
  ⟨h.desc, h.le, h.loads, h.stores, h.log, fun f b hn => h.fresh f b (fun hd => hn (hm f b hd))⟩

theorem cseBlock_phaseSeg (dominates : Nat → Nat → Bool) {m0 : Module} {base : Nat}
    {done : Nat → Nat → Prop} (hids : ((allInsts m0).map Inst.id).Nodup) (f : Nat)
    (st : State) (b : Nat) (h : PhaseSeg m0 base done st) (hnd : ¬ done f b)
    {done2 : Nat → Nat → Prop} (hmono : ∀ f2 b2, done f2 b2 → done2 f2 b2)
    (hfb : done2 f b) : PhaseSeg m0 base done2 (cseBlock dominates f st b) := by
  have hw := cseBlock_seg dominates hids f st b h.desc h.loads h.stores
  have hL : blockIds st.m f b = blockIds m0 f b := h.fresh f b hnd
  obtain ⟨new, g, hsum⟩ := (cseBlock_trace dominates f st b).summary
  have hnew : ∀ e ∈ new, SegEvent m0 (blockIds m0 f b) e := by
    intro e he
    rw [← hL]
    refine hw.log e ?_
    rw [hsum.log, List.drop_left]
    exact he
  refine ⟨hw.desc, le_trans h.le hw.le,
    List.eq_nil_iff_forall_not_mem.mpr (fun id hid => hw.loads id hid),
    List.eq_nil_iff_forall_not_mem.mpr (fun id hid => hw.stores id hid), ?_, ?_⟩
  · intro e he
    rw [hsum.log, List.drop_append_of_le_length h.le] at he
    rcases List.mem_append.mp he with he | he
    · exact h.log e he
    · exact ⟨f, b, hnew e he⟩
  · intro f2 b2 hn2
    have hn1 : ¬ done f2 b2 := fun hd => hn2 (hmono f2 b2 hd)
    rw [← h.fresh f2 b2 hn1]
    unfold blockIds
    rw [hsum.m, getBlock_filter_map]
    have hkeep : ((getBlock st.m f2 b2).map g).filter
        (fun x => decide (x.id ∉ new.map (fun e => e.erased.id))) =
        (getBlock st.m f2 b2).map g := by
      rw [List.filter_eq_self]
      intro y hy
      obtain ⟨x, hx, rfl⟩ := List.mem_map.mp hy
      simp only [decide_eq_true_eq]
      intro hmem
      obtain ⟨e, he, heid⟩ := List.mem_map.mp hmem
      obtain ⟨_, _, _, hin, _⟩ := hnew e he
      have hx2 : x.id ∈ blockIds m0 f2 b2 := by
        rw [← h.fresh f2 b2 hn1]
        exact List.mem_map_of_mem Inst.id hx
      have heq : (g x).id = x.id := frame_id (hsum.keep x)
      have hin2 : x.id ∈ blockIds m0 f b := by
        rw [← heq, ← heid]; exact hin
      obtain ⟨e1, e2⟩ := blockIds_unique hids hx2 hin2
      rw [e1, e2] at hn2
      exact hn2 hfb
    rw [hkeep, List.map_map]
    have : (Inst.id ∘ g) = Inst.id := funext (fun x => frame_id (hsum.keep x))
    rw [this]

theorem cseFunction_phaseSeg (dominates : Nat → Nat → Bool) {m0 : Module} {base : Nat}
    {done : Nat → Nat → Prop} (hids : ((allInsts m0).map Inst.id).Nodup) (st : State)
    (f : Nat) (h : PhaseSeg m0 base done st) (hnd : ∀ b, ¬ done f b) :
    PhaseSeg m0 base (fun f2 b2 => done f2 b2 ∨ f2 = f) (cseFunction dominates st f) := by
  unfold cseFunction
  cases st.m.get? f with
  | none => exact h.mono (fun _ _ hd => Or.inl hd)
  | some F =>
    have hfold := foldl_prefix_inv
      (fun pre st2 => PhaseSeg m0 base (fun f2 b2 => done f2 b2 ∨ (f2 = f ∧ b2 ∈ pre)) st2)
      (cseBlock dominates f) (List.range F.blocks.length)
      (fun pre b post st2 hL hst2 => by
        have hn := List.nodup_range F.blocks.length
        rw [hL] at hn
        have hb : b ∉ pre := fun hb =>
          (List.nodup_append.mp hn).2.2 hb (List.mem_cons_self _ _)
        refine cseBlock_phaseSeg dominates hids f st2 b hst2 ?_ ?_ ?_
        · rintro (hd | ⟨_, hd⟩)
          · exact hnd b hd
          · exact hb hd
        · rintro f2 b2 (hd | ⟨e, hd⟩)
          · exact Or.inl hd
          · exact Or.inr ⟨e, List.mem_append_left _ hd⟩
        · exact Or.inr ⟨rfl, List.mem_append_right _ (List.mem_singleton_self _)⟩)
      st (h.mono (fun _ _ hd => Or.inl hd))
    exact hfold.mono (fun f2 b2 hd => hd.elim Or.inl (fun e => Or.inr e.1))

theorem csePerBlock_phaseSeg (dominates : Nat → Nat → Bool) {m0 : Module} {base : Nat}
    (hids : ((allInsts m0).map Inst.id).Nodup) (s : State)
    (h : PhaseSeg m0 base (fun _ _ => False) s) :
    PhaseSeg m0 base (fun _ _ => True) (csePerBlock dominates s) := by
  unfold csePerBlock
  have hfold := foldl_prefix_inv
    (fun pre st => PhaseSeg m0 base (fun f2 _ => f2 ∈ pre) st)
    (cseFunction dominates) (List.range s.m.length)
    (fun pre f post st hL hst => by
      have hn := List.nodup_range s.m.length
      rw [hL] at hn
      have hf : f ∉ pre := fun hf =>
        (List.nodup_append.mp hn).2.2 hf (List.mem_cons_self _ _)
      refine (cseFunction_phaseSeg dominates hids st f hst (fun _ => hf)).mono ?_
      rintro f2 b2 (hd | hd)
      · exact List.mem_append_left _ hd
      · rw [hd]; exact List.mem_append_right _ (List.mem_singleton_self _))
    s (h.mono (fun _ _ hd => False.elim hd))
  exact hfold.mono (fun _ _ _ => trivial)

theorem cseBlock_worklists (dominates : Nat → Nat → Bool) (f : Nat) (st : State) (b : Nat)
    (h1 : st.load_worklist = []) (h2 : st.store_worklist = []) :
    (cseBlock dominates f st b).load_worklist = [] ∧
      (cseBlock dominates f st b).store_worklist = [] := by
  have hp : Prov st.m Nowhere Nowhere (fun _ => True) st.log.length st := by
    refine ⟨Descends.self st.m, le_refl _, fun id hid => ?_, fun id hid => ?_,
      fun _ _ => trivial, fun e he => ?_⟩
    · rw [h1] at hid; cases hid
    · rw [h2] at hid; cases hid
    · rw [List.drop_length] at he; cases he
  have key : Prov st.m Nowhere Nowhere (fun _ => True) st.log.length
      (cseBlock dominates f st b) := by
    unfold cseBlock
    split_ifs
    · exact hp
    · have h0 : Prov st.m (LoadOf st.m f b) (StoreOf st.m f b) (fun _ => True) st.log.length st :=
        hp.weaken (fun _ hx => False.elim hx) (fun _ hx => False.elim hx) (fun _ hx => hx)
      have hf := foldl_inv
        (Prov st.m (LoadOf st.m f b) (StoreOf st.m f b) (fun _ => True) st.log.length) _ _
        (fun st2 iid hiid hst2 => blockStep_prov dominates st2 iid
          (hp.desc.inBlock hiid) hst2) st h0
      exact process_store_worklist_prov dominates _ (fun _ hx => hx)
        (process_load_worklist_prov dominates _ (fun _ hx => hx) hf)
  exact ⟨List.eq_nil_iff_forall_not_mem.mpr (fun id hid => key.loads id hid),
    List.eq_nil_iff_forall_not_mem.mpr (fun id hid => key.stores id hid)⟩

theorem SameSeg.noneBetween {m0 : Module} (hids : ((allInsts m0).map Inst.id).Nodup)
    {o : Opcode} {fi bi a b : Nat} (h : SameSeg m0 o (blockIds m0 fi bi) a b) :
    NoneBetween m0 fi bi o a b := by
  intro p x mid y q hblock hxy k hk hop
  have hd : blockIds m0 fi bi =
      p.map Inst.id ++ x.id :: (mid.map Inst.id ++ y.id :: q.map Inst.id) := by
    unfold blockIds
    rw [hblock]
    simp
  refine apart_of_sameSeg (blockIds_nodup hids fi bi) h hd hxy k.id
    (List.mem_map_of_mem Inst.id hk) ⟨k, ?_, rfl, hop⟩
  have hkb : k ∈ getBlock m0 fi bi := by
    rw [hblock]
    exact List.mem_append_right _ (List.mem_cons_of_mem _ (List.mem_append_left _ hk))
  exact mem_allInsts_of_getBlock hkb

set_option maxRecDepth 100000 in
/-- C22. From a state with empty load and store worklists, on a module with
unique instruction addresses, every erase of the per-block phase merges two
instructions of one block; when the erased instruction is a load, it was
merged into a load and no store lies between the two in the program order of
the block; when it is a store, it was merged into a store and no load lies
between the two. Both worklists are empty at the end of the phase, and the
phase on one block, started with both worklists empty, leaves both empty. For
the block `l1 = load p; store v, p; l2 = load p; call f(l1, l2)` the phase
erases nothing. -/
theorem C22_memory_merges_stay_in_segment (dominates : Nat → Nat → Bool) (s : State)
    (h1 : s.load_worklist = []) (h2 : s.store_worklist = [])
    (hids : ((allInsts s.m).map Inst.id).Nodup) :
    (∃ new, (csePerBlock dominates s).log = s.log ++ new ∧
      ∀ e ∈ new, ∃ i fi bi, e.survivor = some i ∧ i.id ∈ blockIds s.m fi bi ∧
        e.erased.id ∈ blockIds s.m fi bi ∧
        (e.erased.opcode = Opcode.Load → i.opcode = Opcode.Load ∧
          NoneBetween s.m fi bi Opcode.Store i.id e.erased.id) ∧
        (e.erased.opcode = Opcode.Store → i.opcode = Opcode.Store ∧
          NoneBetween s.m fi bi Opcode.Load i.id e.erased.id)) ∧
    (csePerBlock dominates s).load_worklist = [] ∧
    (csePerBlock dominates s).store_worklist = [] ∧
    (∀ (st : State) (f b : Nat), st.load_worklist = [] → st.store_worklist = [] →
      (cseBlock dominates f st b).load_worklist = [] ∧
        (cseBlock dominates f st b).store_worklist = []) ∧
    (csePerBlock domByAddress (State.init c22Module)).m = c22Module := by
  have h0 : PhaseSeg s.m s.log.length (fun _ _ => False) s :=
    ⟨Descends.self s.m, le_refl _, h1, h2, fun e he => (by
      rw [List.drop_length] at he; cases he), fun _ _ _ => rfl⟩
  have hp := csePerBlock_phaseSeg dominates hids s h0
  obtain ⟨new, g, hsum⟩ := (CommonSubexpressionElimination_trace dominates s).1.summary
  refine ⟨⟨new, hsum.log, fun e he => ?_⟩, hp.loads, hp.stores,
    fun st f b => cseBlock_worklists dominates f st b, by decide⟩
  obtain ⟨fi, bi, i, hi, hiL, hjL, hload, hstore⟩ := hp.log e (by
    rw [hsum.log, List.drop_left]; exact he)
  exact ⟨i, fi, bi, hi, hiL, hjL,
    fun hop => ⟨(hload hop).1, (hload hop).2.noneBetween hids⟩,
    fun hop => ⟨(hstore hop).1, (hstore hop).2.noneBetween hids⟩⟩

set_option maxRecDepth 100000 in
/-- Witness of C22: the per-block phase on the block `t1 = add a, b;
t2 = add a, b; store t2, p; l1 = load p; l2 = load p; call f(t1, l1, l2)`. -/
theorem C22_memory_merges_stay_in_segment_witness :
    (∃ new, (csePerBlock domByAddress (State.init c2ModuleUsed)).log =
        (State.init c2ModuleUsed).log ++ new ∧
      ∀ e ∈ new, ∃ i fi bi, e.survivor = some i ∧
        i.id ∈ blockIds (State.init c2ModuleUsed).m fi bi ∧
        e.erased.id ∈ blockIds (State.init c2ModuleUsed).m fi bi ∧
        (e.erased.opcode = Opcode.Load → i.opcode = Opcode.Load ∧
          NoneBetween (State.init c2ModuleUsed).m fi bi Opcode.Store i.id e.erased.id) ∧
        (e.erased.opcode = Opcode.Store → i.opcode = Opcode.Store ∧
          NoneBetween (State.init c2ModuleUsed).m fi bi Opcode.Load i.id e.erased.id)) ∧
    (csePerBlock domByAddress (State.init c2ModuleUsed)).load_worklist = [] ∧
    (csePerBlock domByAddress (State.init c2ModuleUsed)).store_worklist = [] ∧
    (∀ (st : State) (f b : Nat), st.load_worklist = [] → st.store_worklist = [] →
      (cseBlock domByAddress f st b).load_worklist = [] ∧
        (cseBlock domByAddress f st b).store_worklist = []) ∧
    (csePerBlock domByAddress (State.init c22Module)).m = c22Module :=
  C22_memory_merges_stay_in_segment domByAddress (State.init c2ModuleUsed) rfl rfl (by decide)

/-! ## The merges inside a straight block -/

end P2
